import Mathlib

/-!
# tiffcompressor: a verification development

A shallow embedding of `tiffcompressor.go` (package `main`): the start-up
validation of `main`, the directory-walk callback, `isTIFF`, the worker pool,
`compressTIFF` and the final size report.

Go strings are modelled as lists of characters.  The functions of Go's
standard library that the program calls (`strings.HasPrefix`,
`strings.HasSuffix`, `strings.ToLower`, `filepath.Clean`, `filepath.Join`,
`filepath.Base`, `filepath.Abs`, `filepath.Rel`, `filepath.Ext`) are modelled
after their documented behaviour on Unix (separator `/`, no volume names).
-/

namespace TiffCompressor

/-! ## Strings -/

/-- A Go string, as its sequence of characters. -/
abbrev Str := List Char

/-- Go `strings.HasPrefix`. -/
def HasPrefix (s pre : Str) : Bool := pre.isPrefixOf s

/-- Go `strings.HasSuffix`. -/
def HasSuffix (s suf : Str) : Bool := suf.isSuffixOf s

/-- Go `unicode.ToLower` on one rune.  ASCII capitals are shifted by 32; the
two non-ASCII runes whose lower case is an ASCII letter (U+0130, dotted capital
I, and U+212A, the Kelvin sign) are mapped to `i` and `k`.  Every other rune
has a non-ASCII lower case in Go and is left as it is here, which makes no
difference to a comparison with an ASCII string. -/
def toLowerRune (c : Char) : Char :=
  if c.toNat = 0x130 then 'i'
  else if c.toNat = 0x212A then 'k'
  else if 65 ≤ c.toNat ∧ c.toNat ≤ 90 then Char.ofNat (c.toNat + 32)
  else c

/-- Go `strings.ToLower`. -/
def ToLower (s : Str) : Str := s.map toLowerRune

/-! ## Paths (`path/filepath` on Unix) -/

/-- The elements of a string between its separators `/`
(`strings.Split(s, "/")`): always at least one element. -/
def splitSep : Str → List Str
  | [] => [[]]
  | c :: cs =>
    if c = '/' then [] :: splitSep cs
    else
      match splitSep cs with
      | [] => [[c]]
      | w :: ws => (c :: w) :: ws

/-- The elements joined with the separator `/` (`strings.Join(elems, "/")`). -/
def joinSep : List Str → Str
  | [] => []
  | [w] => w
  | w :: v :: ws => w ++ '/' :: joinSep (v :: ws)

/-- One element of the scan of `filepath.Clean`.  `stk` is the output so far,
as a stack of elements (last element first).  Empty elements and `.` are
dropped; `..` removes the last element when there is one to remove, is
dropped at the root of a rooted path, and is kept at the start of a relative
path; any other element is appended. -/
def cleanStep (rooted : Bool) (stk : List Str) (e : Str) : List Str :=
  if e = [] then stk
  else if e = ['.'] then stk
  else if e = ['.', '.'] then
    match stk with
    | [] => if rooted then [] else [e]
    | top :: rest => if top = ['.', '.'] then e :: stk else rest
  else e :: stk

/-- The cleaned elements of a path, first element first. -/
def cleanElems (rooted : Bool) (es : List Str) : List Str :=
  (es.foldl (cleanStep rooted) []).reverse

/-- The text of a cleaned path: `/` and the elements for a rooted path, the
elements for a relative one, and `.` for the empty relative path. -/
def render (rooted : Bool) (es : List Str) : Str :=
  if rooted then '/' :: joinSep es
  else if es = [] then ['.'] else joinSep es

/-- Go `filepath.IsAbs` on Unix. -/
def IsAbs (path : Str) : Bool := path.head? = some '/'

/-- Go `filepath.Clean`: the shortest path name equivalent to `path` by
purely lexical processing. -/
def Clean (path : Str) : Str :=
  if path = [] then ['.']
  else render (IsAbs path) (cleanElems (IsAbs path) (splitSep path))

/-- Go `filepath.Join`: the elements from the first non-empty one on, joined
with `/` and cleaned; the empty string when all elements are empty. -/
def Join : List Str → Str
  | [] => []
  | e :: es => if e = [] then Join es else Clean (joinSep (e :: es))

/-- The text after the last separator of a string with no trailing separator. -/
def lastElem (path : Str) : Str := (splitSep path).getLast?.getD []

/-- A string without its trailing separators. -/
def stripTrailingSeps (path : Str) : Str :=
  (path.reverse.dropWhile (fun c => c = '/')).reverse

/-- Go `filepath.Base`: the last element of the path, after removing trailing
separators; `.` for the empty path and `/` for a path of separators only. -/
def Base (path : Str) : Str :=
  if path = [] then ['.']
  else
    let e := lastElem (stripTrailingSeps path)
    if e = [] then ['/'] else e

/-- Go `filepath.Ext`: the suffix of the last element of the path that starts
at its last dot; empty when that element has no dot.  `acc` holds the
characters already passed, scanning from the end. -/
def extScan : List Char → List Char → Str
  | [], _ => []
  | c :: rest, acc =>
    if c = '/' then []
    else if c = '.' then c :: acc
    else extScan rest (c :: acc)

/-- Go `filepath.Ext`. -/
def Ext (path : Str) : Str := extScan path.reverse []

/-- Go `filepath.Abs` on Unix.  `cwd` is what `os.Getwd` returns, `none` when
it fails. -/
def Abs (cwd : Option Str) (path : Str) : Option Str :=
  if IsAbs path then some (Clean path)
  else
    match cwd with
    | none => none
    | some wd => some (Join [wd, path])

/-- The elements that the loop of `filepath.Rel` walks over in a cleaned
path: none for the empty string, the single empty element for `/`. -/
def relElems (s : Str) : List Str :=
  if s = [] then [] else if s = ['/'] then [[]] else splitSep s

/-- The loop of `filepath.Rel` on the elements of the cleaned base and target:
equal leading elements are skipped; a base element `..` left over after that
is an error (the result would depend on the working directory); otherwise the
result climbs out of what is left of the base and then descends into what is
left of the target.  The program calls `Rel` on absolute cleaned paths only,
whose elements are never `..`. -/
def relLoop : List Str → List Str → Option (List Str)
  | [], ts => some ts
  | b :: bs, [] =>
    if b = ['.', '.'] then none
    else some (List.replicate (bs.length + 1) ['.', '.'])
  | b :: bs, t :: ts =>
    if b = t then relLoop bs ts
    else if b = ['.', '.'] then none
    else some (List.replicate (bs.length + 1) ['.', '.'] ++ t :: ts)

/-- Go `filepath.Rel` on Unix; `none` when Go returns an error. -/
def Rel (basepath targpath : Str) : Option Str :=
  let base := Clean basepath
  let targ := Clean targpath
  if targ = base then some ['.']
  else
    let base := if base = ['.'] then [] else base
    if IsAbs base != IsAbs targ then none
    else (relLoop (relElems base) (relElems targ)).map joinSep

/-! ## `isTIFF` -/

/-- Source `isTIFF`. -/
def isTIFF (path : Str) : Bool :=
  let lower := ToLower path
  HasSuffix lower ".tif".toList || HasSuffix lower ".tiff".toList

/-! ## Start-up of `main` -/

/-- The command line after `flag.Parse`: the flags and the positional
arguments. -/
structure Args where
  logfile : Str
  threads : Int
  outdir : Str
  positional : List Str

/-- The package-level variables `rootDir`, `outputDir` and `outputRoot`, as
`main` leaves them for `compressTIFF`. -/
structure Config where
  rootDir : Str
  outputDir : Str
  outputRoot : Str
deriving DecidableEq, Repr

/-- How the start-up of `main` ends: `exit code` is `os.Exit(code)`, after
which nothing runs; `proceed cfg` means that `main` goes on with the
package-level variables `cfg`: it creates the log file, walks `rootDir` and
hands every file found to `compressTIFF`. -/
inductive Startup where
  | exit (code : Nat)
  | proceed (cfg : Config)
deriving DecidableEq, Repr

/-- Source `main`, from the check of the argument count to the end of the
validation of `--outdir`.  An error of `filepath.Rel` is discarded by the
source, which leaves `rel` empty. -/
def startup (cwd : Option Str) (args : Args) : Startup :=
  match args.positional with
  | [] => .exit 1
  | arg0 :: _ =>
    match Abs cwd arg0 with
    | none => .exit 1
    | some abs =>
      let rootDir := Clean abs
      let outputRoot := if args.outdir ≠ [] then Join [args.outdir, Base rootDir] else []
      if args.outdir ≠ [] then
        match Abs cwd args.outdir with
        | none => .exit 1
        | some absOut =>
          let outputDir := Clean absOut
          let rel := (Rel rootDir outputDir).getD []
          if !HasPrefix rel ['.', '.'] then .exit 1
          else .proceed { rootDir := rootDir, outputDir := outputDir, outputRoot := outputRoot }
      else .proceed { rootDir := rootDir, outputDir := [], outputRoot := outputRoot }

/-! ## File discovery -/

/-- One call of the walk function by `filepath.WalkDir`: the path, whether the
entry is a directory, and whether the walk reports an error for it. -/
structure WalkEntry where
  path : Str
  isDir : Bool
  err : Bool
deriving DecidableEq, Repr

/-- The function that `main` passes to `filepath.WalkDir`, applied to the
entries in the order of the walk: an entry with an error ends the walk with
that error (`none`); a non-directory that satisfies `isTIFF` is appended to
`tiffFiles`. -/
def gather : List WalkEntry → List Str → Option (List Str)
  | [], tiffFiles => some tiffFiles
  | d :: rest, tiffFiles =>
    if d.err then none
    else if !d.isDir && isTIFF d.path then gather rest (tiffFiles ++ [d.path])
    else gather rest tiffFiles

/-- The path that `filepath.WalkDir` builds for an entry found below `root`
through the directory entries `names`: `filepath.Join(path, name)` at each
level. -/
def walkPath (root : Str) (names : List Str) : Str :=
  names.foldl (fun dir name => Join [dir, name]) root

/-- A name that a directory entry can have: not empty, not `.` or `..`, and
without a separator. -/
def validName (n : Str) : Prop :=
  n ≠ [] ∧ n ≠ ['.'] ∧ n ≠ ['.', '.'] ∧ '/' ∉ n

instance (n : Str) : Decidable (validName n) := by
  unfold validName; infer_instance

/-! ## The file system and the codec -/

/-- The content of a file. -/
abbrev Bytes := List UInt8

/-- The regular files of the file system, by absolute cleaned path. -/
abbrev FS := Str → Option Bytes

/-- The file system after `path` has been created or overwritten with `b`. -/
def FS.write (fs : FS) (path : Str) (b : Bytes) : FS :=
  fun q => if q = path then some b else fs q

/-- The file system after `os.Remove(path)`. -/
def FS.remove (fs : FS) (path : Str) : FS :=
  fun q => if q = path then none else fs q

/-- The file system after a successful `os.Rename(oldpath, newpath)`. -/
def FS.rename (fs : FS) (oldpath newpath : Str) : FS :=
  fun q => if q = newpath then fs oldpath else if q = oldpath then none else fs q

/-- The TIFF codec (`golang.org/x/image/tiff`): `decode` is `tiff.Decode`
(`none` for an error), `encode` gives the bytes that `tiff.Encode` writes with
`Compression: tiff.Deflate` when writing succeeds. -/
structure Codec (Img : Type) where
  decode : Bytes → Option Img
  encode : Img → Bytes

/-- The failures that the operating system injects into one call of
`compressTIFF`.  Each flag makes the named step fail where it would otherwise
succeed; `encodeFails = some b` makes `tiff.Encode` return an error after `b`
has reached the file; `removeFails` makes `os.Remove` fail, which leaves the
file in place. -/
structure Faults where
  statFails : Bool
  openFails : Bool
  mkdirFails : Bool
  createFails : Bool
  encodeFails : Option Bytes
  renameFails : Bool
  removeFails : Bool
  statNewFails : Bool

/-- No injected failure. -/
def Faults.none : Faults :=
  { statFails := false, openFails := false, mkdirFails := false, createFails := false,
    encodeFails := Option.none, renameFails := false, removeFails := false,
    statNewFails := false }

/-- The errors that `compressTIFF` returns, by the step that failed. -/
inductive Err where
  | absPath | stat | openFile | decode | createTemp | encode | rename
  | relPath | mkdir | createOut | statNew
deriving DecidableEq, Repr

/-- A line that `compressTIFF` or a worker writes to the log. -/
inductive LogLine where
  | ok (base : Str) (originalSize newSize : Int)
  | error (path : Str) (e : Err)
deriving DecidableEq, Repr

/-- What `compressTIFF` reads and changes: the file system, the two
package-level counters and the log. -/
structure World where
  fs : FS
  totalOriginalBytes : Int
  totalCompressedBytes : Int
  log : List LogLine

/-- The value of an `int64` after an addition that may wrap around. -/
def wrapInt64 (x : Int) : Int := (x + 2 ^ 63) % 2 ^ 64 - 2 ^ 63

/-- Go `atomic.AddInt64`. -/
def addInt64 (x delta : Int) : Int := wrapInt64 (x + delta)

/-- The output path of `compressTIFF` in mirror mode:
`filepath.Join(outputRoot, relPath)` with `relPath` from
`filepath.Rel(rootDir, inputPathAbs)`; `none` when `Rel` fails. -/
def mirrorPath (cfg : Config) (inputPathAbs : Str) : Option Str :=
  (Rel cfg.rootDir inputPathAbs).map (fun relPath => Join [cfg.outputRoot, relPath])

/-- The file that the operating system reaches through a path: the key of the
file in `FS`.  A relative path is resolved against the working directory of
the process, which never changes; resolution is lexical (the model has no
symbolic links). -/
def resolvePath (cwd : Option Str) (path : Str) : Str :=
  (Abs cwd path).getD path

/-- The file that `compressTIFF` writes in mirror mode: what its output path
resolves to. -/
def mirrorFile (cwd : Option Str) (cfg : Config) (inputPathAbs : Str) : Option Str :=
  (mirrorPath cfg inputPathAbs).map (resolvePath cwd)

/-- The file system after `os.Remove(path)` as `compressTIFF` calls it, with
the result dropped: the file is gone when the removal succeeds and stays when
it fails. -/
def removeIgnored (f : Faults) (fs : FS) (path : Str) : FS :=
  if f.removeFails then fs else fs.remove path

/-- The end of `compressTIFF`, from `os.Stat(outputPath)` on: the size of the
file now at `outputPath` is read back, the two counters are updated and the
success line is logged.  `outFile` is the file that `outputPath` names. -/
def finish (f : Faults) (w : World) (fs : FS) (outputPath outFile : Str) (originalSize : Int) :
    Option Err × World :=
  match (if f.statNewFails then none else fs outFile) with
  | none => (some .statNew, { w with fs := fs })
  | some newContent =>
    let newSize : Int := newContent.length
    (none,
      { fs := fs
        totalOriginalBytes := addInt64 w.totalOriginalBytes originalSize
        totalCompressedBytes := addInt64 w.totalCompressedBytes newSize
        log := w.log ++ [.ok (Base outputPath) originalSize newSize] })

/-- Source `compressTIFF`.  The result is the returned error (`none` for
`nil`) and the world after the call.  `inputPathAbs` and `tmpPath` are
absolute and name their files directly; the output path of mirror mode, which
is relative when `--outdir` is, names the file it resolves to. -/
def compressTIFF {Img : Type} (codec : Codec Img) (cwd : Option Str) (cfg : Config)
    (f : Faults) (inputPath : Str) (w : World) : Option Err × World :=
  match Abs cwd inputPath with
  | none => (some .absPath, w)
  | some inputPathAbs =>
    match (if f.statFails then none else w.fs inputPathAbs) with
    | none => (some .stat, w)
    | some content =>
      let originalSize : Int := content.length
      if f.openFails then (some .openFile, w)
      else
        match codec.decode content with
        | none => (some .decode, w)
        | some img =>
          if cfg.outputDir = [] then
            let tmpPath := inputPathAbs ++ ".tmp".toList
            if f.createFails then (some .createTemp, w)
            else
              let fs1 := w.fs.write tmpPath []
              match f.encodeFails with
              | some written =>
                (some .encode, { w with fs := removeIgnored f (fs1.write tmpPath written) tmpPath })
              | none =>
                let fs2 := fs1.write tmpPath (codec.encode img)
                if f.renameFails then (some .rename, { w with fs := removeIgnored f fs2 tmpPath })
                else
                  finish f w (fs2.rename tmpPath inputPathAbs) inputPathAbs inputPathAbs
                    originalSize
          else
            match mirrorPath cfg inputPathAbs with
            | none => (some .relPath, w)
            | some outputPath =>
              let outFile := resolvePath cwd outputPath
              if f.mkdirFails then (some .mkdir, w)
              else if f.createFails then (some .createOut, w)
              else
                let fs1 := w.fs.write outFile []
                match f.encodeFails with
                | some written =>
                  (some .encode,
                    { w with fs := removeIgnored f (fs1.write outFile written) outFile })
                | none =>
                  finish f w (fs1.write outFile (codec.encode img)) outputPath outFile
                    originalSize

/-- The files that a call of `compressTIFF` on `inputPathAbs` can create,
overwrite, rename or remove. -/
def writeSet (cwd : Option Str) (cfg : Config) (inputPathAbs : Str) : List Str :=
  if cfg.outputDir = [] then [inputPathAbs, inputPathAbs ++ ".tmp".toList]
  else (mirrorFile cwd cfg inputPathAbs).toList

/-- The file whose size `compressTIFF` reads back after a successful write:
the file at its output path. -/
def outputFileOf (cwd : Option Str) (cfg : Config) (inputPathAbs : Str) : Option Str :=
  if cfg.outputDir = [] then some inputPathAbs else mirrorFile cwd cfg inputPathAbs

/-! ## The size report -/

/-- A `float64`: a finite value, an infinity or NaN.  A finite value is the
rational it stands for; the sign of zero is not kept (no zero that `main`
computes from totals that are not negative is negative). -/
inductive F64 where
  | fin (q : ℚ)
  | posInf
  | negInf
  | nan
deriving DecidableEq

/-- The integer nearest to a rational, the even one of the two when the
rational lies halfway between them (the IEEE 754 default rounding). -/
def roundHalfEven (m : ℚ) : ℤ :=
  if m - ⌊m⌋ < 1 / 2 then ⌊m⌋
  else if 1 / 2 < m - ⌊m⌋ then ⌊m⌋ + 1
  else if ⌊m⌋ % 2 = 0 then ⌊m⌋ else ⌊m⌋ + 1

/-- The binary exponent `e` of a rational that is not zero:
`2 ^ e ≤ |x| < 2 ^ (e + 1)`. -/
def binExp (x : ℚ) : ℤ := Int.log 2 |x|

/-- The `float64` nearest to a rational, as IEEE 754 rounds to nearest, ties
to even: the rational is scaled to a significand of 53 bits (of fewer bits
below `2 ^ (-1022)`, where the values are subnormal and `2 ^ (-1074)` apart),
the significand is rounded to the nearest integer, and a result of magnitude
`2 ^ 1024` or more is an infinity. -/
def roundF64 (x : ℚ) : F64 :=
  if x = 0 then .fin 0
  else if (2 : ℚ) ^ 1024 ≤
      |(roundHalfEven (x / 2 ^ (max (binExp x) (-1022) - 52)) : ℚ) *
        2 ^ (max (binExp x) (-1022) - 52)| then
    (if 0 < x then .posInf else .negInf)
  else .fin ((roundHalfEven (x / 2 ^ (max (binExp x) (-1022) - 52)) : ℚ) *
    2 ^ (max (binExp x) (-1022) - 52))

/-- Conversion `float64(x)` of an `int64`: the nearest `float64`. -/
def F64.ofInt (x : Int) : F64 := roundF64 x

/-- IEEE 754 subtraction: the exact difference, rounded. -/
def F64.sub : F64 → F64 → F64
  | .fin a, .fin b => roundF64 (a - b)
  | .fin _, .posInf => .negInf
  | .fin _, .negInf => .posInf
  | .posInf, .fin _ => .posInf
  | .posInf, .negInf => .posInf
  | .negInf, .fin _ => .negInf
  | .negInf, .posInf => .negInf
  | _, _ => .nan

/-- IEEE 754 multiplication: the exact product, rounded. -/
def F64.mul : F64 → F64 → F64
  | .fin a, .fin b => roundF64 (a * b)
  | .nan, _ => .nan
  | _, .nan => .nan
  | .fin a, .posInf => if a = 0 then .nan else if 0 < a then .posInf else .negInf
  | .fin a, .negInf => if a = 0 then .nan else if 0 < a then .negInf else .posInf
  | .posInf, .fin b => if b = 0 then .nan else if 0 < b then .posInf else .negInf
  | .negInf, .fin b => if b = 0 then .nan else if 0 < b then .negInf else .posInf
  | .posInf, .posInf => .posInf
  | .negInf, .negInf => .posInf
  | .posInf, .negInf => .negInf
  | .negInf, .posInf => .negInf

/-- IEEE 754 division: the exact quotient, rounded; a finite non-zero value
divided by zero is an infinity, zero divided by zero is NaN; no case
faults. -/
def F64.div : F64 → F64 → F64
  | .fin a, .fin b =>
    if b = 0 then (if a = 0 then .nan else if 0 < a then .posInf else .negInf)
    else roundF64 (a / b)
  | .nan, _ => .nan
  | _, .nan => .nan
  | .fin _, _ => .fin 0
  | .posInf, .fin b => if 0 ≤ b then .posInf else .negInf
  | .negInf, .fin b => if 0 ≤ b then .negInf else .posInf
  | _, _ => .nan

/-- The four numbers of the summary of `main`. -/
structure Report where
  origMB : F64
  compMB : F64
  savedMB : F64
  savedPct : F64
deriving DecidableEq

/-- Source `main`, "Report size stats": the values of `origMB`, `compMB`,
`savedMB` and `savedPct` from the two counters. -/
def report (totalOriginalBytes totalCompressedBytes : Int) : Report :=
  let origMB := F64.div (F64.ofInt totalOriginalBytes) (.fin (1024 * 1024))
  let compMB := F64.div (F64.ofInt totalCompressedBytes) (.fin (1024 * 1024))
  let savedMB := F64.sub origMB compMB
  let savedPct := F64.mul (F64.div savedMB origMB) (.fin 100)
  { origMB := origMB, compMB := compMB, savedMB := savedMB, savedPct := savedPct }

/-! ## The loop of a worker -/

/-- The body of the loop of a worker for one path: the call of
`compressTIFF` and, when it returns an error, the error line in the log. -/
def workerCall {Img : Type} (codec : Codec Img) (cwd : Option Str) (cfg : Config)
    (f : Faults) (path : Str) (w : World) : Option Err × World :=
  match compressTIFF codec cwd cfg f path w with
  | (none, w2) => (none, w2)
  | (some e, w2) => (some e, { w2 with log := w2.log ++ [LogLine.error path e] })

/-- The body of the loop of a worker applied to the files of a list, one
after the other in the order of the list; `faults` gives the failures
injected into the call on each path.  The result lists what each call
returned. -/
def processAll {Img : Type} (codec : Codec Img) (cwd : Option Str) (cfg : Config)
    (faults : Str → Faults) : List Str → World → List (Str × Option Err) × World
  | [], w => ([], w)
  | path :: rest, w =>
    let r := workerCall codec cwd cfg (faults path) path w
    let rs := processAll codec cwd cfg faults rest r.2
    ((path, r.1) :: rs.1, rs.2)

/-! ## The worker pool -/

/-- The state of the pool: the paths still in the channel `jobs`, the calls
of `compressTIFF` made so far (worker, path and what the call returned), the
count of the progress bar, and the world. -/
structure Pool where
  jobs : List Str
  calls : List (Nat × Str × Option Err)
  bar : Nat
  world : World

/-- The pool when the workers start: `main` has sent every path of
`tiffFiles` to the channel, whose capacity is the number of paths, and closed
it. -/
def Pool.start (tiffFiles : List Str) (w : World) : Pool :=
  { jobs := tiffFiles, calls := [], bar := 0, world := w }

/-- One iteration of the loop of worker `i`: it receives the next path from
the channel, calls `compressTIFF`, logs the error if there is one, and
advances the progress bar.  On the closed and empty channel the loop ends.
The calls of different workers are taken one at a time. -/
def workerIter {Img : Type} (codec : Codec Img) (cwd : Option Str) (cfg : Config)
    (faults : Str → Faults) (i : Nat) (s : Pool) : Pool :=
  match s.jobs with
  | [] => s
  | path :: rest =>
    let r := workerCall codec cwd cfg (faults path) path s.world
    { jobs := rest
      calls := s.calls ++ [(i, path, r.1)]
      bar := s.bar + 1
      world := r.2 }

/-- The pool of `main` with `numThreads` workers, numbered from 0, under a
schedule: the list of workers in the order in which their iterations take
place.  The loop `for i := 0; i < *numThreads; i++` starts worker `i` only
when `i < numThreads`; an entry of the schedule for a worker that was never
started does nothing. -/
def runPool {Img : Type} (codec : Codec Img) (cwd : Option Str) (cfg : Config)
    (faults : Str → Faults) (numThreads : Int) (sched : List Nat) (s : Pool) : Pool :=
  sched.foldl
    (fun (s : Pool) (i : Nat) =>
      if (i : Int) < numThreads then workerIter codec cwd cfg faults i s else s) s

/-- Whether `wg.Wait()` returns in this state: every started worker has left
its loop, which it does on the empty channel only; with no worker started it
returns at once. -/
def joined (numThreads : Int) (s : Pool) : Bool :=
  decide (numThreads ≤ 0) || s.jobs.isEmpty

/-- The summary that `main` computes once `wg.Wait()` has returned. -/
def summary (s : Pool) : Report :=
  report s.world.totalOriginalBytes s.world.totalCompressedBytes

/-! ## Concrete inputs -/

/-- A small codec: an image is the content of the file without its first
byte, which must be `73`; the encoder writes `73` and the image. -/
def demoCodec : Codec Bytes :=
  { decode := fun b =>
      match b with
      | 73 :: img => some img
      | _ => none
    encode := fun img => 73 :: img }

/-- A codec that compresses: an image is the first two bytes of a file of at
least two bytes, and the encoder writes just these. -/
def shrinkCodec : Codec Bytes :=
  { decode := fun b => if b.length < 2 then none else some (b.take 2)
    encode := fun img => img }

/-- A file system with the files `/d/a.tif` and `/d/a.tif.tmp`. -/
def demoFS : FS := fun q =>
  if q = "/d/a.tif".toList then some [73, 1, 2, 3]
  else if q = "/d/a.tif.tmp".toList then some [73, 7, 7]
  else none

/-- The world before a run: the files of `demoFS`, both counters zero. -/
def demoWorld : World :=
  { fs := demoFS, totalOriginalBytes := 0, totalCompressedBytes := 0, log := [] }

/-- The package-level variables for `tiffcompressor /d` (in-place mode). -/
def demoInPlace : Config := { rootDir := "/d".toList, outputDir := [], outputRoot := [] }

/-- The failure of `tiff.Encode` after two bytes have been written. -/
def encodeFault : Faults := { Faults.none with encodeFails := some [73, 1] }

/-- The failure of `os.Rename`. -/
def renameFault : Faults := { Faults.none with renameFails := true }

/-- The failure of `os.Rename` and then of `os.Remove`. -/
def stuckFault : Faults := { Faults.none with renameFails := true, removeFails := true }

/-! ## Auxiliary definitions -/

/-- The stacks that the scan of `Clean` produces: valid names, below them (for
a relative path only) a run of `..`. -/
def nfStack (rooted : Bool) : List Str → Prop
  | [] => True
  | e :: stk =>
    (validName e ∨
      (rooted = false ∧ e = ['.', '.'] ∧ (stk = [] ∨ stk.head? = some ['.', '.']))) ∧
    nfStack rooted stk

/-- The state of the scan of `Clean` after a non-empty path. -/
def scan (path : Str) : List Str := (splitSep path).foldl (cleanStep (IsAbs path)) []

/-- The entries of a walk that `main` keeps. -/
def kept (entries : List WalkEntry) : List Str :=
  (entries.filter (fun d => !d.isDir && isTIFF d.path)).map (fun d => d.path)


/-- The words of the claim on file discovery: the character is the letter
`t`, in lower or upper case. -/
def letterT (c : Char) : Prop := c = 't' ∨ c = 'T'

/-- The words of the claim on file discovery: the character is the letter
`i`, in lower or upper case.  Unicode has two capitals whose lower case is
`i`: `I` and the dotted capital I (U+0130). -/
def letterI (c : Char) : Prop := c = 'i' ∨ c = 'I' ∨ c = Char.ofNat 0x130

/-- The words of the claim on file discovery: the character is the letter
`f`, in lower or upper case. -/
def letterF (c : Char) : Prop := c = 'f' ∨ c = 'F'

/-- The words of the claim on file discovery: an extension that is `.tif` or
`.tiff` when its letters are compared without regard to case. -/
def tiffExtension (e : Str) : Prop :=
  ∃ t i f, letterT t ∧ letterI i ∧ letterF f ∧
    (e = ['.', t, i, f] ∨ ∃ g, letterF g ∧ e = ['.', t, i, f, g])

/-- The text of `filepath.Rel(rootDir, p)` for the path `p` that the walk
builds below `rootDir` through the entries `names`: the names joined, `.` for
`rootDir` itself. -/
def relName (names : List Str) : Str :=
  if names = [] then ['.'] else joinSep names

/-- The state of the scan of `Clean` after the first element of a `Join`:
that of the empty relative path when the element is empty (`Join` skips it). -/
def joinState (first : Str) : Bool × List Str :=
  if first = [] then (false, []) else (IsAbs first, scan first)

/-- The state of the scan of `Clean` at the end of the output root, once the
output path is resolved: that of `outputRoot` itself when it is absolute or
when there is no working directory to resolve it against, and otherwise the
state reached from the working directory over the elements of `outputRoot`. -/
def fileState (cwd : Option Str) (outputRoot : Str) : Bool × List Str :=
  if (joinState outputRoot).1 = true then joinState outputRoot
  else
    match cwd with
    | none => joinState outputRoot
    | some wd =>
      ((joinState wd).1,
        (joinState outputRoot).2.reverse.foldl (cleanStep (joinState wd).1) (joinState wd).2)

/-- The command line `tiffcompressor --outdir=/data/..cache /data`. -/
def dotdotArgs : Args :=
  { logfile := "compression.log".toList, threads := 4,
    outdir := "/data/..cache".toList, positional := ["/data".toList] }

/-- The package-level variables after
`tiffcompressor --outdir=/data/..cache /data`. -/
def dotdotCfg : Config :=
  { rootDir := "/data".toList, outputDir := "/data/..cache".toList,
    outputRoot := "/data/..cache/data".toList }

/-- A file system in which `/data` holds `x.tif` and, from an earlier run on
another version of that file, `..cache/data/x.tif`. -/
def dotdotWorld : World :=
  { fs := fun q =>
      if q = "/data/x.tif".toList then some [73, 1, 2, 3]
      else if q = "/data/..cache/data/x.tif".toList then some [73, 9]
      else none
    totalOriginalBytes := 0, totalCompressedBytes := 0, log := [] }

/-- The command line `tiffcompressor --outdir=/a /a/b`. -/
def parentArgs : Args :=
  { logfile := "compression.log".toList, threads := 4,
    outdir := "/a".toList, positional := ["/a/b".toList] }

/-- The package-level variables after `tiffcompressor --outdir=/a /a/b`. -/
def parentCfg : Config :=
  { rootDir := "/a/b".toList, outputDir := "/a".toList, outputRoot := "/a/b".toList }

/-- A file system with the one file `/a/b/x.tif`. -/
def parentWorld : World :=
  { fs := fun q => if q = "/a/b/x.tif".toList then some [73, 1, 2, 3] else none
    totalOriginalBytes := 0, totalCompressedBytes := 0, log := [] }

/-- The command line `tiffcompressor --outdir=/a /a/b/b`. -/
def deepArgs : Args :=
  { logfile := "compression.log".toList, threads := 4,
    outdir := "/a".toList, positional := ["/a/b/b".toList] }

/-- The package-level variables after `tiffcompressor --outdir=/a /a/b/b`. -/
def deepCfg : Config :=
  { rootDir := "/a/b/b".toList, outputDir := "/a".toList, outputRoot := "/a/b".toList }

/-- The command line `tiffcompressor --outdir=out /data`. -/
def relativeArgs : Args :=
  { logfile := "compression.log".toList, threads := 4,
    outdir := "out".toList, positional := ["/data".toList] }

/-- The package-level variables after `tiffcompressor --outdir=out /data`
run in `/home/u`. -/
def relativeCfg : Config :=
  { rootDir := "/data".toList, outputDir := "/home/u/out".toList,
    outputRoot := "out/data".toList }

/-- The command line `tiffcompressor --outdir=/out /root`. -/
def mirrorArgs : Args :=
  { logfile := "compression.log".toList, threads := 4,
    outdir := "/out".toList, positional := ["/root".toList] }

/-- The package-level variables after `tiffcompressor --outdir=/out /root`. -/
def mirrorCfg : Config :=
  { rootDir := "/root".toList, outputDir := "/out".toList, outputRoot := "/out/root".toList }

/-- Rounding to a significand of 53 bits with no bound on the exponent: the
value of `roundF64` on the rationals in the normal range of a `float64`. -/
def roundTo53 (x : ℚ) : ℚ :=
  if x = 0 then 0
  else (roundHalfEven (x / 2 ^ (binExp x - 52)) : ℚ) * 2 ^ (binExp x - 52)

/-! ## Sizes and runs -/

/-- The size of the file at a path, 0 when there is no path or no file. -/
def fileSize (fs : FS) (path : Option Str) : Int :=
  match path.bind fs with
  | some b => b.length
  | none => 0

/-- The size of the input file of `compressTIFF` on `p`. -/
def inputSize (cwd : Option Str) (fs : FS) (p : Str) : Int :=
  fileSize fs (Abs cwd p)

/-- The size of the file at the output path of `compressTIFF` on `p`. -/
def outputSize (cwd : Option Str) (cfg : Config) (fs : FS) (p : Str) : Int :=
  fileSize fs ((Abs cwd p).bind (outputFileOf cwd cfg))

/-- The paths for which `compressTIFF` returned `nil`, from the results of a
run. -/
def succeeded (results : List (Str × Option Err)) : List Str :=
  (results.filter (fun r => r.2.isNone)).map Prod.fst

/-- No file of the list is in the write set of another, and no output path
of one is in the write set of another. -/
def independent (cwd : Option Str) (cfg : Config) (files : List Str) : Prop :=
  ∀ p ∈ files, ∀ q ∈ files, p ≠ q → ∀ pa qa, Abs cwd p = some pa → Abs cwd q = some qa →
    pa ∉ writeSet cwd cfg qa ∧ ∀ o, outputFileOf cwd cfg pa = some o → o ∉ writeSet cwd cfg qa

/-- Whether `compressTIFF` on `p` returns `nil` when it is the only call made
from the world `w0`. -/
def okAlone {Img : Type} (codec : Codec Img) (cwd : Option Str) (cfg : Config)
    (faults : Str → Faults) (w0 : World) (p : Str) : Bool :=
  (compressTIFF codec cwd cfg (faults p) p w0).1.isNone

/-- The size of the output file of `p` after `compressTIFF` on `p` as the
only call made from the world `w0`. -/
def outAlone {Img : Type} (codec : Codec Img) (cwd : Option Str) (cfg : Config)
    (faults : Str → Faults) (w0 : World) (p : Str) : Int :=
  outputSize cwd cfg (compressTIFF codec cwd cfg (faults p) p w0).2.fs p

/-- A file system with three files below `/d`; the content of `/d/c.tif` is
too short to decode with `shrinkCodec`. -/
def statsFS : FS := fun q =>
  if q = "/d/a.tif".toList then some [1, 2, 3, 4]
  else if q = "/d/b.tif".toList then some [5, 6, 7]
  else if q = "/d/c.tif".toList then some [9]
  else none

/-- The world before a run over the files of `statsFS`. -/
def statsWorld : World :=
  { fs := statsFS, totalOriginalBytes := 0, totalCompressedBytes := 0, log := [] }

/-- The files that the walk finds in `statsFS`. -/
def statsFiles : List Str := ["/d/a.tif".toList, "/d/b.tif".toList, "/d/c.tif".toList]

/-! ## Lemmas on splitting and joining -/

theorem splitSep_ne_nil (s : Str) : splitSep s ≠ [] := by
  induction s with
  | nil => simp [splitSep]
  | cons c cs ih =>
    unfold splitSep
    split_ifs
    · simp
    · cases h : splitSep cs <;> simp

theorem splitSep_append_sep (a b : Str) :
    splitSep (a ++ '/' :: b) = splitSep a ++ splitSep b := by
  induction a with
  | nil => simp [splitSep]
  | cons c cs ih =>
    by_cases hc : c = '/'
    · simp [splitSep, hc, ih]
    · have h1 : splitSep (c :: (cs ++ '/' :: b)) =
          match splitSep (cs ++ '/' :: b) with
          | [] => [[c]]
          | w :: ws => (c :: w) :: ws := by
        rw [splitSep]; simp [hc]
      have h2 : splitSep (c :: cs) =
          match splitSep cs with
          | [] => [[c]]
          | w :: ws => (c :: w) :: ws := by
        rw [splitSep]; simp [hc]
      rw [List.cons_append, h1, h2, ih]
      cases h : splitSep cs with
      | nil => exact absurd h (splitSep_ne_nil cs)
      | cons w ws => simp

theorem splitSep_of_no_sep (w : Str) (h : '/' ∉ w) : splitSep w = [w] := by
  induction w with
  | nil => simp [splitSep]
  | cons c cs ih =>
    have hc : c ≠ '/' := fun e => h (by simp [e])
    have hcs : '/' ∉ cs := fun e => h (by simp [e])
    rw [splitSep]; simp [hc, ih hcs]

theorem splitSep_joinSep (ws : List Str) (hne : ws ≠ []) (h : ∀ w ∈ ws, '/' ∉ w) :
    splitSep (joinSep ws) = ws := by
  induction ws with
  | nil => exact absurd rfl hne
  | cons w rest ih =>
    cases rest with
    | nil => simpa [joinSep] using splitSep_of_no_sep w (h w (by simp))
    | cons v vs =>
      rw [joinSep, splitSep_append_sep, splitSep_of_no_sep w (h w (by simp)),
        ih (by simp) (fun x hx => h x (by simp [hx]))]
      simp

theorem no_sep_of_mem_splitSep (s : Str) : ∀ w ∈ splitSep s, '/' ∉ w := by
  induction s with
  | nil => simp [splitSep]
  | cons c cs ih =>
    by_cases hc : c = '/'
    · intro w hw
      simp [splitSep, hc] at hw
      rcases hw with rfl | hw
      · simp
      · exact ih w hw
    · intro w hw
      rw [splitSep] at hw
      simp only [hc, if_false] at hw
      cases h : splitSep cs with
      | nil => exact absurd h (splitSep_ne_nil cs)
      | cons v vs =>
        rw [h] at hw ih
        simp at hw
        rcases hw with rfl | hw
        · have := ih v (by simp)
          simp [this, Ne.symm hc]
        · exact ih w (by simp [hw])

/-! ## Lemmas on `Clean` -/

theorem cleanStep_validName (r : Bool) (stk : List Str) (e : Str) (h : validName e) :
    cleanStep r stk e = e :: stk := by
  obtain ⟨h1, h2, h3, _⟩ := h
  simp [cleanStep, h1, h2, h3]

theorem cleanStep_nil (r : Bool) (stk : List Str) : cleanStep r stk [] = stk := by
  simp [cleanStep]

theorem cleanStep_dot (r : Bool) (stk : List Str) : cleanStep r stk ['.'] = stk := by
  simp [cleanStep]

theorem nfStack_cleanStep (r : Bool) (stk : List Str) (e : Str)
    (hs : nfStack r stk) (he : '/' ∉ e) : nfStack r (cleanStep r stk e) := by
  by_cases h1 : e = []
  · rw [h1, cleanStep_nil]; exact hs
  by_cases h2 : e = ['.']
  · rw [h2, cleanStep_dot]; exact hs
  by_cases h3 : e = ['.', '.']
  · subst h3
    cases stk with
    | nil =>
      cases r with
      | true => simp [cleanStep, nfStack]
      | false => simp [cleanStep, nfStack]
    | cons top rest =>
      by_cases h4 : top = ['.', '.']
      · have hr : r = false := by
          rcases hs.1 with hv | hv
          · exact absurd h4 hv.2.2.1
          · exact hv.1
        have : cleanStep r (top :: rest) ['.', '.'] = ['.', '.'] :: top :: rest := by
          simp [cleanStep, h4]
        rw [this]
        exact ⟨Or.inr ⟨hr, rfl, Or.inr (by simp [h4])⟩, hs⟩
      · have : cleanStep r (top :: rest) ['.', '.'] = rest := by
          simp [cleanStep, h4]
        rw [this]
        exact hs.2
  · rw [cleanStep_validName r stk e ⟨h1, h2, h3, he⟩]
    exact ⟨Or.inl ⟨h1, h2, h3, he⟩, hs⟩

theorem nfStack_foldl (r : Bool) (es : List Str) (stk : List Str)
    (hs : nfStack r stk) (he : ∀ e ∈ es, '/' ∉ e) :
    nfStack r (es.foldl (cleanStep r) stk) := by
  induction es generalizing stk with
  | nil => exact hs
  | cons e rest ih =>
    exact ih _ (nfStack_cleanStep r stk e hs (he e (by simp)))
      (fun x hx => he x (by simp [hx]))

theorem nfStack_no_sep (r : Bool) (stk : List Str) (hs : nfStack r stk) :
    ∀ e ∈ stk, '/' ∉ e := by
  induction stk with
  | nil => simp
  | cons e rest ih =>
    intro x hx
    simp at hx
    rcases hx with rfl | hx
    · rcases hs.1 with hv | hv
      · exact hv.2.2.2
      · rw [hv.2.1]; decide
    · exact ih hs.2 x hx

theorem nfStack_ne_nil_elem (r : Bool) (stk : List Str) (hs : nfStack r stk) :
    ∀ e ∈ stk, e ≠ [] := by
  induction stk with
  | nil => simp
  | cons e rest ih =>
    intro x hx
    simp at hx
    rcases hx with rfl | hx
    · rcases hs.1 with hv | hv
      · exact hv.1
      · rw [hv.2.1]; simp
    · exact ih hs.2 x hx

/-- Pushing the elements of a normal stack, bottom first, rebuilds it. -/
theorem foldl_cleanStep_reverse (r : Bool) (stk : List Str) (hs : nfStack r stk) :
    stk.reverse.foldl (cleanStep r) [] = stk := by
  induction stk with
  | nil => rfl
  | cons e rest ih =>
    rw [List.reverse_cons, List.foldl_append, ih hs.2]
    simp only [List.foldl_cons, List.foldl_nil]
    rcases hs.1 with hv | ⟨hr, he, hrest⟩
    · exact cleanStep_validName r rest e hv
    · subst he
      cases rest with
      | nil => simp [cleanStep, hr]
      | cons top tl =>
        rcases hrest with h | h
        · exact absurd h (by simp)
        · simp at h
          simp [cleanStep, h]

theorem Clean_of_ne_nil (path : Str) (h : path ≠ []) :
    Clean path = render (IsAbs path) (cleanElems (IsAbs path) (splitSep path)) := by
  simp [Clean, h]

theorem Clean_ne_nil (path : Str) : Clean path ≠ [] := by
  unfold Clean render
  split_ifs with h1 h2 h3
  · simp
  · simp
  · simp
  · intro h
    cases hc : cleanElems (IsAbs path) (splitSep path) with
    | nil => exact h3 hc
    | cons e rest =>
      have hnf : nfStack (IsAbs path) ((splitSep path).foldl (cleanStep (IsAbs path)) []) :=
        nfStack_foldl _ _ _ trivial (no_sep_of_mem_splitSep path)
      have hmem : e ∈ (splitSep path).foldl (cleanStep (IsAbs path)) [] := by
        have : e ∈ cleanElems (IsAbs path) (splitSep path) := by rw [hc]; simp
        simpa [cleanElems] using this
      have hne := nfStack_ne_nil_elem _ _ hnf e hmem
      rw [hc] at h
      cases rest with
      | nil => exact hne (by simpa [joinSep] using h)
      | cons v vs =>
        have h2 : e = [] := by
          have := congrArg List.length h
          simp [joinSep] at this
        exact hne h2

theorem joinSep_head (e : Str) (rest : List Str) (he : e ≠ []) :
    (joinSep (e :: rest)).head? = e.head? := by
  cases rest with
  | nil => simp [joinSep]
  | cons v vs =>
    cases e with
    | nil => exact absurd rfl he
    | cons c cs => simp [joinSep]

/-- The text of a normal stack is absolute exactly when the stack is rooted. -/
theorem IsAbs_render (r : Bool) (stk : List Str) (hs : nfStack r stk) :
    IsAbs (render r stk.reverse) = r := by
  cases r with
  | true => simp [render, IsAbs]
  | false =>
    unfold render
    simp only [Bool.false_eq_true, if_false]
    split_ifs with h
    · simp [IsAbs]
    · cases hrev : stk.reverse with
      | nil => exact absurd hrev h
      | cons e rest =>
        have hmem : e ∈ stk := by
          have : e ∈ stk.reverse := by rw [hrev]; simp
          simpa using this
        have hne := nfStack_ne_nil_elem _ _ hs e hmem
        have hns := nfStack_no_sep _ _ hs e hmem
        unfold IsAbs
        rw [joinSep_head e rest hne]
        cases e with
        | nil => exact absurd rfl hne
        | cons c cs =>
          have : c ≠ '/' := fun hc => hns (by simp [hc])
          simp [this]

/-- Scanning the text of a normal stack, from any state, is scanning the
elements of the stack. -/
theorem foldl_splitSep_render (r r2 : Bool) (stk S : List Str) (hs : nfStack r stk) :
    (splitSep (render r stk.reverse)).foldl (cleanStep r2) S =
      stk.reverse.foldl (cleanStep r2) S := by
  have hsep : ∀ w ∈ stk.reverse, '/' ∉ w := fun w hw =>
    nfStack_no_sep r stk hs w (by simpa using hw)
  by_cases hnil : stk.reverse = []
  · rw [hnil]
    cases r <;> simp [render, splitSep, joinSep, cleanStep]
  · cases r with
    | true =>
      simp only [render, if_true]
      rw [show ('/' :: joinSep stk.reverse) = [] ++ '/' :: joinSep stk.reverse from rfl,
        splitSep_append_sep, splitSep_joinSep _ hnil hsep]
      simp [splitSep, cleanStep]
    | false =>
      simp only [render, Bool.false_eq_true, if_false, hnil]
      rw [splitSep_joinSep _ hnil hsep]

theorem nfStack_scan (path : Str) : nfStack (IsAbs path) (scan path) :=
  nfStack_foldl _ _ _ trivial (no_sep_of_mem_splitSep path)

theorem Clean_eq_render_scan (path : Str) (h : path ≠ []) :
    Clean path = render (IsAbs path) (scan path).reverse := by
  rw [Clean_of_ne_nil path h]; rfl

theorem IsAbs_Clean (path : Str) (h : path ≠ []) : IsAbs (Clean path) = IsAbs path := by
  rw [Clean_eq_render_scan path h]
  exact IsAbs_render _ _ (nfStack_scan path)

theorem IsAbs_append (a b : Str) (h : a ≠ []) : IsAbs (a ++ b) = IsAbs a := by
  cases a with
  | nil => exact absurd rfl h
  | cons c cs => simp [IsAbs]

/-- `Clean` of a path followed by a separator and more text: the scan goes on
from the state reached on the path. -/
theorem Clean_append_sep (a b : Str) (h : a ≠ []) :
    Clean (a ++ '/' :: b) =
      render (IsAbs a) ((splitSep b).foldl (cleanStep (IsAbs a)) (scan a)).reverse := by
  rw [Clean_of_ne_nil _ (by simp [h]), IsAbs_append a _ h, cleanElems, splitSep_append_sep,
    List.foldl_append]
  rfl

/-- A cleaned path in front of more text can be replaced by the path itself. -/
theorem Clean_Clean_append_sep (a b : Str) (h : a ≠ []) :
    Clean (Clean a ++ '/' :: b) = Clean (a ++ '/' :: b) := by
  rw [Clean_append_sep _ _ (Clean_ne_nil a), Clean_append_sep _ _ h, IsAbs_Clean a h]
  congr 2
  unfold scan
  rw [IsAbs_Clean a h, Clean_eq_render_scan a h,
    foldl_splitSep_render _ _ _ _ (nfStack_scan a),
    foldl_cleanStep_reverse _ _ (nfStack_scan a)]
  rfl

theorem Clean_idem (a : Str) : Clean (Clean a) = Clean a := by
  by_cases h : a = []
  · subst h; decide
  · rw [Clean_eq_render_scan _ (Clean_ne_nil a), IsAbs_Clean a h]
    unfold scan
    rw [IsAbs_Clean a h]
    conv_lhs => rw [Clean_eq_render_scan a h]
    rw [foldl_splitSep_render _ _ _ _ (nfStack_scan a),
      foldl_cleanStep_reverse _ _ (nfStack_scan a), Clean_eq_render_scan a h]

theorem scan_render (r : Bool) (stk : List Str) (hs : nfStack r stk) :
    scan (render r stk.reverse) = stk := by
  unfold scan
  rw [IsAbs_render r stk hs, foldl_splitSep_render r r stk [] hs,
    foldl_cleanStep_reverse r stk hs]

theorem render_ne_nil (r : Bool) (stk : List Str) (hs : nfStack r stk) :
    render r stk.reverse ≠ [] := by
  intro h
  have h1 := IsAbs_render r stk hs
  cases r with
  | true => simp [render] at h
  | false =>
    unfold render at h
    simp only [Bool.false_eq_true, if_false] at h
    split_ifs at h with h2
    cases hrev : stk.reverse with
    | nil => exact h2 hrev
    | cons e rest =>
      have hmem : e ∈ stk := by
        have : e ∈ stk.reverse := by rw [hrev]; simp
        simpa using this
      have hne := nfStack_ne_nil_elem _ _ hs e hmem
      rw [hrev] at h
      cases rest with
      | nil => exact hne (by simpa [joinSep] using h)
      | cons v vs =>
        have := congrArg List.length h
        simp [joinSep] at this

theorem Clean_render (r : Bool) (stk : List Str) (hs : nfStack r stk) :
    Clean (render r stk.reverse) = render r stk.reverse := by
  rw [Clean_eq_render_scan _ (render_ne_nil r stk hs), scan_render r stk hs,
    IsAbs_render r stk hs]

/-- The text of a normal stack determines the stack. -/
theorem render_inj (r : Bool) (s1 s2 : List Str) (h1 : nfStack r s1) (h2 : nfStack r s2)
    (h : render r s1.reverse = render r s2.reverse) : s1 = s2 := by
  rw [← scan_render r s1 h1, ← scan_render r s2 h2, h]

theorem nfStack_push_names (r : Bool) (stk names : List Str) (hs : nfStack r stk)
    (hn : ∀ n ∈ names, validName n) : nfStack r (names.reverse ++ stk) := by
  induction names generalizing stk with
  | nil => simpa using hs
  | cons n rest ih =>
    have := ih (n :: stk) ⟨Or.inl (hn n (by simp)), hs⟩ (fun x hx => hn x (by simp [hx]))
    simpa using this

theorem foldl_cleanStep_names (r : Bool) (stk names : List Str)
    (hn : ∀ n ∈ names, validName n) :
    names.foldl (cleanStep r) stk = names.reverse ++ stk := by
  induction names generalizing stk with
  | nil => simp
  | cons n rest ih =>
    rw [List.foldl_cons, cleanStep_validName r stk n (hn n (by simp)),
      ih _ (fun x hx => hn x (by simp [hx]))]
    simp

/-- A cleaned absolute path is the text of a rooted normal stack. -/
theorem exists_stack_of_clean_abs (root : Str) (habs : IsAbs root = true)
    (hclean : Clean root = root) :
    ∃ stk, nfStack true stk ∧ root = render true stk.reverse := by
  have hne : root ≠ [] := by
    intro h; rw [h] at habs; simp [IsAbs] at habs
  refine ⟨scan root, ?_, ?_⟩
  · have := nfStack_scan root
    rwa [habs] at this
  · have := Clean_eq_render_scan root hne
    rw [hclean, habs] at this
    exact this

theorem Join_pair (a b : Str) (h : a ≠ []) : Join [a, b] = Clean (a ++ '/' :: b) := by
  simp [Join, h, joinSep]

theorem Join_triple (a b c : Str) (h : a ≠ []) :
    Join [a, b, c] = Clean (a ++ '/' :: (b ++ '/' :: c)) := by
  simp [Join, h, joinSep]

/-- The paths that the walk builds below a cleaned absolute root. -/
theorem walkPath_render (stk names : List Str) (hs : nfStack true stk)
    (hn : ∀ n ∈ names, validName n) :
    walkPath (render true stk.reverse) names = render true (names.reverse ++ stk).reverse := by
  induction names generalizing stk with
  | nil => simp [walkPath]
  | cons n rest ih =>
    have hn1 := hn n (by simp)
    have hstep : Join [render true stk.reverse, n] = render true (n :: stk).reverse := by
      rw [Join_pair _ _ (render_ne_nil true stk hs), Clean_append_sep _ _ (render_ne_nil true stk hs),
        IsAbs_render true stk hs, scan_render true stk hs, splitSep_of_no_sep n hn1.2.2.2]
      simp [cleanStep_validName true stk n hn1]
    have h2 : walkPath (render true stk.reverse) (n :: rest) =
        walkPath (Join [render true stk.reverse, n]) rest := by
      simp [walkPath]
    rw [h2, hstep, ih (n :: stk) ⟨Or.inl hn1, hs⟩ (fun x hx => hn x (by simp [hx]))]
    simp

theorem relLoop_append (a ts : List Str) : relLoop a (a ++ ts) = some ts := by
  induction a with
  | nil => simp [relLoop]
  | cons b bs ih => simp [relLoop, ih]

theorem joinSep_ne_nil (e : Str) (rest : List Str) (he : e ≠ []) : joinSep (e :: rest) ≠ [] := by
  intro h
  have := joinSep_head e rest he
  rw [h] at this
  cases e with
  | nil => exact he rfl
  | cons c cs => simp at this

theorem relElems_render (stk : List Str) (hs : nfStack true stk) :
    relElems (render true stk.reverse) = [] :: stk.reverse := by
  have hsep : ∀ w ∈ stk.reverse, '/' ∉ w := fun w hw =>
    nfStack_no_sep true stk hs w (by simpa using hw)
  cases hrev : stk.reverse with
  | nil => simp [render, relElems, joinSep]
  | cons e rest =>
    have hmem : e ∈ stk := by
      have : e ∈ stk.reverse := by rw [hrev]; simp
      simpa using this
    have hne := nfStack_ne_nil_elem _ _ hs e hmem
    have hj := joinSep_ne_nil e rest hne
    have hsp : splitSep ('/' :: joinSep (e :: rest)) = [] :: (e :: rest) := by
      rw [show ('/' :: joinSep (e :: rest)) = [] ++ '/' :: joinSep (e :: rest) from rfl,
        splitSep_append_sep, splitSep_joinSep _ (by simp) (by rw [← hrev]; exact hsep)]
      simp [splitSep]
    simp [render, relElems, hj, hsp]

/-- `Rel` from a cleaned absolute root to a path that the walk builds below
it: the names joined, or `.` for the root itself. -/
theorem Rel_walk (stk names : List Str) (hs : nfStack true stk)
    (hn : ∀ n ∈ names, validName n) :
    Rel (render true stk.reverse) (render true (names.reverse ++ stk).reverse) =
      some (if names = [] then ['.'] else joinSep names) := by
  have hs2 := nfStack_push_names true stk names hs hn
  unfold Rel
  simp only [Clean_render true stk hs, Clean_render true _ hs2]
  by_cases hnil : names = []
  · subst hnil; simp
  · have hneq : render true (names.reverse ++ stk).reverse ≠ render true stk.reverse := by
      intro h
      have := render_inj true _ _ hs2 hs h
      have h3 := congrArg List.length this
      simp at h3
      exact hnil h3
    have hdot : render true stk.reverse ≠ ['.'] := by simp [render]
    simp only [hneq, hdot, if_false, hnil]
    rw [IsAbs_render true stk hs, IsAbs_render true _ hs2, relElems_render stk hs,
      relElems_render _ hs2]
    simp [relLoop, relLoop_append]

/-- Scanning a relative path after cleaning it, from any state, is scanning
the path itself. -/
theorem cleanStep_commute (r2 : Bool) (S T : List Str) (c : Str) (hT : nfStack false T)
    : (cleanStep false T c).reverse.foldl (cleanStep r2) S =
      cleanStep r2 (T.reverse.foldl (cleanStep r2) S) c := by
  by_cases h1 : c = []
  · subst h1; simp [cleanStep_nil]
  by_cases h2 : c = ['.']
  · subst h2; simp [cleanStep_dot]
  by_cases h3 : c = ['.', '.']
  · subst h3
    cases T with
    | nil => simp [cleanStep]
    | cons top rest =>
      by_cases h4 : top = ['.', '.']
      · have : cleanStep false (top :: rest) ['.', '.'] = ['.', '.'] :: top :: rest := by
          simp [cleanStep, h4]
        rw [this]
        simp [List.foldl_append]
      · have : cleanStep false (top :: rest) ['.', '.'] = rest := by
          simp [cleanStep, h4]
        rw [this]
        have hv : validName top := by
          rcases hT.1 with hv | hv
          · exact hv
          · exact absurd hv.2.1 h4
        simp only [List.reverse_cons, List.foldl_append, List.foldl_cons, List.foldl_nil]
        rw [cleanStep_validName r2 _ top hv]
        simp [cleanStep, h4]
  · have hc : cleanStep false T c = c :: T := by simp [cleanStep, h1, h2, h3]
    rw [hc]
    simp [List.foldl_append]

theorem foldl_cleanStep_cleaned (r2 : Bool) (S es : List Str) (he : ∀ e ∈ es, '/' ∉ e) :
    (es.foldl (cleanStep false) []).reverse.foldl (cleanStep r2) S =
      es.foldl (cleanStep r2) S := by
  induction es using List.reverseRecOn with
  | nil => simp
  | append_singleton xs c ih =>
    have hx : ∀ e ∈ xs, '/' ∉ e := fun e h => he e (by simp [h])
    rw [List.foldl_append, List.foldl_append]
    simp only [List.foldl_cons, List.foldl_nil]
    rw [cleanStep_commute r2 S _ c (nfStack_foldl false xs [] trivial hx), ih hx]

/-- A cleaned relative path after a separator can be replaced by the path
itself. -/
theorem Clean_append_Clean (a b : Str) (ha : a ≠ []) (hb : b ≠ []) (hrel : IsAbs b = false) :
    Clean (a ++ '/' :: Clean b) = Clean (a ++ '/' :: b) := by
  rw [Clean_append_sep _ _ ha, Clean_append_sep _ _ ha]
  congr 2
  rw [Clean_eq_render_scan b hb, hrel]
  have hnf : nfStack false (scan b) := by
    have := nfStack_scan b
    rwa [hrel] at this
  rw [foldl_splitSep_render false _ _ _ hnf]
  have : scan b = (splitSep b).foldl (cleanStep false) [] := by
    unfold scan; rw [hrel]
  rw [this]
  exact foldl_cleanStep_cleaned _ _ _ (no_sep_of_mem_splitSep b)

/-! ## File discovery -/

theorem toLowerRune_eq_dot (c : Char) (h : toLowerRune c = '.') : c = '.' := by
  unfold toLowerRune at h
  split_ifs at h with h1 h2 h3
  · exact absurd h (by decide)
  · exact absurd h (by decide)
  · exfalso
    obtain ⟨hlo, hhi⟩ := h3
    generalize c.toNat = n at *
    interval_cases n <;> exact absurd h (by decide)
  · exact h

theorem toLowerRune_ne_of_letter (c x : Char) (h : toLowerRune c = x)
    (hx1 : x ≠ '.') (hx2 : x ≠ '/') : c ≠ '.' ∧ c ≠ '/' := by
  constructor
  · intro hc; subst hc
    exact hx1 (by rw [← h]; decide)
  · intro hc; subst hc
    exact hx2 (by rw [← h]; decide)

theorem extScan_suffix (r acc : List Char) :
    ∃ pre, r.reverse ++ acc = pre ++ extScan r acc := by
  induction r generalizing acc with
  | nil => exact ⟨acc, by simp [extScan]⟩
  | cons c rest ih =>
    unfold extScan
    split_ifs with h1 h2
    · exact ⟨(c :: rest).reverse ++ acc, by simp⟩
    · exact ⟨rest.reverse, by simp⟩
    · obtain ⟨pre, hpre⟩ := ih (c :: acc)
      exact ⟨pre, by rw [← hpre]; simp⟩

theorem Ext_suffix (path : Str) : ∃ pre, path = pre ++ Ext path := by
  obtain ⟨pre, h⟩ := extScan_suffix path.reverse []
  exact ⟨pre, by simpa [Ext] using h⟩

theorem HasSuffix_iff (s suf : Str) : HasSuffix s suf = true ↔ ∃ t, s = t ++ suf := by
  unfold HasSuffix
  rw [List.isSuffixOf_iff_suffix]
  constructor
  · rintro ⟨t, ht⟩; exact ⟨t, ht.symm⟩
  · rintro ⟨t, ht⟩; exact ⟨t, ht.symm⟩

theorem isTIFF_of_ext (path : Str)
    (h : ToLower (Ext path) = ".tif".toList ∨ ToLower (Ext path) = ".tiff".toList) :
    isTIFF path = true := by
  obtain ⟨pre, hpre⟩ := Ext_suffix path
  have hl : ToLower path = ToLower pre ++ ToLower (Ext path) := by
    conv_lhs => rw [hpre]
    simp [ToLower]
  unfold isTIFF
  simp only [Bool.or_eq_true, HasSuffix_iff]
  rcases h with h | h
  · exact Or.inl ⟨ToLower pre, by rw [hl, h]⟩
  · exact Or.inr ⟨ToLower pre, by rw [hl, h]⟩

theorem map_eq_four {α β : Type} (f : α → β) (l : List α) (w x y z : β)
    (h : l.map f = [w, x, y, z]) :
    ∃ a b c d, l = [a, b, c, d] ∧ f a = w ∧ f b = x ∧ f c = y ∧ f d = z := by
  rcases l with _ | ⟨a, _ | ⟨b, _ | ⟨c, _ | ⟨d, _ | ⟨e, l⟩⟩⟩⟩⟩ <;> simp at h
  exact ⟨a, b, c, d, rfl, h.1, h.2.1, h.2.2.1, h.2.2.2⟩

theorem map_eq_five {α β : Type} (f : α → β) (l : List α) (v w x y z : β)
    (h : l.map f = [v, w, x, y, z]) :
    ∃ a b c d e, l = [a, b, c, d, e] ∧ f a = v ∧ f b = w ∧ f c = x ∧ f d = y ∧ f e = z := by
  rcases l with _ | ⟨a, _ | ⟨b, _ | ⟨c, _ | ⟨d, _ | ⟨e, _ | ⟨g, l⟩⟩⟩⟩⟩⟩ <;> simp at h
  exact ⟨a, b, c, d, e, rfl, h.1, h.2.1, h.2.2.1, h.2.2.2.1, h.2.2.2.2⟩

theorem ext_of_isTIFF (path : Str) (h : isTIFF path = true) :
    ToLower (Ext path) = ".tif".toList ∨ ToLower (Ext path) = ".tiff".toList := by
  unfold isTIFF at h
  simp only [Bool.or_eq_true, HasSuffix_iff] at h
  rcases h with ⟨t, ht⟩ | ⟨t, ht⟩
  · left
    unfold ToLower at ht
    obtain ⟨l1, l2, hp, -, h2⟩ := List.map_eq_append_iff.mp ht
    obtain ⟨a, b, c, d, hl, ha, hb, hc, hd⟩ := map_eq_four _ _ _ _ _ _ h2
    have ha2 := toLowerRune_eq_dot a ha
    have hb2 := toLowerRune_ne_of_letter b _ hb (by decide) (by decide)
    have hc2 := toLowerRune_ne_of_letter c _ hc (by decide) (by decide)
    have hd2 := toLowerRune_ne_of_letter d _ hd (by decide) (by decide)
    have hext : Ext path = [a, b, c, d] := by
      rw [hp, hl]
      simp [Ext, extScan, ha2, hb2.1, hb2.2, hc2.1, hc2.2, hd2.1, hd2.2]
    rw [hext]
    simp [ToLower, ha, hb, hc, hd]
  · right
    unfold ToLower at ht
    obtain ⟨l1, l2, hp, -, h2⟩ := List.map_eq_append_iff.mp ht
    obtain ⟨a, b, c, d, e, hl, ha, hb, hc, hd, he⟩ := map_eq_five _ _ _ _ _ _ _ h2
    have ha2 := toLowerRune_eq_dot a ha
    have hb2 := toLowerRune_ne_of_letter b _ hb (by decide) (by decide)
    have hc2 := toLowerRune_ne_of_letter c _ hc (by decide) (by decide)
    have hd2 := toLowerRune_ne_of_letter d _ hd (by decide) (by decide)
    have he2 := toLowerRune_ne_of_letter e _ he (by decide) (by decide)
    have hext : Ext path = [a, b, c, d, e] := by
      rw [hp, hl]
      simp [Ext, extScan, ha2, hb2.1, hb2.2, hc2.1, hc2.2, hd2.1, hd2.2, he2.1, he2.2]
    rw [hext]
    simp [ToLower, ha, hb, hc, hd, he]

theorem gather_eq (entries : List WalkEntry) (acc : List Str)
    (h : ∀ d ∈ entries, d.err = false) : gather entries acc = some (acc ++ kept entries) := by
  induction entries generalizing acc with
  | nil => simp [gather, kept]
  | cons d rest ih =>
    have hd := h d (by simp)
    have hr : ∀ x ∈ rest, x.err = false := fun x hx => h x (by simp [hx])
    unfold gather
    simp only [hd, Bool.false_eq_true, if_false]
    by_cases hk : (!d.isDir && isTIFF d.path) = true
    · rw [if_pos hk, ih _ hr]
      simp [kept, List.filter_cons, hk]
    · rw [if_neg hk, ih _ hr]
      simp [kept, List.filter_cons, hk]

theorem gather_none (entries : List WalkEntry) (acc : List Str)
    (h : ∃ d ∈ entries, d.err = true) : gather entries acc = none := by
  induction entries generalizing acc with
  | nil => simp at h
  | cons d rest ih =>
    by_cases hd : d.err = true
    · simp [gather, hd]
    · have hr : ∃ x ∈ rest, x.err = true := by
        obtain ⟨x, hx, hxe⟩ := h
        simp at hx
        rcases hx with rfl | hx
        · exact absurd hxe hd
        · exact ⟨x, hx, hxe⟩
      have hd2 : d.err = false := by simpa using hd
      unfold gather
      simp only [hd2, Bool.false_eq_true, if_false]
      by_cases hk : (!d.isDir && isTIFF d.path) = true
      · rw [if_pos hk]; exact ih _ hr
      · rw [if_neg hk]; exact ih _ hr

theorem char_of_toNat (c : Char) (n : Nat) (h : c.toNat = n) : c = Char.ofNat n := by
  rw [← h, Char.ofNat_toNat]

theorem toLowerRune_cases (c x : Char) (h : toLowerRune c = x) :
    (c.toNat = 0x130 ∧ x = 'i') ∨ (c.toNat = 0x212A ∧ x = 'k') ∨
    (65 ≤ c.toNat ∧ c.toNat ≤ 90 ∧ x = Char.ofNat (c.toNat + 32)) ∨
    (¬ (65 ≤ c.toNat ∧ c.toNat ≤ 90) ∧ x = c) := by
  unfold toLowerRune at h
  split_ifs at h with h1 h2 h3
  · exact Or.inl ⟨h1, h.symm⟩
  · exact Or.inr (Or.inl ⟨h2, h.symm⟩)
  · exact Or.inr (Or.inr (Or.inl ⟨h3.1, h3.2, h.symm⟩))
  · exact Or.inr (Or.inr (Or.inr ⟨h3, h.symm⟩))

theorem toLowerRune_eq_t (c : Char) : toLowerRune c = 't' ↔ letterT c := by
  constructor
  · intro h
    rcases toLowerRune_cases c _ h with ⟨-, h2⟩ | ⟨-, h2⟩ | ⟨hlo, hhi, h2⟩ | ⟨-, h2⟩
    · exact absurd h2 (by decide)
    · exact absurd h2 (by decide)
    · right
      have hc := char_of_toNat c c.toNat rfl
      generalize c.toNat = n at hlo hhi h2 hc
      interval_cases n <;> first | exact absurd h2 (by decide) | exact hc
    · left; exact h2.symm
  · rintro (rfl | rfl) <;> decide

theorem toLowerRune_eq_f (c : Char) : toLowerRune c = 'f' ↔ letterF c := by
  constructor
  · intro h
    rcases toLowerRune_cases c _ h with ⟨-, h2⟩ | ⟨-, h2⟩ | ⟨hlo, hhi, h2⟩ | ⟨-, h2⟩
    · exact absurd h2 (by decide)
    · exact absurd h2 (by decide)
    · right
      have hc := char_of_toNat c c.toNat rfl
      generalize c.toNat = n at hlo hhi h2 hc
      interval_cases n <;> first | exact absurd h2 (by decide) | exact hc
    · left; exact h2.symm
  · rintro (rfl | rfl) <;> decide

theorem toLowerRune_eq_i (c : Char) : toLowerRune c = 'i' ↔ letterI c := by
  constructor
  · intro h
    rcases toLowerRune_cases c _ h with ⟨h1, -⟩ | ⟨-, h2⟩ | ⟨hlo, hhi, h2⟩ | ⟨-, h2⟩
    · exact Or.inr (Or.inr (char_of_toNat c _ h1))
    · exact absurd h2 (by decide)
    · right; left
      have hc := char_of_toNat c c.toNat rfl
      generalize c.toNat = n at hlo hhi h2 hc
      interval_cases n <;> first | exact absurd h2 (by decide) | exact hc
    · left; exact h2.symm
  · rintro (rfl | rfl | rfl) <;> decide

theorem toLowerRune_eq_dot_iff (c : Char) : toLowerRune c = '.' ↔ c = '.' := by
  constructor
  · exact toLowerRune_eq_dot c
  · rintro rfl; decide

/-- The lowered extension is `.tif` or `.tiff` exactly when the extension is
one of them up to the case of its letters. -/
theorem tiffExtension_iff (e : Str) :
    tiffExtension e ↔ (ToLower e = ".tif".toList ∨ ToLower e = ".tiff".toList) := by
  constructor
  · rintro ⟨t, i, f, ht, hi, hf, h | ⟨g, hg, h⟩⟩
    · left
      subst h
      simp [ToLower, (toLowerRune_eq_t t).mpr ht, (toLowerRune_eq_i i).mpr hi,
        (toLowerRune_eq_f f).mpr hf, (toLowerRune_eq_dot_iff '.').mpr rfl]
    · right
      subst h
      simp [ToLower, (toLowerRune_eq_t t).mpr ht, (toLowerRune_eq_i i).mpr hi,
        (toLowerRune_eq_f f).mpr hf, (toLowerRune_eq_f g).mpr hg,
        (toLowerRune_eq_dot_iff '.').mpr rfl]
  · rintro (h | h)
    · obtain ⟨a, b, c, d, hl, ha, hb, hc, hd⟩ := map_eq_four _ _ _ _ _ _ h
      have ha2 := toLowerRune_eq_dot a ha
      subst ha2
      exact ⟨b, c, d, (toLowerRune_eq_t b).mp hb, (toLowerRune_eq_i c).mp hc,
        (toLowerRune_eq_f d).mp hd, Or.inl hl⟩
    · obtain ⟨a, b, c, d, g, hl, ha, hb, hc, hd, hg⟩ := map_eq_five _ _ _ _ _ _ _ h
      have ha2 := toLowerRune_eq_dot a ha
      subst ha2
      exact ⟨b, c, d, (toLowerRune_eq_t b).mp hb, (toLowerRune_eq_i c).mp hc,
        (toLowerRune_eq_f d).mp hd, Or.inr ⟨g, (toLowerRune_eq_f g).mp hg, hl⟩⟩

/-- C7. `isTIFF` holds exactly when the extension of the path, lowered, is
`.tif` or `.tiff`; a walk without error builds exactly the list of the walked
entries that are not directories and satisfy `isTIFF`, in the order of the
walk and each entry once (whenever the walk function returns a list, it is
that list), and a directory is never in it whatever its name. Without going
through the lowering: `isTIFF` holds exactly when the extension is a dot
followed by the letters t, i, f or t, i, f, f, each in either case, that is,
when the path ends in such an extension; so it holds for `/d/a.TIF`, `/d/b.TiFf` and `/d/.tif`, and fails for
`/d/x.tif.tmp`, `/d/tif`, `/d/x.tif/y` and `/d/x.tifx`. -/
theorem discovery_filter :
    (∀ path : Str, isTIFF path = true ↔
      (ToLower (Ext path) = ".tif".toList ∨ ToLower (Ext path) = ".tiff".toList)) ∧
    (∀ entries : List WalkEntry, (∀ d ∈ entries, d.err = false) →
      gather entries [] =
        some ((entries.filter (fun d => !d.isDir && isTIFF d.path)).map (fun d => d.path))) ∧
    (∀ (entries : List WalkEntry) (tiffFiles : List Str), gather entries [] = some tiffFiles →
      tiffFiles =
        (entries.filter (fun d => !d.isDir && isTIFF d.path)).map (fun d => d.path)) ∧
    (∀ (entries : List WalkEntry) (tiffFiles : List Str), gather entries [] = some tiffFiles →
      ∀ d ∈ entries, d.isDir = true → (∀ e ∈ entries, e.path = d.path → e = d) →
        d.path ∉ tiffFiles) ∧
    (∀ path : Str, isTIFF path = true ↔ tiffExtension (Ext path)) ∧
    (∀ path : Str, isTIFF path = true ↔
      ∃ base t i f, letterT t ∧ letterI i ∧ letterF f ∧
        (path = base ++ ['.', t, i, f] ∨ ∃ g, letterF g ∧ path = base ++ ['.', t, i, f, g])) ∧
    isTIFF "/d/a.TIF".toList = true ∧ isTIFF "/d/b.TiFf".toList = true ∧
    isTIFF "/d/c.tif".toList = true ∧ isTIFF "/d/.tif".toList = true ∧
    Ext "/d/a.b.TIF".toList = ".TIF".toList ∧
    isTIFF "/d/x.tif.tmp".toList = false ∧ isTIFF "/d/tif".toList = false ∧
    isTIFF "/d/x.tif/y".toList = false ∧ isTIFF "/d/x.tifx".toList = false := by
  have key : ∀ (entries : List WalkEntry) (tiffFiles : List Str),
      gather entries [] = some tiffFiles → tiffFiles = kept entries := by
    intro entries tiffFiles hg
    by_cases herr : ∃ d ∈ entries, d.err = true
    · rw [gather_none entries [] herr] at hg
      exact absurd hg (by simp)
    · have hno : ∀ d ∈ entries, d.err = false := by
        intro d hd
        by_contra hc
        exact herr ⟨d, hd, by simpa using hc⟩
      rw [gather_eq entries [] hno] at hg
      simpa using hg.symm
  have hext : ∀ path : Str, isTIFF path = true ↔ tiffExtension (Ext path) := fun path =>
    ⟨fun h => (tiffExtension_iff _).mpr (ext_of_isTIFF path h),
      fun h => isTIFF_of_ext path ((tiffExtension_iff _).mp h)⟩
  refine ⟨fun path => ⟨ext_of_isTIFF path, isTIFF_of_ext path⟩, ?_, key, ?_, hext, ?_,
    by decide, by decide, by decide, by decide, by decide, by decide, by decide, by decide,
    by decide⟩
  · intro entries h
    simpa [kept] using gather_eq entries [] h
  · intro entries tiffFiles hg d hd hdir huniq hmem
    rw [key entries tiffFiles hg] at hmem
    simp only [kept, List.mem_map, List.mem_filter] at hmem
    obtain ⟨e, ⟨he, hk⟩, hpath⟩ := hmem
    have := huniq e he hpath
    subst this
    simp [hdir] at hk
  · intro path
    constructor
    · intro h
      obtain ⟨t, i, f, ht, hi, hf, hcase⟩ := (hext path).mp h
      obtain ⟨base, hbase⟩ := Ext_suffix path
      refine ⟨base, t, i, f, ht, hi, hf, ?_⟩
      rcases hcase with he | ⟨g, hg, he⟩
      · left; rw [← he]; exact hbase
      · right; exact ⟨g, hg, by rw [← he]; exact hbase⟩
    · rintro ⟨base, t, i, f, ht, hi, hf, hcase⟩
      have hlow : ∀ g, letterF g → toLowerRune g = 'f' := fun g hg => (toLowerRune_eq_f g).mpr hg
      unfold isTIFF
      simp only [Bool.or_eq_true, HasSuffix_iff]
      rcases hcase with hp | ⟨g, hg, hp⟩
      · left
        refine ⟨ToLower base, ?_⟩
        rw [hp]
        simp [ToLower, (toLowerRune_eq_t t).mpr ht, (toLowerRune_eq_i i).mpr hi, hlow f hf,
          (toLowerRune_eq_dot_iff '.').mpr rfl]
      · right
        refine ⟨ToLower base, ?_⟩
        rw [hp]
        simp [ToLower, (toLowerRune_eq_t t).mpr ht, (toLowerRune_eq_i i).mpr hi, hlow f hf,
          hlow g hg, (toLowerRune_eq_dot_iff '.').mpr rfl]

/-! ## `compressTIFF` -/

theorem ne_append_tmp (pa : Str) : pa ≠ pa ++ ".tmp".toList := by
  intro h
  have := congrArg List.length h
  simp at this

theorem append_tmp_ne (pa : Str) : pa ++ ".tmp".toList ≠ pa := fun h => ne_append_tmp pa h.symm

/-- What a call of `compressTIFF` that returns `nil` has done. -/
theorem compressTIFF_ok {Img : Type} (codec : Codec Img) (cwd : Option Str) (cfg : Config)
    (f : Faults) (p : Str) (w : World)
    (hok : (compressTIFF codec cwd cfg f p w).1 = none) :
    ∃ pa content img out, Abs cwd p = some pa ∧ w.fs pa = some content ∧
      codec.decode content = some img ∧ outputFileOf cwd cfg pa = some out ∧
      (compressTIFF codec cwd cfg f p w).2.fs out = some (codec.encode img) ∧
      (compressTIFF codec cwd cfg f p w).2.totalOriginalBytes =
        addInt64 w.totalOriginalBytes content.length ∧
      (compressTIFF codec cwd cfg f p w).2.totalCompressedBytes =
        addInt64 w.totalCompressedBytes (codec.encode img).length := by
  unfold compressTIFF at hok ⊢
  cases habs : Abs cwd p with
  | none => simp [habs] at hok
  | some pa =>
    simp only [habs] at hok ⊢
    cases hstat : (if f.statFails = true then none else w.fs pa) with
    | none => simp [hstat] at hok
    | some content =>
      simp only [hstat] at hok ⊢
      have hfs : w.fs pa = some content := by
        by_cases h : f.statFails = true
        · simp [h] at hstat
        · simpa [h] using hstat
      by_cases hopen : f.openFails = true
      · simp [hopen] at hok
      simp only [hopen, if_false] at hok ⊢
      cases hdec : codec.decode content with
      | none => simp [hdec] at hok
      | some img =>
        simp only [hdec] at hok ⊢
        by_cases hmode : cfg.outputDir = []
        · simp only [hmode, if_true] at hok ⊢
          by_cases hcr : f.createFails = true
          · simp [hcr] at hok
          simp only [hcr, if_false] at hok ⊢
          cases henc : f.encodeFails with
          | some written => simp [henc] at hok
          | none =>
            simp only [henc] at hok ⊢
            by_cases hren : f.renameFails = true
            · simp [hren] at hok
            simp only [hren, if_false] at hok ⊢
            by_cases hst : f.statNewFails = true
            · simp [finish, hst] at hok
            refine ⟨pa, content, img, pa, rfl, hfs, hdec, by simp [outputFileOf, hmode], ?_⟩
            simp [finish, hst, FS.rename, FS.write]
        · simp only [hmode, if_false] at hok ⊢
          cases hmp : mirrorPath cfg pa with
          | none => simp [hmp] at hok
          | some out =>
            simp only [hmp] at hok ⊢
            by_cases hmk : f.mkdirFails = true
            · simp [hmk] at hok
            simp only [hmk, if_false] at hok ⊢
            by_cases hcr : f.createFails = true
            · simp [hcr] at hok
            simp only [hcr, if_false] at hok ⊢
            cases henc : f.encodeFails with
            | some written => simp [henc] at hok
            | none =>
              simp only [henc] at hok ⊢
              by_cases hst : f.statNewFails = true
              · simp [finish, hst] at hok
              refine ⟨pa, content, img, resolvePath cwd out, rfl, hfs, hdec,
                by simp [outputFileOf, mirrorFile, hmode, hmp], ?_⟩
              simp [finish, hst, FS.write]

/-- A call of `compressTIFF` that returns an error leaves both counters as
they were. -/
theorem compressTIFF_err {Img : Type} (codec : Codec Img) (cwd : Option Str) (cfg : Config)
    (f : Faults) (p : Str) (w : World)
    (herr : (compressTIFF codec cwd cfg f p w).1 ≠ none) :
    (compressTIFF codec cwd cfg f p w).2.totalOriginalBytes = w.totalOriginalBytes ∧
    (compressTIFF codec cwd cfg f p w).2.totalCompressedBytes = w.totalCompressedBytes := by
  unfold compressTIFF finish removeIgnored at herr ⊢
  repeat' split
  all_goals simp_all [removeIgnored, FS.write, FS.remove, FS.rename]

/-- A call of `compressTIFF` changes no file outside its write set. -/
theorem compressTIFF_frame {Img : Type} (codec : Codec Img) (cwd : Option Str) (cfg : Config)
    (f : Faults) (p pa : Str) (w : World) (habs : Abs cwd p = some pa)
    (x : Str) (hx : x ∉ writeSet cwd cfg pa) :
    (compressTIFF codec cwd cfg f p w).2.fs x = w.fs x := by
  unfold writeSet mirrorFile at hx
  unfold compressTIFF finish removeIgnored
  simp only [habs]
  repeat' split
  all_goals simp_all [removeIgnored, FS.write, FS.remove, FS.rename]

/-- What a call of `compressTIFF` returns depends on the file system through
the input file only. -/
theorem compressTIFF_local {Img : Type} (codec : Codec Img) (cwd : Option Str) (cfg : Config)
    (f : Faults) (p pa : Str) (w1 w2 : World) (habs : Abs cwd p = some pa)
    (h : w1.fs pa = w2.fs pa) :
    (compressTIFF codec cwd cfg f p w1).1 = (compressTIFF codec cwd cfg f p w2).1 := by
  unfold compressTIFF finish removeIgnored
  simp only [habs, h]
  repeat' split
  all_goals simp_all [removeIgnored, FS.write, FS.remove, FS.rename]

/-- C3 (amended). In in-place mode, for every file system, path and set of
failures: a call that returns the error of the encode step or of the rename
step leaves the input file as it was, and leaves no file at the input path
plus `.tmp` when the removal of the temp file succeeds, while the temp file
stays when the removal fails too; when the call gets as far as the encode
step, a failure of that step, or of the rename step after it, is returned as
that error, and the temp file is then gone or, when its removal fails, holds
what the encoder wrote; and the input file changes only when neither step
fails, to the encoded image. -/
theorem inplace_atomicity {Img : Type} (codec : Codec Img) (cwd : Option Str) (cfg : Config)
    (f : Faults) (p pa : Str) (w : World)
    (hmode : cfg.outputDir = []) (habs : Abs cwd p = some pa) :
    (((compressTIFF codec cwd cfg f p w).1 = some Err.encode ∨
        (compressTIFF codec cwd cfg f p w).1 = some Err.rename) →
      (compressTIFF codec cwd cfg f p w).2.fs pa = w.fs pa ∧
      (f.removeFails = false →
        (compressTIFF codec cwd cfg f p w).2.fs (pa ++ ".tmp".toList) = none) ∧
      (f.removeFails = true →
        ∃ b, (compressTIFF codec cwd cfg f p w).2.fs (pa ++ ".tmp".toList) = some b)) ∧
    (∀ content img, f.statFails = false → w.fs pa = some content → f.openFails = false →
      codec.decode content = some img → f.createFails = false →
      (∀ written, f.encodeFails = some written →
        (compressTIFF codec cwd cfg f p w).1 = some Err.encode ∧
        (compressTIFF codec cwd cfg f p w).2.fs (pa ++ ".tmp".toList) =
          if f.removeFails = true then some written else none) ∧
      (f.encodeFails = none → f.renameFails = true →
        (compressTIFF codec cwd cfg f p w).1 = some Err.rename ∧
        (compressTIFF codec cwd cfg f p w).2.fs (pa ++ ".tmp".toList) =
          if f.removeFails = true then some (codec.encode img) else none)) ∧
    ((compressTIFF codec cwd cfg f p w).2.fs pa ≠ w.fs pa →
      f.encodeFails = none ∧ f.renameFails = false ∧
      ∃ content img, w.fs pa = some content ∧ codec.decode content = some img ∧
        (compressTIFF codec cwd cfg f p w).2.fs pa = some (codec.encode img)) := by
  have hne := ne_append_tmp pa
  have hne2 := append_tmp_ne pa
  simp only [String.toList] at hne hne2
  refine ⟨?_, ?_, ?_⟩
  · unfold compressTIFF finish removeIgnored
    simp only [habs, hmode]
    repeat' split
    all_goals simp_all [removeIgnored, FS.write, FS.remove, FS.rename]
  · intro content img h1 h2 h3 h4 h5
    unfold compressTIFF finish removeIgnored
    simp only [habs, hmode, h1, h2, h3, h4, h5]
    constructor
    · intro written h6
      by_cases hr : f.removeFails = true
      · simp [h4, h6, FS.write, hr]
      · simp [h4, h6, FS.write, FS.remove, hr]
    · intro h6 h7
      by_cases hr : f.removeFails = true
      · simp [h4, h6, h7, FS.write, hr]
      · simp [h4, h6, h7, FS.write, FS.remove, hr]
  · unfold compressTIFF finish removeIgnored
    simp only [habs, hmode]
    repeat' split
    all_goals simp_all [removeIgnored, FS.write, FS.remove, FS.rename]

/-- C3 (amended), at a concrete input: `tiff.Encode` fails on `/d/a.tif` after
two bytes; the call returns the encode error, `/d/a.tif` is unchanged and
`/d/a.tif.tmp`, which existed before, is gone. The same holds when
`os.Rename` fails instead. -/
theorem inplace_atomicity_witness :
    demoInPlace.outputDir = [] ∧ Abs none "/d/a.tif".toList = some "/d/a.tif".toList ∧
    (compressTIFF demoCodec none demoInPlace encodeFault "/d/a.tif".toList demoWorld).1 =
      some Err.encode ∧
    (compressTIFF demoCodec none demoInPlace encodeFault "/d/a.tif".toList demoWorld).2.fs
      "/d/a.tif".toList = some [73, 1, 2, 3] ∧
    (compressTIFF demoCodec none demoInPlace encodeFault "/d/a.tif".toList demoWorld).2.fs
      "/d/a.tif.tmp".toList = none ∧
    (compressTIFF demoCodec none demoInPlace renameFault "/d/a.tif".toList demoWorld).1 =
      some Err.rename ∧
    (compressTIFF demoCodec none demoInPlace renameFault "/d/a.tif".toList demoWorld).2.fs
      "/d/a.tif".toList = some [73, 1, 2, 3] ∧
    (compressTIFF demoCodec none demoInPlace renameFault "/d/a.tif".toList demoWorld).2.fs
      "/d/a.tif.tmp".toList = none := by
  have h := inplace_atomicity demoCodec none demoInPlace encodeFault "/d/a.tif".toList
    "/d/a.tif".toList demoWorld rfl (by decide)
  have g := inplace_atomicity demoCodec none demoInPlace renameFault "/d/a.tif".toList
    "/d/a.tif".toList demoWorld rfl (by decide)
  have h1 : (compressTIFF demoCodec none demoInPlace encodeFault "/d/a.tif".toList
      demoWorld).1 = some Err.encode := by decide
  have g1 : (compressTIFF demoCodec none demoInPlace renameFault "/d/a.tif".toList
      demoWorld).1 = some Err.rename := by decide
  have h2 := h.1 (Or.inl h1)
  have g2 := g.1 (Or.inr g1)
  exact ⟨rfl, by decide, h1, h2.1, h2.2.1 (by decide), g1, g2.1, g2.2.1 (by decide)⟩

/-- C3 as stated fails when the removal of the temp file fails as well, as in
a directory that cannot be written where a temp file of an earlier run is
left: `os.Create` truncates `/d/a.tif.tmp`, the image is encoded into it,
`os.Rename` fails and so does `os.Remove`, whose result the source drops. The
call returns the rename error, `/d/a.tif` is unchanged, and `/d/a.tif.tmp`
holds the encoded image. The same holds of a temp file that did not exist
before the call. -/
theorem inplace_temp_file_left :
    demoWorld.fs "/d/a.tif.tmp".toList = some [73, 7, 7] ∧
    (compressTIFF demoCodec none demoInPlace stuckFault "/d/a.tif".toList demoWorld).1 =
      some Err.rename ∧
    (compressTIFF demoCodec none demoInPlace stuckFault "/d/a.tif".toList demoWorld).2.fs
      "/d/a.tif".toList = some [73, 1, 2, 3] ∧
    (compressTIFF demoCodec none demoInPlace stuckFault "/d/a.tif".toList demoWorld).2.fs
      "/d/a.tif.tmp".toList = some [73, 1, 2, 3] ∧
    statsWorld.fs "/d/a.tif.tmp".toList = none ∧
    (compressTIFF shrinkCodec none demoInPlace stuckFault "/d/a.tif".toList statsWorld).1 =
      some Err.rename ∧
    (compressTIFF shrinkCodec none demoInPlace stuckFault "/d/a.tif".toList statsWorld).2.fs
      "/d/a.tif".toList = some [1, 2, 3, 4] ∧
    (compressTIFF shrinkCodec none demoInPlace stuckFault "/d/a.tif".toList statsWorld).2.fs
      "/d/a.tif.tmp".toList = some [1, 2] := by
  decide

/-- C8. For every call of `compressTIFF` that returns `nil`, the file at the
output path holds exactly the encoding of the decoded input; hence, for a
codec whose decoder inverts its encoder, the output decodes to the image the
input decodes to, and a second successful call on the output writes a file
that decodes to the same image again. -/
theorem lossless_replacement {Img : Type} (codec : Codec Img) (cwd : Option Str) (cfg : Config)
    (f : Faults) (p : Str) (w : World)
    (hok : (compressTIFF codec cwd cfg f p w).1 = none) :
    ∃ pa content img out, Abs cwd p = some pa ∧ w.fs pa = some content ∧
      codec.decode content = some img ∧ outputFileOf cwd cfg pa = some out ∧
      (compressTIFF codec cwd cfg f p w).2.fs out = some (codec.encode img) ∧
      ((∀ i, codec.decode (codec.encode i) = some i) →
        codec.decode (codec.encode img) = codec.decode content ∧
        ∀ f2 p2, Abs cwd p2 = some out →
          (compressTIFF codec cwd cfg f2 p2 (compressTIFF codec cwd cfg f p w).2).1 = none →
          ∃ out2 b2, outputFileOf cwd cfg out = some out2 ∧
            (compressTIFF codec cwd cfg f2 p2 (compressTIFF codec cwd cfg f p w).2).2.fs out2 =
              some b2 ∧
            codec.decode b2 = codec.decode content) := by
  obtain ⟨pa, content, img, out, h1, h2, h3, h4, h5, -, -⟩ :=
    compressTIFF_ok codec cwd cfg f p w hok
  refine ⟨pa, content, img, out, h1, h2, h3, h4, h5, ?_⟩
  intro hrt
  refine ⟨by rw [hrt, h3], ?_⟩
  intro f2 p2 habs2 hok2
  obtain ⟨pa2, content2, img2, out2, g1, g2, g3, g4, g5, -, -⟩ :=
    compressTIFF_ok codec cwd cfg f2 p2 _ hok2
  rw [habs2] at g1
  cases g1
  rw [h5] at g2
  cases g2
  rw [hrt] at g3
  cases g3
  exact ⟨out2, _, g4, g5, by rw [hrt, h3]⟩

/-- C8, at a concrete input: `/d/a.tif` is compressed in place without
failure; the file then holds the encoding of its decoded content. -/
theorem lossless_replacement_witness :
    (compressTIFF demoCodec none demoInPlace Faults.none "/d/a.tif".toList demoWorld).1 = none ∧
    ∃ pa content img out, Abs none "/d/a.tif".toList = some pa ∧
      demoWorld.fs pa = some content ∧ demoCodec.decode content = some img ∧
      outputFileOf none demoInPlace pa = some out ∧
      (compressTIFF demoCodec none demoInPlace Faults.none "/d/a.tif".toList demoWorld).2.fs out =
        some (demoCodec.encode img) := by
  have hok : (compressTIFF demoCodec none demoInPlace Faults.none "/d/a.tif".toList
      demoWorld).1 = none := by decide
  obtain ⟨pa, content, img, out, h1, h2, h3, h4, h5, -⟩ :=
    lossless_replacement demoCodec none demoInPlace Faults.none "/d/a.tif".toList demoWorld hok
  exact ⟨hok, pa, content, img, out, h1, h2, h3, h4, h5⟩

/-! ## Output paths -/

theorem isTIFF_append_tmp (p : Str) : isTIFF (p ++ ".tmp".toList) = false := by
  rw [Bool.eq_false_iff]
  intro h
  unfold isTIFF at h
  simp only [Bool.or_eq_true, HasSuffix_iff] at h
  have hl : ToLower (p ++ ".tmp".toList) = ToLower p ++ ".tmp".toList := by
    simp only [ToLower, List.map_append]
    congr 1
  rw [hl] at h
  rcases h with ⟨t, ht⟩ | ⟨t, ht⟩
  · have := congrArg List.reverse ht
    simp at this
  · have := congrArg List.reverse ht
    simp at this

theorem nfStack_joinState (first : Str) : nfStack (joinState first).1 (joinState first).2 := by
  unfold joinState
  split_ifs with h
  · trivial
  · exact nfStack_scan first

theorem splitSep_relName_foldl (r : Bool) (S names : List Str)
    (hn : ∀ n ∈ names, validName n) :
    (splitSep (relName names)).foldl (cleanStep r) S = names.reverse ++ S := by
  unfold relName
  split_ifs with h
  · subst h
    simp [splitSep, cleanStep]
  · rw [splitSep_joinSep names h (fun w hw => (hn w hw).2.2.2), foldl_cleanStep_names r S names hn]

theorem relName_ne_nil (names : List Str) (hn : ∀ n ∈ names, validName n) :
    relName names ≠ [] := by
  unfold relName
  split_ifs with h
  · simp
  · cases names with
    | nil => exact absurd rfl h
    | cons n rest => exact joinSep_ne_nil n rest (hn n (by simp)).1

theorem IsAbs_relName (names : List Str) (hn : ∀ n ∈ names, validName n) :
    IsAbs (relName names) = false := by
  unfold relName
  split_ifs with h
  · decide
  · cases names with
    | nil => exact absurd rfl h
    | cons n rest =>
      have hv := hn n (by simp)
      unfold IsAbs
      rw [joinSep_head n rest hv.1]
      cases n with
      | nil => exact absurd rfl hv.1
      | cons c cs =>
        have : c ≠ '/' := fun hc => hv.2.2.2 (by simp [hc])
        simp [this]

/-- `Join` of a first element and the relative path of a walked file. -/
theorem Join_relName (first : Str) (names : List Str) (hn : ∀ n ∈ names, validName n) :
    Join [first, relName names] =
      render (joinState first).1 (names.reverse ++ (joinState first).2).reverse := by
  by_cases h : first = []
  · subst h
    have hne := relName_ne_nil names hn
    have hj : Join [[], relName names] = Clean (relName names) := by
      simp [Join, hne, joinSep]
    rw [hj, Clean_eq_render_scan _ hne, IsAbs_relName names hn]
    unfold scan
    rw [IsAbs_relName names hn, splitSep_relName_foldl false [] names hn]
    simp [joinState]
  · rw [Join_pair _ _ h, Clean_append_sep _ _ h, splitSep_relName_foldl _ _ names hn]
    simp [joinState, h]

theorem walkPath_of_clean_abs (root : Str) (names : List Str) (habs : IsAbs root = true)
    (hclean : Clean root = root) (hn : ∀ n ∈ names, validName n) :
    ∃ stk, nfStack true stk ∧ root = render true stk.reverse ∧
      walkPath root names = render true (names.reverse ++ stk).reverse ∧
      Rel root (walkPath root names) = some (relName names) ∧
      IsAbs (walkPath root names) = true ∧ Clean (walkPath root names) = walkPath root names := by
  obtain ⟨stk, hs, hroot⟩ := exists_stack_of_clean_abs root habs hclean
  have hw : walkPath root names = render true (names.reverse ++ stk).reverse := by
    rw [hroot]; exact walkPath_render stk names hs hn
  have hs2 := nfStack_push_names true stk names hs hn
  refine ⟨stk, hs, hroot, hw, ?_, ?_, ?_⟩
  · rw [hw]
    conv_lhs => rw [hroot]
    rw [Rel_walk stk names hs hn]
    rfl
  · rw [hw]; exact IsAbs_render true _ hs2
  · rw [hw]; exact Clean_render true _ hs2

theorem Abs_walkPath (cwd : Option Str) (root : Str) (names : List Str)
    (habs : IsAbs root = true) (hclean : Clean root = root) (hn : ∀ n ∈ names, validName n) :
    Abs cwd (walkPath root names) = some (walkPath root names) := by
  obtain ⟨stk, -, -, -, -, h1, h2⟩ := walkPath_of_clean_abs root names habs hclean hn
  simp [Abs, h1, h2]

/-- The output path, in mirror mode, of a file that the walk finds. -/
theorem mirrorPath_walk (cfg : Config) (names : List Str) (habs : IsAbs cfg.rootDir = true)
    (hclean : Clean cfg.rootDir = cfg.rootDir) (hn : ∀ n ∈ names, validName n) :
    mirrorPath cfg (walkPath cfg.rootDir names) =
      some (render (joinState cfg.outputRoot).1
        (names.reverse ++ (joinState cfg.outputRoot).2).reverse) := by
  obtain ⟨stk, -, -, -, hrel, -, -⟩ := walkPath_of_clean_abs cfg.rootDir names habs hclean hn
  unfold mirrorPath
  rw [hrel]
  simp [Join_relName cfg.outputRoot names hn]

/-- `Join` of a first element and a relative path. -/
theorem Join_pair_state (first x : Str) (hx : x ≠ []) (hrel : IsAbs x = false) :
    Join [first, x] =
      render (joinState first).1
        ((splitSep x).foldl (cleanStep (joinState first).1) (joinState first).2).reverse := by
  by_cases h : first = []
  · subst h
    have hj : Join [[], x] = Clean x := by simp [Join, hx, joinSep]
    rw [hj, Clean_eq_render_scan _ hx, hrel]
    unfold scan
    rw [hrel]
    simp [joinState]
  · rw [Join_pair _ _ h, Clean_append_sep _ _ h]
    simp [joinState, h]

theorem nfStack_fileState (cwd : Option Str) (outputRoot : Str) :
    nfStack (fileState cwd outputRoot).1 (fileState cwd outputRoot).2 := by
  unfold fileState
  split_ifs with h
  · exact nfStack_joinState outputRoot
  · cases cwd with
    | none => exact nfStack_joinState outputRoot
    | some wd =>
      exact nfStack_foldl _ _ _ (nfStack_joinState wd)
        (fun e he => nfStack_no_sep _ _ (nfStack_joinState outputRoot) e (by simpa using he))

/-- What a path below the output root resolves to. -/
theorem resolvePath_render (cwd : Option Str) (outputRoot : Str) (names : List Str)
    (hn : ∀ n ∈ names, validName n) :
    resolvePath cwd (render (joinState outputRoot).1
        (names.reverse ++ (joinState outputRoot).2).reverse) =
      render (fileState cwd outputRoot).1
        (names.reverse ++ (fileState cwd outputRoot).2).reverse := by
  have hnf := nfStack_push_names _ _ names (nfStack_joinState outputRoot) hn
  have hia := IsAbs_render _ _ hnf
  have hcl := Clean_render _ _ hnf
  have hJ : ∀ wd, (joinState outputRoot).1 = false →
      Join [wd, render (joinState outputRoot).1
        (names.reverse ++ (joinState outputRoot).2).reverse] =
      render (joinState wd).1 (names.reverse ++
        (joinState outputRoot).2.reverse.foldl (cleanStep (joinState wd).1)
          (joinState wd).2).reverse := by
    intro wd hf
    rw [Join_pair_state wd _ (render_ne_nil _ _ hnf) (by rw [hia]; exact hf),
      foldl_splitSep_render _ _ _ _ hnf]
    simp only [List.reverse_append, List.reverse_reverse, List.foldl_append]
    rw [foldl_cleanStep_names _ _ names hn]
    simp
  generalize hX : render (joinState outputRoot).1
    (names.reverse ++ (joinState outputRoot).2).reverse = X at hia hcl hJ ⊢
  unfold resolvePath Abs
  by_cases hr : (joinState outputRoot).1 = true
  · have hfs : fileState cwd outputRoot = joinState outputRoot := by simp [fileState, hr]
    rw [hia, hfs, hX]
    simp only [hr, if_true, Option.getD_some]
    exact hcl
  · have hf : (joinState outputRoot).1 = false := by simpa using hr
    rw [hia]
    simp only [hf, Bool.false_eq_true, if_false]
    cases cwd with
    | none =>
      have hfs : fileState none outputRoot = joinState outputRoot := by simp [fileState, hf]
      rw [hfs, ← hX, hf]
      rfl
    | some wd =>
      simp only [Option.getD_some]
      rw [hJ wd hf]
      simp [fileState, hf]

/-- The file that `compressTIFF` writes, in mirror mode, for a file that the
walk finds. -/
theorem mirrorFile_walk (cwd : Option Str) (cfg : Config) (names : List Str)
    (habs : IsAbs cfg.rootDir = true)
    (hclean : Clean cfg.rootDir = cfg.rootDir) (hn : ∀ n ∈ names, validName n) :
    mirrorFile cwd cfg (walkPath cfg.rootDir names) =
      some (render (fileState cwd cfg.outputRoot).1
        (names.reverse ++ (fileState cwd cfg.outputRoot).2).reverse) := by
  unfold mirrorFile
  rw [mirrorPath_walk cfg names habs hclean hn]
  simp only [Option.map_some']
  rw [resolvePath_render cwd cfg.outputRoot names hn]

theorem walkPath_names_ne (root : Str) (ns1 ns2 : List Str)
    (h : walkPath root ns1 ≠ walkPath root ns2) : ns1 ≠ ns2 := by
  intro he; exact h (by rw [he])

/-- The write sets of two different files that the walk finds share no path. -/
theorem writeSet_disjoint (cwd : Option Str) (cfg : Config) (ns1 ns2 : List Str)
    (habs : IsAbs cfg.rootDir = true) (hclean : Clean cfg.rootDir = cfg.rootDir)
    (h1 : ∀ n ∈ ns1, validName n) (h2 : ∀ n ∈ ns2, validName n)
    (hpq : walkPath cfg.rootDir ns1 ≠ walkPath cfg.rootDir ns2)
    (hq : isTIFF (walkPath cfg.rootDir ns2) = true)
    (hp : isTIFF (walkPath cfg.rootDir ns1) = true) :
    ∀ x ∈ writeSet cwd cfg (walkPath cfg.rootDir ns1),
      x ∉ writeSet cwd cfg (walkPath cfg.rootDir ns2) := by
  intro x hx hx2
  unfold writeSet at hx hx2
  by_cases hmode : cfg.outputDir = []
  · simp only [hmode, if_true, List.mem_cons, List.mem_singleton, List.not_mem_nil,
      or_false] at hx hx2
    rcases hx with rfl | rfl <;> rcases hx2 with h | h
    · exact hpq h
    · rw [h, isTIFF_append_tmp] at hp; exact absurd hp (by simp)
    · rw [← h, isTIFF_append_tmp] at hq; exact absurd hq (by simp)
    · exact hpq (List.append_cancel_right h)
  · simp only [hmode, if_false] at hx hx2
    rw [mirrorFile_walk cwd cfg ns1 habs hclean h1] at hx
    rw [mirrorFile_walk cwd cfg ns2 habs hclean h2] at hx2
    simp only [Option.toList, List.mem_singleton] at hx hx2
    rw [hx] at hx2
    have hnf := nfStack_fileState cwd cfg.outputRoot
    have := render_inj _ _ _ (nfStack_push_names _ _ ns1 hnf h1)
      (nfStack_push_names _ _ ns2 hnf h2) hx2
    have h3 := List.append_cancel_right this
    exact walkPath_names_ne _ _ _ hpq (List.reverse_injective h3)

/-- C10. For two different files that the walk finds below a cleaned absolute
`rootDir`, both satisfying `isTIFF`: `compressTIFF` is called on these paths as
they are; in in-place mode the write sets are the path and the path plus
`.tmp`; in mirror mode each file has one output path,
`Join(outputRoot, Rel(rootDir, p))`, the two output paths differ, they name
different files, and these files are the write sets; in both modes no file is
in both write sets; and a call of `compressTIFF` on either path changes no
file outside the write set of that path. -/
theorem disjoint_write_sets (cfg : Config) (cwd : Option Str) (ns1 ns2 : List Str)
    (habs : IsAbs cfg.rootDir = true) (hclean : Clean cfg.rootDir = cfg.rootDir)
    (h1 : ∀ n ∈ ns1, validName n) (h2 : ∀ n ∈ ns2, validName n)
    (hpq : walkPath cfg.rootDir ns1 ≠ walkPath cfg.rootDir ns2)
    (hp : isTIFF (walkPath cfg.rootDir ns1) = true)
    (hq : isTIFF (walkPath cfg.rootDir ns2) = true) :
    Abs cwd (walkPath cfg.rootDir ns1) = some (walkPath cfg.rootDir ns1) ∧
    Abs cwd (walkPath cfg.rootDir ns2) = some (walkPath cfg.rootDir ns2) ∧
    (cfg.outputDir = [] →
      writeSet cwd cfg (walkPath cfg.rootDir ns1) =
        [walkPath cfg.rootDir ns1, walkPath cfg.rootDir ns1 ++ ".tmp".toList] ∧
      writeSet cwd cfg (walkPath cfg.rootDir ns2) =
        [walkPath cfg.rootDir ns2, walkPath cfg.rootDir ns2 ++ ".tmp".toList]) ∧
    (cfg.outputDir ≠ [] →
      ∃ op oq,
        (Rel cfg.rootDir (walkPath cfg.rootDir ns1)).map (fun r => Join [cfg.outputRoot, r]) =
          some op ∧
        (Rel cfg.rootDir (walkPath cfg.rootDir ns2)).map (fun r => Join [cfg.outputRoot, r]) =
          some oq ∧
        op ≠ oq ∧ resolvePath cwd op ≠ resolvePath cwd oq ∧
        writeSet cwd cfg (walkPath cfg.rootDir ns1) = [resolvePath cwd op] ∧
        writeSet cwd cfg (walkPath cfg.rootDir ns2) = [resolvePath cwd oq]) ∧
    (∀ x ∈ writeSet cwd cfg (walkPath cfg.rootDir ns1),
      x ∉ writeSet cwd cfg (walkPath cfg.rootDir ns2)) ∧
    (∀ {Img : Type} (codec : Codec Img) (f : Faults) (w : World) (x : Str),
      (x ∉ writeSet cwd cfg (walkPath cfg.rootDir ns1) →
        (compressTIFF codec cwd cfg f (walkPath cfg.rootDir ns1) w).2.fs x = w.fs x) ∧
      (x ∉ writeSet cwd cfg (walkPath cfg.rootDir ns2) →
        (compressTIFF codec cwd cfg f (walkPath cfg.rootDir ns2) w).2.fs x = w.fs x)) := by
  have hd := writeSet_disjoint cwd cfg ns1 ns2 habs hclean h1 h2 hpq hq hp
  have ha1 := Abs_walkPath cwd cfg.rootDir ns1 habs hclean h1
  have ha2 := Abs_walkPath cwd cfg.rootDir ns2 habs hclean h2
  refine ⟨ha1, ha2, ?_, ?_, hd, ?_⟩
  · intro hmode
    simp [writeSet, hmode]
  · intro hmode
    have m1 := mirrorPath_walk cfg ns1 habs hclean h1
    have m2 := mirrorPath_walk cfg ns2 habs hclean h2
    have w1 : writeSet cwd cfg (walkPath cfg.rootDir ns1) =
        [resolvePath cwd (render (joinState cfg.outputRoot).1
          (ns1.reverse ++ (joinState cfg.outputRoot).2).reverse)] := by
      rw [writeSet, if_neg hmode, mirrorFile, m1]; rfl
    have w2 : writeSet cwd cfg (walkPath cfg.rootDir ns2) =
        [resolvePath cwd (render (joinState cfg.outputRoot).1
          (ns2.reverse ++ (joinState cfg.outputRoot).2).reverse)] := by
      rw [writeSet, if_neg hmode, mirrorFile, m2]; rfl
    have hres : resolvePath cwd (render (joinState cfg.outputRoot).1
          (ns1.reverse ++ (joinState cfg.outputRoot).2).reverse) ≠
        resolvePath cwd (render (joinState cfg.outputRoot).1
          (ns2.reverse ++ (joinState cfg.outputRoot).2).reverse) := by
      intro he
      exact hd _ (by rw [w1]; exact List.mem_singleton_self _)
        (by rw [w2, he]; exact List.mem_singleton_self _)
    exact ⟨_, _, m1, m2, fun he => hres (by rw [he]), hres, w1, w2⟩
  · intro Img codec f w x
    exact ⟨fun hx => compressTIFF_frame codec cwd cfg f _ _ w ha1 x hx,
      fun hx => compressTIFF_frame codec cwd cfg f _ _ w ha2 x hx⟩

/-- C10, at a concrete input: `/d/a.tif` and `/d/sub/a.tiff` below `/d`, in
in-place mode. -/
theorem disjoint_write_sets_witness :
    walkPath "/d".toList ["a.tif".toList] = "/d/a.tif".toList ∧
    walkPath "/d".toList ["sub".toList, "a.tiff".toList] = "/d/sub/a.tiff".toList ∧
    ∀ x ∈ writeSet none demoInPlace (walkPath demoInPlace.rootDir ["a.tif".toList]),
      x ∉ writeSet none demoInPlace (walkPath demoInPlace.rootDir ["sub".toList, "a.tiff".toList]) := by
  have h := disjoint_write_sets demoInPlace none ["a.tif".toList] ["sub".toList, "a.tiff".toList]
    (by decide) (by decide) (by decide) (by decide) (by decide) (by decide) (by decide)
  exact ⟨by decide, by decide, h.2.2.2.2.1⟩

theorem IsAbs_ne_nil (a : Str) (h : IsAbs a = true) : a ≠ [] := by
  intro he; rw [he] at h; simp [IsAbs] at h

/-- What `Abs` returns is absolute when the working directory is. -/
theorem IsAbs_of_Abs (cwd : Option Str) (path a : Str)
    (hcwd : ∀ wd, cwd = some wd → IsAbs wd = true) (h : Abs cwd path = some a) :
    IsAbs a = true := by
  unfold Abs at h
  split_ifs at h with hp
  · cases h
    rw [IsAbs_Clean _ (IsAbs_ne_nil _ hp)]; exact hp
  · cases hc : cwd with
    | none => simp [hc] at h
    | some wd =>
      simp only [hc, Option.some.injEq] at h
      have hwd := hcwd wd hc
      have hne := IsAbs_ne_nil wd hwd
      rw [← h, Join_pair _ _ hne, IsAbs_Clean _ (by simp [hne]), IsAbs_append _ _ hne]
      exact hwd

/-- The package-level variables that the start-up leaves. -/
theorem startup_proceed (cwd : Option Str) (args : Args) (cfg : Config)
    (hstart : startup cwd args = Startup.proceed cfg) :
    ∃ arg0 rest a, args.positional = arg0 :: rest ∧ Abs cwd arg0 = some a ∧
      cfg.rootDir = Clean a ∧
      (args.outdir = [] → cfg.outputDir = [] ∧ cfg.outputRoot = []) ∧
      (args.outdir ≠ [] →
        cfg.outputRoot = Join [args.outdir, Base cfg.rootDir] ∧
        ∃ b, Abs cwd args.outdir = some b ∧ cfg.outputDir = Clean b ∧
          HasPrefix ((Rel cfg.rootDir cfg.outputDir).getD []) ['.', '.'] = true) := by
  unfold startup at hstart
  cases hpos : args.positional with
  | nil => simp [hpos] at hstart
  | cons arg0 rest =>
    simp only [hpos] at hstart
    cases ha : Abs cwd arg0 with
    | none => simp [ha] at hstart
    | some a =>
      simp only [ha] at hstart
      by_cases hout : args.outdir = []
      · simp only [hout, ne_eq, not_true_eq_false, if_false, Startup.proceed.injEq] at hstart
        subst hstart
        exact ⟨arg0, rest, a, rfl, ha, rfl, fun _ => ⟨rfl, rfl⟩, fun h => absurd hout h⟩
      · simp only [hout, ne_eq, not_false_eq_true, if_true] at hstart
        cases hb : Abs cwd args.outdir with
        | none => simp [hb] at hstart
        | some b =>
          simp only [hb] at hstart
          split_ifs at hstart with hpre
          simp only [Startup.proceed.injEq] at hstart
          subst hstart
          refine ⟨arg0, rest, a, rfl, ha, rfl, fun h => absurd h hout,
            fun _ => ⟨rfl, b, rfl, rfl, ?_⟩⟩
          simpa using hpre

theorem startup_rootDir (cwd : Option Str) (args : Args) (cfg : Config)
    (hcwd : ∀ wd, cwd = some wd → IsAbs wd = true)
    (hstart : startup cwd args = Startup.proceed cfg) :
    IsAbs cfg.rootDir = true ∧ Clean cfg.rootDir = cfg.rootDir := by
  obtain ⟨arg0, rest, a, -, ha, hr, -, -⟩ := startup_proceed cwd args cfg hstart
  have habs := IsAbs_of_Abs cwd arg0 a hcwd ha
  rw [hr]
  exact ⟨by rw [IsAbs_Clean _ (IsAbs_ne_nil _ habs)]; exact habs, Clean_idem a⟩

/-- C4 (amended). After a start-up that does not exit, with a non-empty
`--outdir`, and for every file `p` that the walk finds below `rootDir`:
`outputDir` is the cleaned absolute form of `--outdir`; the output path of
`compressTIFF` is `Join(outdir, Base(rootDir), Rel(rootDir, p))`, built from
`--outdir` as given; the file it names is
`Join(outputDir, Base(rootDir), Rel(rootDir, p))`; the output path is this
very path when `--outdir` is absolute, and a relative path when `--outdir`
is relative. -/
theorem mirror_path_formula (cwd : Option Str) (args : Args) (cfg : Config) (names : List Str)
    (hcwd : ∀ wd, cwd = some wd → IsAbs wd = true)
    (hstart : startup cwd args = Startup.proceed cfg) (hout : args.outdir ≠ [])
    (hn : ∀ n ∈ names, validName n) :
    (∃ b, Abs cwd args.outdir = some b ∧ cfg.outputDir = Clean b) ∧
    Rel cfg.rootDir (walkPath cfg.rootDir names) = some (relName names) ∧
    mirrorPath cfg (walkPath cfg.rootDir names) =
      some (Join [args.outdir, Base cfg.rootDir, relName names]) ∧
    mirrorFile cwd cfg (walkPath cfg.rootDir names) =
      some (Join [cfg.outputDir, Base cfg.rootDir, relName names]) ∧
    (IsAbs args.outdir = true →
      Join [args.outdir, Base cfg.rootDir, relName names] =
        Join [cfg.outputDir, Base cfg.rootDir, relName names]) ∧
    (IsAbs args.outdir = false →
      IsAbs (Join [args.outdir, Base cfg.rootDir, relName names]) = false) := by
  obtain ⟨hra, hrc⟩ := startup_rootDir cwd args cfg hcwd hstart
  obtain ⟨arg0, rest, a, -, -, -, -, h2⟩ := startup_proceed cwd args cfg hstart
  obtain ⟨hroot, b, hb, hod, -⟩ := h2 hout
  obtain ⟨stk, -, -, -, hrel, -, -⟩ := walkPath_of_clean_abs cfg.rootDir names hra hrc hn
  have hmp : mirrorPath cfg (walkPath cfg.rootDir names) =
      some (Join [args.outdir, Base cfg.rootDir, relName names]) := by
    unfold mirrorPath
    rw [hrel, hroot]
    simp only [Option.map_some']
    rw [Join_pair _ _ hout, Join_pair _ _ (Clean_ne_nil _), Join_triple _ _ _ hout,
      Clean_Clean_append_sep _ _ (by simp [hout])]
    simp
  have hodne : cfg.outputDir ≠ [] := by rw [hod]; exact Clean_ne_nil b
  have hX : IsAbs (Join [args.outdir, Base cfg.rootDir, relName names]) = IsAbs args.outdir := by
    rw [Join_triple _ _ _ hout, IsAbs_Clean _ (by simp [hout]), IsAbs_append _ _ hout]
  have habsCase : IsAbs args.outdir = true →
      Join [args.outdir, Base cfg.rootDir, relName names] =
        Join [cfg.outputDir, Base cfg.rootDir, relName names] := by
    intro habs
    have hbv : b = Clean args.outdir := by
      simp [Abs, habs] at hb; exact hb.symm
    rw [Join_triple _ _ _ hout, Join_triple _ _ _ hodne, hod, hbv, Clean_idem,
      Clean_Clean_append_sep _ _ hout]
  have hfile : resolvePath cwd (Join [args.outdir, Base cfg.rootDir, relName names]) =
      Join [cfg.outputDir, Base cfg.rootDir, relName names] := by
    unfold resolvePath Abs
    rw [hX]
    by_cases habs : IsAbs args.outdir = true
    · simp only [habs, if_true, Option.getD_some]
      rw [← habsCase habs, Join_triple _ _ _ hout, Clean_idem]
    · have hrelo : IsAbs args.outdir = false := by simpa using habs
      simp only [hrelo, Bool.false_eq_true, if_false]
      cases hc : cwd with
      | none => simp [Abs, hrelo, hc] at hb
      | some wd =>
        have hwd := IsAbs_ne_nil wd (hcwd wd hc)
        have hbv : b = Join [wd, args.outdir] := by
          simp [Abs, hrelo, hc] at hb; exact hb.symm
        have hY : IsAbs (args.outdir ++ '/' :: (Base cfg.rootDir ++ '/' :: relName names)) =
            false := by
          rw [IsAbs_append _ _ hout]; exact hrelo
        simp only [Option.getD_some]
        rw [Join_pair _ _ hwd, Join_triple _ _ _ hout,
          Clean_append_Clean _ _ hwd (by simp [hout]) hY,
          Join_triple _ _ _ hodne, hod, hbv, Join_pair _ _ hwd, Clean_idem,
          Clean_Clean_append_sep _ _ (by simp [hwd])]
        simp
  refine ⟨⟨b, hb, hod⟩, hrel, hmp, ?_, habsCase, ?_⟩
  · unfold mirrorFile
    rw [hmp]
    simp only [Option.map_some']
    rw [hfile]
  · intro hrelo
    rw [hX]; exact hrelo

/-- C4 (amended), at a concrete input: `tiffcompressor --outdir=/out /root`
and the file `/root/a/b/x.tif`. -/
theorem mirror_path_formula_witness :
    walkPath mirrorCfg.rootDir ["a".toList, "b".toList, "x.tif".toList] =
      "/root/a/b/x.tif".toList ∧
    mirrorPath mirrorCfg "/root/a/b/x.tif".toList = some "/out/root/a/b/x.tif".toList ∧
    mirrorFile (some "/home/u".toList) mirrorCfg "/root/a/b/x.tif".toList =
      some "/out/root/a/b/x.tif".toList ∧
    Join [mirrorCfg.outputDir, Base mirrorCfg.rootDir, "a/b/x.tif".toList] =
      "/out/root/a/b/x.tif".toList := by
  have h := mirror_path_formula (some "/home/u".toList) mirrorArgs mirrorCfg
    ["a".toList, "b".toList, "x.tif".toList] (by simp; decide) (by decide) (by decide)
    (by decide)
  have hw : walkPath mirrorCfg.rootDir ["a".toList, "b".toList, "x.tif".toList] =
      "/root/a/b/x.tif".toList := by decide
  have h3 := h.2.2.1
  have h4 := h.2.2.2.1
  rw [hw] at h3 h4
  exact ⟨hw, by rw [h3]; decide, by rw [h4]; decide, by decide⟩

/-- C4 as stated fails for a relative `--outdir`: for
`tiffcompressor --outdir=out /data` run in `/home/u`, the output path of
`/data/a/b/x.tif` is the relative path `out/data/a/b/x.tif`, not
`/home/u/out/data/a/b/x.tif`, the path formed from `outputDir` (which is the
file that the output path names). -/
theorem mirror_path_relative_outdir :
    startup (some "/home/u".toList) relativeArgs = Startup.proceed relativeCfg ∧
    Rel relativeCfg.rootDir "/data/a/b/x.tif".toList = some "a/b/x.tif".toList ∧
    mirrorPath relativeCfg "/data/a/b/x.tif".toList = some "out/data/a/b/x.tif".toList ∧
    Join [relativeCfg.outputDir, Base relativeCfg.rootDir, "a/b/x.tif".toList] =
      "/home/u/out/data/a/b/x.tif".toList ∧
    mirrorPath relativeCfg "/data/a/b/x.tif".toList ≠
      some (Join [relativeCfg.outputDir, Base relativeCfg.rootDir, "a/b/x.tif".toList]) := by
  decide

/-! ## Start-up validation -/

/-- C1 fails on the code for `tiffcompressor --outdir=/data/..cache /data`:
the output directory lies under the input directory (the relative path from
the one to the other is `..cache`), and the start-up does not exit: `main`
goes on with the output root `/data/..cache/data`. -/
theorem startup_accepts_dotdot_child :
    Rel "/data".toList "/data/..cache".toList = some "..cache".toList ∧
    startup (some "/home".toList) dotdotArgs =
      Startup.proceed
        { rootDir := "/data".toList, outputDir := "/data/..cache".toList,
          outputRoot := "/data/..cache/data".toList } := by
  decide

/-- C2 fails on the code for `tiffcompressor --outdir=/a /a/b`: the start-up
does not exit and the output root is the input directory itself, so the
output path of `/a/b/x.tif` is `/a/b/x.tif`; when the encoder fails, the call
returns the encode error and the input file is gone. It fails as well for
`tiffcompressor --outdir=/a /a/b/b`: the output root `/a/b` is the parent of
the input directory, and the output path of `/a/b/b/b/y.tif` is
`/a/b/b/y.tif`, the path of another file below the input directory. -/
theorem startup_accepts_parent_outdir :
    startup (some "/home".toList) parentArgs = Startup.proceed parentCfg ∧
    parentCfg.outputRoot = parentCfg.rootDir ∧
    mirrorPath parentCfg "/a/b/x.tif".toList = some "/a/b/x.tif".toList ∧
    (compressTIFF demoCodec (some "/home".toList) parentCfg encodeFault "/a/b/x.tif".toList
      parentWorld).1 = some Err.encode ∧
    (compressTIFF demoCodec (some "/home".toList) parentCfg encodeFault "/a/b/x.tif".toList
      parentWorld).2.fs "/a/b/x.tif".toList = none ∧
    startup (some "/home".toList) deepArgs = Startup.proceed deepCfg ∧
    walkPath deepCfg.rootDir ["b".toList, "y.tif".toList] = "/a/b/b/b/y.tif".toList ∧
    walkPath deepCfg.rootDir ["y.tif".toList] = "/a/b/b/y.tif".toList ∧
    mirrorPath deepCfg "/a/b/b/b/y.tif".toList = some "/a/b/b/y.tif".toList := by
  decide

theorem HasPrefix_joinSep (n : Str) (rest : List Str) (hn : validName n) :
    HasPrefix (joinSep (n :: rest)) ['.', '.'] = HasPrefix n ['.', '.'] := by
  obtain ⟨h1, h2, -, h4⟩ := hn
  cases rest with
  | nil => simp [joinSep]
  | cons v vs =>
    rcases n with _ | ⟨c, _ | ⟨d, tl⟩⟩
    · exact absurd rfl h1
    · have hc : c ≠ '.' := fun h => h2 (by rw [h])
      simp [joinSep, HasPrefix, List.isPrefixOf, hc]
    · simp [joinSep, HasPrefix, List.isPrefixOf]

/-- The validation at work: when the cleaned absolute output directory is
the input directory itself, or a path that the walk would build below it
whose first element does not begin with two dots, the start-up exits with
code 1. -/
theorem startup_rejects_nested (cwd : Option Str) (args : Args) (arg0 : Str)
    (rest names : List Str) (a b : Str)
    (hpos : args.positional = arg0 :: rest) (ha : Abs cwd arg0 = some a)
    (habs : IsAbs a = true) (hout : args.outdir ≠ []) (hb : Abs cwd args.outdir = some b)
    (hn : ∀ n ∈ names, validName n) (hunder : Clean b = walkPath (Clean a) names)
    (hfirst : ∀ n ∈ names.head?, HasPrefix n ['.', '.'] = false) :
    startup cwd args = Startup.exit 1 := by
  have hra : IsAbs (Clean a) = true := by rw [IsAbs_Clean _ (IsAbs_ne_nil _ habs)]; exact habs
  obtain ⟨stk, -, -, -, hrel, -, -⟩ :=
    walkPath_of_clean_abs (Clean a) names hra (Clean_idem a) hn
  have hpre : HasPrefix (relName names) ['.', '.'] = false := by
    unfold relName
    cases names with
    | nil => decide
    | cons n more =>
      simp only [reduceCtorEq, if_false]
      rw [HasPrefix_joinSep n more (hn n (by simp))]
      exact hfirst n (by simp)
  rw [← hunder] at hrel
  unfold startup
  simp only [hpos, ha, hb, hout, ne_eq, not_false_eq_true, if_true, hrel,
    Option.getD_some, hpre, Bool.not_false]

/-- The slip in the validation: when the cleaned absolute output directory is
a path below the input directory whose first element begins with two dots,
the start-up does not exit. -/
theorem startup_accepts_dotdot_names (cwd : Option Str) (args : Args) (arg0 n : Str)
    (rest more : List Str) (a b : Str)
    (hpos : args.positional = arg0 :: rest) (ha : Abs cwd arg0 = some a)
    (habs : IsAbs a = true) (hout : args.outdir ≠ []) (hb : Abs cwd args.outdir = some b)
    (hn : ∀ m ∈ n :: more, validName m) (hunder : Clean b = walkPath (Clean a) (n :: more))
    (hfirst : HasPrefix n ['.', '.'] = true) :
    startup cwd args =
      Startup.proceed
        { rootDir := Clean a, outputDir := Clean b,
          outputRoot := Join [args.outdir, Base (Clean a)] } := by
  have hra : IsAbs (Clean a) = true := by rw [IsAbs_Clean _ (IsAbs_ne_nil _ habs)]; exact habs
  obtain ⟨stk, -, -, -, hrel, -, -⟩ :=
    walkPath_of_clean_abs (Clean a) (n :: more) hra (Clean_idem a) hn
  have hpre : HasPrefix (relName (n :: more)) ['.', '.'] = true := by
    unfold relName
    simp only [reduceCtorEq, if_false]
    rw [HasPrefix_joinSep n more (hn n (by simp))]
    exact hfirst
  rw [← hunder] at hrel
  unfold startup
  simp only [hpos, ha, hb, hout, ne_eq, not_false_eq_true, if_true, hrel,
    Option.getD_some, hpre, Bool.not_true, Bool.false_eq_true, if_false]

/-! ## The counters -/

theorem wrapInt64_add (a d : Int) : wrapInt64 (wrapInt64 a + d) = wrapInt64 (a + d) := by
  unfold wrapInt64
  omega

theorem wrapInt64_of_range (a : Int) (h0 : 0 ≤ a) (h1 : a < 2 ^ 63) : wrapInt64 a = a := by
  unfold wrapInt64
  omega

theorem compressTIFF_no_abs {Img : Type} (codec : Codec Img) (cwd : Option Str) (cfg : Config)
    (f : Faults) (p : Str) (w : World) (h : Abs cwd p = none) :
    compressTIFF codec cwd cfg f p w = (some Err.absPath, w) := by
  unfold compressTIFF
  simp [h]

/-- The result of a call does not depend on the world it is made from, as
long as the input file is the same. -/
theorem compressTIFF_result_eq {Img : Type} (codec : Codec Img) (cwd : Option Str)
    (cfg : Config) (f : Faults) (p : Str) (w w0 : World)
    (h : ∀ pa, Abs cwd p = some pa → w.fs pa = w0.fs pa) :
    (compressTIFF codec cwd cfg f p w).1 = (compressTIFF codec cwd cfg f p w0).1 := by
  cases ha : Abs cwd p with
  | none => rw [compressTIFF_no_abs _ _ _ _ _ _ ha, compressTIFF_no_abs _ _ _ _ _ _ ha]
  | some pa => exact compressTIFF_local codec cwd cfg f p pa w w0 ha (h pa ha)

theorem workerCall_fst {Img : Type} (codec : Codec Img) (cwd : Option Str) (cfg : Config)
    (f : Faults) (p : Str) (w : World) :
    (workerCall codec cwd cfg f p w).1 = (compressTIFF codec cwd cfg f p w).1 := by
  unfold workerCall
  split <;> rename_i h <;> simp [h]

theorem workerCall_fs {Img : Type} (codec : Codec Img) (cwd : Option Str) (cfg : Config)
    (f : Faults) (p : Str) (w : World) :
    (workerCall codec cwd cfg f p w).2.fs = (compressTIFF codec cwd cfg f p w).2.fs := by
  unfold workerCall
  split <;> rename_i h <;> simp [h]

theorem workerCall_counters {Img : Type} (codec : Codec Img) (cwd : Option Str) (cfg : Config)
    (f : Faults) (p : Str) (w : World) :
    (workerCall codec cwd cfg f p w).2.totalOriginalBytes =
      (compressTIFF codec cwd cfg f p w).2.totalOriginalBytes ∧
    (workerCall codec cwd cfg f p w).2.totalCompressedBytes =
      (compressTIFF codec cwd cfg f p w).2.totalCompressedBytes := by
  unfold workerCall
  split <;> rename_i h <;> simp [h]

/-- A run over independent files, from a world whose input files are those
of `w0`: each call returns what it returns alone from `w0`, the counters grow
by the sizes of the files that succeed, and files outside all write sets stay
as they are. -/
theorem processAll_spec {Img : Type} (codec : Codec Img) (cwd : Option Str) (cfg : Config)
    (faults : Str → Faults) (w0 : World) (l : List Str) (w : World) (a b : Int)
    (hnodup : l.Nodup) (hind : independent cwd cfg l)
    (hfs : ∀ p ∈ l, ∀ pa, Abs cwd p = some pa → w.fs pa = w0.fs pa)
    (ha : w.totalOriginalBytes = wrapInt64 a) (hb : w.totalCompressedBytes = wrapInt64 b) :
    (processAll codec cwd cfg faults l w).1 =
      l.map (fun p => (p, (compressTIFF codec cwd cfg (faults p) p w0).1)) ∧
    (processAll codec cwd cfg faults l w).2.totalOriginalBytes =
      wrapInt64 (a + ((l.filter (okAlone codec cwd cfg faults w0)).map
        (inputSize cwd w0.fs)).sum) ∧
    (processAll codec cwd cfg faults l w).2.totalCompressedBytes =
      wrapInt64 (b + ((l.filter (okAlone codec cwd cfg faults w0)).map
        (outAlone codec cwd cfg faults w0)).sum) ∧
    (∀ p ∈ l, okAlone codec cwd cfg faults w0 p = true →
      outputSize cwd cfg (processAll codec cwd cfg faults l w).2.fs p =
        outAlone codec cwd cfg faults w0 p) ∧
    (∀ x, (∀ p ∈ l, ∀ pa, Abs cwd p = some pa → x ∉ writeSet cwd cfg pa) →
      (processAll codec cwd cfg faults l w).2.fs x = w.fs x) := by
  induction l generalizing w a b with
  | nil => simp [processAll, ha, hb]
  | cons p rest ih =>
    have hp_notin : p ∉ rest := (List.nodup_cons.mp hnodup).1
    have hnd : rest.Nodup := (List.nodup_cons.mp hnodup).2
    have hind2 : independent cwd cfg rest := fun x hx y hy hxy =>
      hind x (by simp [hx]) y (by simp [hy]) hxy
    have hres := compressTIFF_result_eq codec cwd cfg (faults p) p w w0
      (fun pa hpa => hfs p (by simp) pa hpa)
    have hwf := workerCall_fst codec cwd cfg (faults p) p w
    have hws := workerCall_fs codec cwd cfg (faults p) p w
    obtain ⟨hwc1, hwc2⟩ := workerCall_counters codec cwd cfg (faults p) p w
    -- the world after the call on `p`
    have hfs2 : ∀ q ∈ rest, ∀ qa, Abs cwd q = some qa →
        (workerCall codec cwd cfg (faults p) p w).2.fs qa = w0.fs qa := by
      intro q hq qa hqa
      have hqp : q ≠ p := fun h => hp_notin (h ▸ hq)
      rw [hws]
      cases hpa : Abs cwd p with
      | none =>
        rw [compressTIFF_no_abs _ _ _ _ _ _ hpa]
        exact hfs q (by simp [hq]) qa hqa
      | some pa =>
        rw [compressTIFF_frame codec cwd cfg (faults p) p pa w hpa qa
          (hind q (by simp [hq]) p (by simp) hqp qa pa hqa hpa).1]
        exact hfs q (by simp [hq]) qa hqa
    by_cases hok : okAlone codec cwd cfg faults w0 p = true
    · -- the call on `p` succeeds
      have hok0 : (compressTIFF codec cwd cfg (faults p) p w0).1 = none := by
        simpa [okAlone] using hok
      have hokw : (compressTIFF codec cwd cfg (faults p) p w).1 = none := by rw [hres, hok0]
      obtain ⟨pa, content, img, out, h1, h2, h3, h4, h5, h6, h7⟩ :=
        compressTIFF_ok codec cwd cfg (faults p) p w hokw
      obtain ⟨pa0, content0, img0, out0, g1, g2, g3, g4, g5, -, -⟩ :=
        compressTIFF_ok codec cwd cfg (faults p) p w0 hok0
      rw [h1] at g1; cases g1
      rw [← hfs p (by simp) pa h1, h2] at g2; cases g2
      rw [h3] at g3; cases g3
      rw [h4] at g4; cases g4
      have hin : inputSize cwd w0.fs p = content.length := by
        simp [inputSize, fileSize, h1, ← hfs p (by simp) pa h1, h2]
      have hout0 : outAlone codec cwd cfg faults w0 p = (codec.encode img).length := by
        simp [outAlone, outputSize, fileSize, h1, h4, g5]
      obtain ⟨i1, i2, i3, i4, i5⟩ := ih (workerCall codec cwd cfg (faults p) p w).2
        (a + content.length) (b + (codec.encode img).length) hnd hind2 hfs2
        (by rw [hwc1, h6, ha]; exact wrapInt64_add _ _)
        (by rw [hwc2, h7, hb]; exact wrapInt64_add _ _)
      have hframe_out : (processAll codec cwd cfg faults rest
          (workerCall codec cwd cfg (faults p) p w).2).2.fs out = some (codec.encode img) := by
        rw [i5 out, hws, h5]
        intro q hq qa hqa
        have hqp : q ≠ p := fun h => hp_notin (h ▸ hq)
        exact (hind p (by simp) q (by simp [hq]) (Ne.symm hqp) pa qa h1 hqa).2 out h4
      refine ⟨?_, ?_, ?_, ?_, ?_⟩
      · simp [processAll, i1, hwf, hres]
      · simp only [processAll, List.filter_cons, hok, if_true, List.map_cons, List.sum_cons]
        rw [i2, hin]; congr 1; ring
      · simp only [processAll, List.filter_cons, hok, if_true, List.map_cons, List.sum_cons]
        rw [i3, hout0]; congr 1; ring
      · intro q hq hqok
        simp only [List.mem_cons] at hq
        rcases hq with rfl | hq
        · rw [hout0]
          simp [processAll, outputSize, fileSize, h1, h4, hframe_out]
        · simpa [processAll] using i4 q hq hqok
      · intro x hx
        simp only [processAll]
        rw [i5 x (fun q hq qa hqa => hx q (by simp [hq]) qa hqa), hws]
        exact compressTIFF_frame codec cwd cfg (faults p) p pa w h1 x (hx p (by simp) pa h1)
    · -- the call on `p` fails
      have hok0 : (compressTIFF codec cwd cfg (faults p) p w0).1 ≠ none := by
        intro h; exact hok (by simp [okAlone, h])
      have hokw : (compressTIFF codec cwd cfg (faults p) p w).1 ≠ none := by rw [hres]; exact hok0
      obtain ⟨e1, e2⟩ := compressTIFF_err codec cwd cfg (faults p) p w hokw
      obtain ⟨i1, i2, i3, i4, i5⟩ := ih (workerCall codec cwd cfg (faults p) p w).2
        a b hnd hind2 hfs2 (by rw [hwc1, e1, ha]) (by rw [hwc2, e2, hb])
      have hokf : okAlone codec cwd cfg faults w0 p = false := by simpa using hok
      refine ⟨?_, ?_, ?_, ?_, ?_⟩
      · simp [processAll, i1, hwf, hres]
      · simp only [processAll, List.filter_cons, hokf, Bool.false_eq_true, if_false]
        exact i2
      · simp only [processAll, List.filter_cons, hokf, Bool.false_eq_true, if_false]
        exact i3
      · intro q hq hqok
        simp only [List.mem_cons] at hq
        rcases hq with rfl | hq
        · exact absurd hqok hok
        · simpa [processAll] using i4 q hq hqok
      · intro x hx
        simp only [processAll]
        rw [i5 x (fun q hq qa hqa => hx q (by simp [hq]) qa hqa), hws]
        cases hpa : Abs cwd p with
        | none => rw [compressTIFF_no_abs _ _ _ _ _ _ hpa]
        | some pa =>
          exact compressTIFF_frame codec cwd cfg (faults p) p pa w hpa x (hx p (by simp) pa hpa)

theorem fileSize_nonneg (fs : FS) (path : Option Str) : 0 ≤ fileSize fs path := by
  unfold fileSize
  split
  · exact Int.natCast_nonneg _
  · exact le_refl 0

theorem sum_map_nonneg (l : List Str) (g : Str → Int) (h : ∀ p, 0 ≤ g p) :
    0 ≤ (l.map g).sum := by
  induction l with
  | nil => simp
  | cons p rest ih =>
    have := h p
    simp only [List.map_cons, List.sum_cons]
    omega

theorem succeeded_map (l : List Str) (g : Str → Option Err) :
    succeeded (l.map (fun p => (p, g p))) = l.filter (fun p => (g p).isNone) := by
  induction l with
  | nil => simp [succeeded]
  | cons p rest ih =>
    unfold succeeded at ih ⊢
    by_cases h : (g p).isNone = true
    · simp [List.filter_cons, h, ih]
    · simp [List.filter_cons, h, ih]

/-- In in-place mode, the files that the walk finds below a cleaned absolute
`rootDir` and that satisfy `isTIFF` are independent. -/
theorem independent_inplace (cwd : Option Str) (cfg : Config) (files : List Str)
    (hmode : cfg.outputDir = []) (habs : IsAbs cfg.rootDir = true)
    (hclean : Clean cfg.rootDir = cfg.rootDir)
    (hwalk : ∀ p ∈ files, ∃ names, (∀ n ∈ names, validName n) ∧ p = walkPath cfg.rootDir names)
    (htiff : ∀ p ∈ files, isTIFF p = true) : independent cwd cfg files := by
  intro p hp q hq hpq pa qa hpa hqa
  obtain ⟨ns1, hv1, rfl⟩ := hwalk p hp
  obtain ⟨ns2, hv2, rfl⟩ := hwalk q hq
  rw [Abs_walkPath cwd cfg.rootDir ns1 habs hclean hv1] at hpa
  rw [Abs_walkPath cwd cfg.rootDir ns2 habs hclean hv2] at hqa
  cases hpa
  cases hqa
  have hd := writeSet_disjoint cwd cfg ns1 ns2 habs hclean hv1 hv2 hpq (htiff _ hq) (htiff _ hp)
  have hmem : walkPath cfg.rootDir ns1 ∈ writeSet cwd cfg (walkPath cfg.rootDir ns1) := by
    simp [writeSet, hmode]
  refine ⟨hd _ hmem, ?_⟩
  intro o ho
  simp only [outputFileOf, hmode, if_true, Option.some.injEq] at ho
  subst ho
  exact hd _ hmem

/-- C5 (amended). Starting from zero counters, after `compressTIFF` has been
applied once to each file of a list without repetition whose files are
independent (none is in the write set of another, nor is the output path of
one), in the order of the list: `totalOriginalBytes` is the sum, as an
`int64`, of the sizes that the files for which `compressTIFF` returned `nil`
had before the run, and `totalCompressedBytes` the sum of the sizes of their
output files after the run; both are the exact sums when these are below
2^63; any other order of the same files gives the same two totals and the
same successes; and a call that returns an error changes neither counter. -/
theorem stats_correct {Img : Type} (codec : Codec Img) (cwd : Option Str) (cfg : Config)
    (faults : Str → Faults) (files : List Str) (w0 : World)
    (hz1 : w0.totalOriginalBytes = 0) (hz2 : w0.totalCompressedBytes = 0)
    (hnodup : files.Nodup) (hind : independent cwd cfg files) :
    (processAll codec cwd cfg faults files w0).2.totalOriginalBytes =
      wrapInt64 ((succeeded (processAll codec cwd cfg faults files w0).1).map
        (inputSize cwd w0.fs)).sum ∧
    (processAll codec cwd cfg faults files w0).2.totalCompressedBytes =
      wrapInt64 ((succeeded (processAll codec cwd cfg faults files w0).1).map
        (outputSize cwd cfg (processAll codec cwd cfg faults files w0).2.fs)).sum ∧
    (((succeeded (processAll codec cwd cfg faults files w0).1).map
        (inputSize cwd w0.fs)).sum < 2 ^ 63 →
      (processAll codec cwd cfg faults files w0).2.totalOriginalBytes =
        ((succeeded (processAll codec cwd cfg faults files w0).1).map
          (inputSize cwd w0.fs)).sum) ∧
    (((succeeded (processAll codec cwd cfg faults files w0).1).map
        (outputSize cwd cfg (processAll codec cwd cfg faults files w0).2.fs)).sum < 2 ^ 63 →
      (processAll codec cwd cfg faults files w0).2.totalCompressedBytes =
        ((succeeded (processAll codec cwd cfg faults files w0).1).map
          (outputSize cwd cfg (processAll codec cwd cfg faults files w0).2.fs)).sum) ∧
    (∀ files2 : List Str, files2.Perm files →
      (processAll codec cwd cfg faults files2 w0).2.totalOriginalBytes =
        (processAll codec cwd cfg faults files w0).2.totalOriginalBytes ∧
      (processAll codec cwd cfg faults files2 w0).2.totalCompressedBytes =
        (processAll codec cwd cfg faults files w0).2.totalCompressedBytes ∧
      ∀ p, p ∈ succeeded (processAll codec cwd cfg faults files2 w0).1 ↔
        p ∈ succeeded (processAll codec cwd cfg faults files w0).1) ∧
    (∀ (f : Faults) (p : Str) (w : World), (compressTIFF codec cwd cfg f p w).1 ≠ none →
      (compressTIFF codec cwd cfg f p w).2.totalOriginalBytes = w.totalOriginalBytes ∧
      (compressTIFF codec cwd cfg f p w).2.totalCompressedBytes = w.totalCompressedBytes) := by
  have hw0 : (0 : Int) = wrapInt64 0 := by decide
  obtain ⟨s1, s2, s3, s4, -⟩ := processAll_spec codec cwd cfg faults w0 files w0 0 0 hnodup hind
    (fun _ _ _ _ => rfl) (by rw [hz1]; exact hw0) (by rw [hz2]; exact hw0)
  have hsucc : succeeded (processAll codec cwd cfg faults files w0).1 =
      files.filter (okAlone codec cwd cfg faults w0) := by
    rw [s1, succeeded_map]; rfl
  have hout : ((succeeded (processAll codec cwd cfg faults files w0).1).map
      (outputSize cwd cfg (processAll codec cwd cfg faults files w0).2.fs)) =
      (files.filter (okAlone codec cwd cfg faults w0)).map (outAlone codec cwd cfg faults w0) := by
    rw [hsucc]
    apply List.map_congr_left
    intro p hp
    rw [List.mem_filter] at hp
    exact s4 p hp.1 hp.2
  have e1 : (processAll codec cwd cfg faults files w0).2.totalOriginalBytes =
      wrapInt64 ((succeeded (processAll codec cwd cfg faults files w0).1).map
        (inputSize cwd w0.fs)).sum := by
    rw [s2, hsucc, zero_add]
  have e2 : (processAll codec cwd cfg faults files w0).2.totalCompressedBytes =
      wrapInt64 ((succeeded (processAll codec cwd cfg faults files w0).1).map
        (outputSize cwd cfg (processAll codec cwd cfg faults files w0).2.fs)).sum := by
    rw [s3, hout, zero_add]
  refine ⟨e1, e2, ?_, ?_, ?_, ?_⟩
  · intro h
    rw [e1]
    exact wrapInt64_of_range _ (sum_map_nonneg _ _ (fun p => fileSize_nonneg _ _)) h
  · intro h
    rw [e2]
    exact wrapInt64_of_range _ (sum_map_nonneg _ _ (fun p => fileSize_nonneg _ _)) h
  · intro files2 hperm
    have hnodup2 : files2.Nodup := hperm.nodup_iff.mpr hnodup
    have hind2 : independent cwd cfg files2 := fun p hp q hq hpq =>
      hind p (hperm.mem_iff.mp hp) q (hperm.mem_iff.mp hq) hpq
    obtain ⟨t1, t2, t3, -, -⟩ := processAll_spec codec cwd cfg faults w0 files2 w0 0 0 hnodup2
      hind2 (fun _ _ _ _ => rfl) (by rw [hz1]; exact hw0) (by rw [hz2]; exact hw0)
    have hpf : (files2.filter (okAlone codec cwd cfg faults w0)).Perm
        (files.filter (okAlone codec cwd cfg faults w0)) := hperm.filter _
    refine ⟨?_, ?_, ?_⟩
    · rw [t2, s2, (hpf.map _).sum_eq]
    · rw [t3, s3, (hpf.map _).sum_eq]
    · intro p
      rw [hsucc, t1, succeeded_map]
      exact hpf.mem_iff
  · intro f p w herr
    exact compressTIFF_err codec cwd cfg f p w herr

/-- C5 (amended), at a concrete input: in-place mode, three files below `/d`
of which the third does not decode; the totals are 7 and 4. -/
theorem stats_correct_witness :
    statsFiles.Nodup ∧
    (processAll shrinkCodec none demoInPlace (fun _ => Faults.none) statsFiles
      statsWorld).2.totalOriginalBytes = 7 ∧
    (processAll shrinkCodec none demoInPlace (fun _ => Faults.none) statsFiles
      statsWorld).2.totalCompressedBytes = 4 := by
  have hind : independent none demoInPlace statsFiles := by
    apply independent_inplace none demoInPlace statsFiles rfl (by decide) (by decide)
    · intro p hp
      simp only [statsFiles, List.mem_cons, List.mem_singleton, List.not_mem_nil, or_false] at hp
      rcases hp with rfl | rfl | rfl
      · exact ⟨["a.tif".toList], by decide, by decide⟩
      · exact ⟨["b.tif".toList], by decide, by decide⟩
      · exact ⟨["c.tif".toList], by decide, by decide⟩
    · decide
  have h := stats_correct shrinkCodec none demoInPlace (fun _ => Faults.none) statsFiles
    statsWorld rfl rfl (by decide) hind
  refine ⟨by decide, ?_, ?_⟩
  · rw [h.2.2.1 (by decide)]; decide
  · rw [h.2.2.2.1 (by decide)]; decide

/-- C5 as stated fails for a list in which one file is in the write set of
another. In in-place mode, `/d/a.tif` and `/d/a.tif.tmp` processed in this
order give an original total of 4 (the call on `/d/a.tif` replaces and then
renames away `/d/a.tif.tmp`, on which `compressTIFF` then fails), and in the
other order an original total of 7. In mirror mode after
`tiffcompressor --outdir=/data/..cache /data`, which the start-up accepts,
the walk finds `/data/x.tif` and its earlier output
`/data/..cache/data/x.tif`; the original total is 8 in one order and 6 in the
other. -/
theorem stats_depend_on_order :
    (processAll demoCodec none demoInPlace (fun _ => Faults.none)
      ["/d/a.tif".toList, "/d/a.tif.tmp".toList] demoWorld).2.totalOriginalBytes = 4 ∧
    (processAll demoCodec none demoInPlace (fun _ => Faults.none)
      ["/d/a.tif.tmp".toList, "/d/a.tif".toList] demoWorld).2.totalOriginalBytes = 7 ∧
    startup (some "/home".toList) dotdotArgs = Startup.proceed dotdotCfg ∧
    isTIFF "/data/x.tif".toList = true ∧ isTIFF "/data/..cache/data/x.tif".toList = true ∧
    (processAll demoCodec (some "/home".toList) dotdotCfg (fun _ => Faults.none)
      ["/data/x.tif".toList, "/data/..cache/data/x.tif".toList]
      dotdotWorld).2.totalOriginalBytes = 8 ∧
    (processAll demoCodec (some "/home".toList) dotdotCfg (fun _ => Faults.none)
      ["/data/..cache/data/x.tif".toList, "/data/x.tif".toList]
      dotdotWorld).2.totalOriginalBytes = 6 := by
  decide

/-! ## The worker pool -/

theorem processAll_append {Img : Type} (codec : Codec Img) (cwd : Option Str) (cfg : Config)
    (faults : Str → Faults) (l1 l2 : List Str) (w : World) :
    processAll codec cwd cfg faults (l1 ++ l2) w =
      ((processAll codec cwd cfg faults l1 w).1 ++
          (processAll codec cwd cfg faults l2 (processAll codec cwd cfg faults l1 w).2).1,
        (processAll codec cwd cfg faults l2 (processAll codec cwd cfg faults l1 w).2).2) := by
  induction l1 generalizing w with
  | nil => simp [processAll]
  | cons p rest ih => simp [processAll, ih]

/-- What every state of the pool satisfies: the calls made so far are the
calls of the loop body on the paths taken from the channel, in that order,
from the world at the start; these paths followed by those still in the
channel are the paths found; the bar has advanced once per call. -/
theorem runPool_invariant {Img : Type} (codec : Codec Img) (cwd : Option Str) (cfg : Config)
    (faults : Str → Faults) (numThreads : Int) (sched : List Nat)
    (tiffFiles : List Str) (w0 : World) (s : Pool)
    (h1 : processAll codec cwd cfg faults (s.calls.map (fun c => c.2.1)) w0 =
      (s.calls.map (fun c => c.2), s.world))
    (h2 : s.calls.map (fun c => c.2.1) ++ s.jobs = tiffFiles)
    (h3 : s.bar = s.calls.length) :
    processAll codec cwd cfg faults
        ((runPool codec cwd cfg faults numThreads sched s).calls.map (fun c => c.2.1)) w0 =
      ((runPool codec cwd cfg faults numThreads sched s).calls.map (fun c => c.2),
        (runPool codec cwd cfg faults numThreads sched s).world) ∧
    (runPool codec cwd cfg faults numThreads sched s).calls.map (fun c => c.2.1) ++
        (runPool codec cwd cfg faults numThreads sched s).jobs = tiffFiles ∧
    (runPool codec cwd cfg faults numThreads sched s).bar =
      (runPool codec cwd cfg faults numThreads sched s).calls.length := by
  induction sched generalizing s with
  | nil => exact ⟨h1, h2, h3⟩
  | cons i rest ih =>
    unfold runPool
    rw [List.foldl_cons]
    by_cases hi : (i : Int) < numThreads
    · simp only [hi, if_true]
      cases hj : s.jobs with
      | nil =>
        have : workerIter codec cwd cfg faults i s = s := by simp [workerIter, hj]
        rw [this]
        exact ih s h1 h2 h3
      | cons path more =>
        apply ih
        · simp only [workerIter, hj, List.map_append, List.map_cons, List.map_nil]
          rw [processAll_append, h1]
          simp [processAll]
        · simp only [workerIter, hj, List.map_append, List.map_cons, List.map_nil]
          rw [hj] at h2
          simpa using h2
        · simp [workerIter, hj, h3]
    · simp only [hi, if_false]
      exact ih s h1 h2 h3

/-- The paths left in the channel after a schedule whose entries are all
started workers. -/
theorem runPool_jobs {Img : Type} (codec : Codec Img) (cwd : Option Str) (cfg : Config)
    (faults : Str → Faults) (numThreads : Int) (sched : List Nat) (s : Pool)
    (hvalid : ∀ i ∈ sched, (i : Int) < numThreads) :
    (runPool codec cwd cfg faults numThreads sched s).jobs = s.jobs.drop sched.length := by
  induction sched generalizing s with
  | nil => simp [runPool]
  | cons i rest ih =>
    have hi := hvalid i (by simp)
    unfold runPool
    rw [List.foldl_cons]
    simp only [hi, if_true]
    have := ih (workerIter codec cwd cfg faults i s) (fun j hj => hvalid j (by simp [hj]))
    unfold runPool at this
    rw [this]
    cases hj : s.jobs with
    | nil => simp [workerIter, hj]
    | cons path more => simp [workerIter, hj]

/-- With no worker started, no schedule changes the pool. -/
theorem runPool_no_worker {Img : Type} (codec : Codec Img) (cwd : Option Str) (cfg : Config)
    (faults : Str → Faults) (numThreads : Int) (sched : List Nat) (s : Pool)
    (hN : numThreads ≤ 0) : runPool codec cwd cfg faults numThreads sched s = s := by
  induction sched generalizing s with
  | nil => rfl
  | cons i rest ih =>
    unfold runPool
    rw [List.foldl_cons]
    have hi : ¬ (i : Int) < numThreads := by omega
    simp only [hi, if_false]
    exact ih s

/-- C6 (amended). For every worker count of at least one, every list of paths
found, every world, every choice of failing steps and every schedule: once
`wg.Wait()` returns, each path has been handed to `compressTIFF` exactly once,
in the order of the list, and the progress bar has advanced once per path,
whatever the calls returned: the calls made and the world are those of the
loop body applied to each path of the list in turn; and `wg.Wait()` does
return after any schedule in which the started workers take at least as many
turns as there are paths. For every worker count of zero or less, under
every schedule: no worker is started, `wg.Wait()` returns at once, no call is
made, the progress bar stays at zero, every path is still in the channel and
the world is as it was. -/
theorem pool_drains {Img : Type} (codec : Codec Img) (cwd : Option Str) (cfg : Config)
    (faults : Str → Faults) (numThreads : Int) (tiffFiles : List Str) (w0 : World) :
    (1 ≤ numThreads →
      (∀ sched : List Nat,
        joined numThreads
          (runPool codec cwd cfg faults numThreads sched (Pool.start tiffFiles w0)) = true →
        (runPool codec cwd cfg faults numThreads sched (Pool.start tiffFiles w0)).calls.map
          (fun c => c.2.1) = tiffFiles ∧
        (runPool codec cwd cfg faults numThreads sched (Pool.start tiffFiles w0)).bar =
          tiffFiles.length ∧
        (runPool codec cwd cfg faults numThreads sched (Pool.start tiffFiles w0)).calls.map
          (fun c => c.2) = (processAll codec cwd cfg faults tiffFiles w0).1 ∧
        (runPool codec cwd cfg faults numThreads sched (Pool.start tiffFiles w0)).world =
          (processAll codec cwd cfg faults tiffFiles w0).2) ∧
      (∀ sched : List Nat, (∀ i ∈ sched, (i : Int) < numThreads) →
        tiffFiles.length ≤ sched.length →
        joined numThreads
          (runPool codec cwd cfg faults numThreads sched (Pool.start tiffFiles w0)) = true)) ∧
    (numThreads ≤ 0 →
      ∀ sched : List Nat,
        (∀ i : Nat, ¬ ((i : Int) < numThreads)) ∧
        joined numThreads (Pool.start tiffFiles w0) = true ∧
        joined numThreads
          (runPool codec cwd cfg faults numThreads sched (Pool.start tiffFiles w0)) = true ∧
        (runPool codec cwd cfg faults numThreads sched (Pool.start tiffFiles w0)).calls = [] ∧
        (runPool codec cwd cfg faults numThreads sched (Pool.start tiffFiles w0)).bar = 0 ∧
        (runPool codec cwd cfg faults numThreads sched (Pool.start tiffFiles w0)).jobs =
          tiffFiles ∧
        (runPool codec cwd cfg faults numThreads sched (Pool.start tiffFiles w0)).world = w0) := by
  refine ⟨fun hN => ⟨?_, ?_⟩, ?_⟩
  · intro sched hj
    obtain ⟨h1, h2, h3⟩ := runPool_invariant codec cwd cfg faults numThreads sched tiffFiles w0
      (Pool.start tiffFiles w0) (by simp [Pool.start, processAll]) (by simp [Pool.start])
      (by simp [Pool.start])
    have hempty :
        (runPool codec cwd cfg faults numThreads sched (Pool.start tiffFiles w0)).jobs = [] := by
      unfold joined at hj
      have hnot : ¬ numThreads ≤ 0 := by omega
      simpa [hnot] using hj
    rw [hempty, List.append_nil] at h2
    rw [h2] at h1
    refine ⟨h2, ?_, ?_, ?_⟩
    · have := congrArg List.length h2
      simp at this
      omega
    · rw [h1]
    · rw [h1]
  · intro sched hvalid hlen
    unfold joined
    rw [runPool_jobs codec cwd cfg faults numThreads sched _ hvalid]
    simp [Pool.start, List.drop_eq_nil_iff, hlen]
  · intro hN sched
    rw [runPool_no_worker codec cwd cfg faults numThreads sched _ hN]
    refine ⟨fun i hi => ?_, ?_, ?_, rfl, rfl, rfl, rfl⟩
    · have : (0 : Int) ≤ (i : Int) := Int.natCast_nonneg i
      omega
    · simp [joined, hN]
    · simp [joined, hN]

/-- C6 (amended), at a concrete input: two workers, the three files of
`statsFS`, of which the third does not decode, and the schedule 0, 1, 1. -/
theorem pool_drains_witness :
    (1 : Int) ≤ 2 ∧
    (runPool shrinkCodec none demoInPlace (fun _ => Faults.none) 2 [0, 1, 1]
      (Pool.start statsFiles statsWorld)).calls =
      [(0, "/d/a.tif".toList, none), (1, "/d/b.tif".toList, none),
        (1, "/d/c.tif".toList, some Err.decode)] ∧
    (runPool shrinkCodec none demoInPlace (fun _ => Faults.none) 2 [0, 1, 1]
      (Pool.start statsFiles statsWorld)).calls.map (fun c => c.2.1) = statsFiles ∧
    (runPool shrinkCodec none demoInPlace (fun _ => Faults.none) 2 [0, 1, 1]
      (Pool.start statsFiles statsWorld)).bar = 3 := by
  have h := pool_drains shrinkCodec none demoInPlace (fun _ => Faults.none) 2 statsFiles
    statsWorld
  have h2 := (h.1 (by decide)).1 [0, 1, 1] (by decide)
  exact ⟨by decide, by decide, h2.1, h2.2.1⟩

/-- C6 as stated fails for the worker count 0 (`--threads=0`): no worker is
started, `wg.Wait()` returns at once, and when the summary is computed the
one path found has not been handed to `compressTIFF` and the progress bar has
not advanced, under any schedule (here 0, 0). -/
theorem pool_zero_workers :
    joined 0 (runPool demoCodec none demoInPlace (fun _ => Faults.none) 0 [0, 0]
      (Pool.start ["/d/a.tif".toList] demoWorld)) = true ∧
    (runPool demoCodec none demoInPlace (fun _ => Faults.none) 0 [0, 0]
      (Pool.start ["/d/a.tif".toList] demoWorld)).calls = [] ∧
    (runPool demoCodec none demoInPlace (fun _ => Faults.none) 0 [0, 0]
      (Pool.start ["/d/a.tif".toList] demoWorld)).bar = 0 ∧
    (runPool demoCodec none demoInPlace (fun _ => Faults.none) 0 [0, 0]
      (Pool.start ["/d/a.tif".toList] demoWorld)).jobs = ["/d/a.tif".toList] := by
  decide

/-! ## The size report -/

theorem roundHalfEven_sub_le (m : ℚ) : |(roundHalfEven m : ℚ) - m| ≤ 1 / 2 := by
  have h1 := Int.floor_le m
  have h2 := Int.lt_floor_add_one m
  unfold roundHalfEven
  split_ifs with ha hb hc
  · rw [abs_le]; constructor <;> linarith
  · rw [abs_le]; push_cast; constructor <;> linarith
  · rw [abs_le]; constructor <;> linarith
  · rw [abs_le]; push_cast; constructor <;> linarith

theorem roundHalfEven_eq_of (m : ℚ) (k : ℤ) (h : |m - k| < 1 / 2) : roundHalfEven m = k := by
  rw [abs_lt] at h
  have hd := roundHalfEven_sub_le m
  rw [abs_le] at hd
  have h1 : ((roundHalfEven m : ℤ) : ℚ) - k < 1 := by linarith
  have h2 : (-1 : ℚ) < ((roundHalfEven m : ℤ) : ℚ) - k := by linarith
  have h3 : roundHalfEven m - k < 1 := by exact_mod_cast h1
  have h4 : -1 < roundHalfEven m - k := by exact_mod_cast h2
  omega

theorem roundHalfEven_intCast (k : ℤ) : roundHalfEven (k : ℚ) = k :=
  roundHalfEven_eq_of _ k (by simp)

theorem binExp_spec (x : ℚ) (hx : x ≠ 0) :
    (2 : ℚ) ^ binExp x ≤ |x| ∧ |x| < (2 : ℚ) ^ (binExp x + 1) := by
  have hpos : (0 : ℚ) < |x| := abs_pos.mpr hx
  have h1 := Int.zpow_log_le_self (b := 2) (by norm_num) hpos
  have h2 := Int.lt_zpow_succ_log_self (b := 2) (by norm_num) |x|
  exact ⟨by exact_mod_cast h1, by exact_mod_cast h2⟩

theorem binExp_eq_of (x : ℚ) (e : ℤ) (h1 : (2 : ℚ) ^ e ≤ |x|) (h2 : |x| < (2 : ℚ) ^ (e + 1)) :
    binExp x = e := by
  have hpos : (0 : ℚ) < |x| := lt_of_lt_of_le (by positivity) h1
  have hx : x ≠ 0 := abs_pos.mp hpos
  obtain ⟨h3, h4⟩ := binExp_spec x hx
  have two : (1 : ℚ) < 2 := by norm_num
  have ha : (2 : ℚ) ^ e < (2 : ℚ) ^ (binExp x + 1) := lt_of_le_of_lt h1 h4
  have hb : (2 : ℚ) ^ binExp x < (2 : ℚ) ^ (e + 1) := lt_of_le_of_lt h3 h2
  have ha2 := (zpow_lt_zpow_iff_right₀ two).mp ha
  have hb2 := (zpow_lt_zpow_iff_right₀ two).mp hb
  omega

theorem roundTo53_zero : roundTo53 0 = 0 := by simp [roundTo53]

/-- The value of `roundTo53` where the binary exponent is known. -/
theorem roundTo53_eq_of_exp (x : ℚ) (e : ℤ) (h1 : (2 : ℚ) ^ e ≤ |x|)
    (h2 : |x| < (2 : ℚ) ^ (e + 1)) :
    roundTo53 x = (roundHalfEven (x / 2 ^ (e - 52)) : ℚ) * 2 ^ (e - 52) := by
  have hpos : (0 : ℚ) < |x| := lt_of_lt_of_le (by positivity) h1
  have hx : x ≠ 0 := abs_pos.mp hpos
  rw [roundTo53, if_neg hx, binExp_eq_of x e h1 h2]

/-- The value of `roundTo53` where the binary exponent and the nearest
significand are known. -/
theorem roundTo53_eq_of (x : ℚ) (e m : ℤ) (h1 : (2 : ℚ) ^ e ≤ |x|)
    (h2 : |x| < (2 : ℚ) ^ (e + 1)) (h3 : |x / 2 ^ (e - 52) - m| < 1 / 2) :
    roundTo53 x = (m : ℚ) * 2 ^ (e - 52) := by
  rw [roundTo53_eq_of_exp x e h1 h2, roundHalfEven_eq_of _ m h3]

/-- Rounding to 53 bits moves a value by at most half a unit in the last
place: a relative error of at most `2 ^ (-53)`. -/
theorem roundTo53_error (x : ℚ) : |roundTo53 x - x| ≤ |x| * 2 ^ (-53 : ℤ) := by
  by_cases hx : x = 0
  · subst hx; simp [roundTo53]
  · obtain ⟨h1, -⟩ := binExp_spec x hx
    rw [roundTo53, if_neg hx]
    generalize binExp x = e at h1
    have hu : (0 : ℚ) < 2 ^ (e - 52) := by positivity
    have hr := roundHalfEven_sub_le (x / 2 ^ (e - 52))
    have hmul : |(roundHalfEven (x / 2 ^ (e - 52)) : ℚ) * 2 ^ (e - 52) - x| =
        |(roundHalfEven (x / 2 ^ (e - 52)) : ℚ) - x / 2 ^ (e - 52)| * 2 ^ (e - 52) := by
      rw [← abs_of_pos hu, ← abs_mul, abs_of_pos hu]
      congr 1
      field_simp
    rw [hmul]
    have hsplit : (2 : ℚ) ^ (e - 52) = 2 ^ e * 2 ^ (-52 : ℤ) := by
      rw [← zpow_add₀ (by norm_num : (2 : ℚ) ≠ 0)]; congr 1
    have h53 : (2 : ℚ) ^ (-53 : ℤ) = 1 / 2 * 2 ^ (-52 : ℤ) := by norm_num
    calc |(roundHalfEven (x / 2 ^ (e - 52)) : ℚ) - x / 2 ^ (e - 52)| * 2 ^ (e - 52)
        ≤ 1 / 2 * 2 ^ (e - 52) := mul_le_mul_of_nonneg_right hr hu.le
      _ = 2 ^ e * 2 ^ (-53 : ℤ) := by rw [hsplit, h53]; ring
      _ ≤ |x| * 2 ^ (-53 : ℤ) := mul_le_mul_of_nonneg_right h1 (by positivity)

theorem roundTo53_pos (x : ℚ) (hx : 0 < x) : 0 < roundTo53 x := by
  have h := roundTo53_error x
  rw [abs_le, abs_of_pos hx] at h
  have h53 : (2 : ℚ) ^ (-53 : ℤ) < 1 := by norm_num
  nlinarith [h.1]

theorem roundTo53_neg (x : ℚ) (hx : x < 0) : roundTo53 x < 0 := by
  have h := roundTo53_error x
  rw [abs_le, abs_of_neg hx] at h
  have h53 : (2 : ℚ) ^ (-53 : ℤ) < 1 := by norm_num
  nlinarith [h.2]

theorem roundTo53_ne_zero (x : ℚ) (hx : x ≠ 0) : roundTo53 x ≠ 0 := by
  rcases lt_or_gt_of_ne hx with h | h
  · exact (roundTo53_neg x h).ne
  · exact (roundTo53_pos x h).ne'

/-- Rounding leaves a value with a significand of at most 53 bits as it
is. -/
theorem roundTo53_exact (k j : ℤ) (hk : |k| < 2 ^ 53) :
    roundTo53 ((k : ℚ) * 2 ^ j) = (k : ℚ) * 2 ^ j := by
  by_cases hk0 : k = 0
  · subst hk0; simp [roundTo53]
  · have hj : (0 : ℚ) < 2 ^ j := by positivity
    have hx : (k : ℚ) * 2 ^ j ≠ 0 := mul_ne_zero (by exact_mod_cast hk0) hj.ne'
    obtain ⟨h1, -⟩ := binExp_spec _ hx
    rw [roundTo53, if_neg hx]
    generalize binExp ((k : ℚ) * 2 ^ j) = e at h1
    have two : (1 : ℚ) < 2 := by norm_num
    have hkq : |(k : ℚ)| < 2 ^ (53 : ℤ) := by
      have : ((|k| : ℤ) : ℚ) < ((2 ^ 53 : ℤ) : ℚ) := by exact_mod_cast hk
      rw [Int.cast_abs] at this
      calc |(k : ℚ)| < ((2 ^ 53 : ℤ) : ℚ) := this
        _ = 2 ^ (53 : ℤ) := by norm_num
    have hlt : (2 : ℚ) ^ e < 2 ^ (53 + j) := by
      calc (2 : ℚ) ^ e ≤ |(k : ℚ) * 2 ^ j| := h1
        _ = |(k : ℚ)| * 2 ^ j := by rw [abs_mul, abs_of_pos hj]
        _ < 2 ^ (53 : ℤ) * 2 ^ j := mul_lt_mul_of_pos_right hkq hj
        _ = 2 ^ (53 + j) := by rw [← zpow_add₀ (by norm_num : (2 : ℚ) ≠ 0)]
    have he : e < 53 + j := (zpow_lt_zpow_iff_right₀ two).mp hlt
    obtain ⟨n, hn⟩ : ∃ n : ℕ, j - (e - 52) = n := ⟨(j - (e - 52)).toNat, by omega⟩
    have hdiv : (k : ℚ) * 2 ^ j / 2 ^ (e - 52) = ((k * 2 ^ n : ℤ) : ℚ) := by
      rw [mul_div_assoc, ← zpow_sub₀ (by norm_num : (2 : ℚ) ≠ 0), hn]
      push_cast
      simp
    rw [hdiv, roundHalfEven_intCast]
    push_cast
    rw [mul_assoc, ← zpow_natCast, ← zpow_add₀ (by norm_num : (2 : ℚ) ≠ 0), ← hn]
    congr 2
    ring

theorem roundTo53_intCast (k : ℤ) (hk : |k| < 2 ^ 53) : roundTo53 (k : ℚ) = k := by
  have h := roundTo53_exact k 0 hk
  simpa using h

/-- Two roundings in a row, of a value and of its product by a factor, stay
within a relative error of `2 ^ (-52) + 2 ^ (-106)`. -/
theorem roundTo53_twice (q k : ℚ) :
    |roundTo53 (roundTo53 q * k) - q * k| ≤ |q * k| * (2 ^ (-52 : ℤ) + 2 ^ (-106 : ℤ)) := by
  have h1 := roundTo53_error q
  have h2 := roundTo53_error (roundTo53 q * k)
  have hε : (2 : ℚ) ^ (-52 : ℤ) + 2 ^ (-106 : ℤ) =
      2 ^ (-53 : ℤ) + (1 + 2 ^ (-53 : ℤ)) * 2 ^ (-53 : ℤ) := by norm_num
  rw [hε]
  have hε0 : (0 : ℚ) ≤ 2 ^ (-53 : ℤ) := by positivity
  generalize (2 : ℚ) ^ (-53 : ℤ) = ε at h1 h2 hε0
  rw [abs_mul] at h2 ⊢
  have hk := abs_nonneg k
  have hq := abs_nonneg q
  have hr1 : |roundTo53 q| ≤ |q| + |q| * ε := by
    calc |roundTo53 q| = |(roundTo53 q - q) + q| := by rw [sub_add_cancel]
      _ ≤ |roundTo53 q - q| + |q| := abs_add _ _
      _ ≤ |q| + |q| * ε := by linarith
  have h3 : |roundTo53 q * k - q * k| ≤ |q| * ε * |k| := by
    rw [← sub_mul, abs_mul]
    exact mul_le_mul_of_nonneg_right h1 hk
  have h4 : |roundTo53 (roundTo53 q * k) - roundTo53 q * k| ≤ (|q| + |q| * ε) * |k| * ε := by
    calc |roundTo53 (roundTo53 q * k) - roundTo53 q * k| ≤ |roundTo53 q| * |k| * ε := h2
      _ ≤ (|q| + |q| * ε) * |k| * ε :=
        mul_le_mul_of_nonneg_right (mul_le_mul_of_nonneg_right hr1 hk) hε0
  calc |roundTo53 (roundTo53 q * k) - q * k|
      = |(roundTo53 (roundTo53 q * k) - roundTo53 q * k) + (roundTo53 q * k - q * k)| := by
        rw [sub_add_sub_cancel]
    _ ≤ |roundTo53 (roundTo53 q * k) - roundTo53 q * k| + |roundTo53 q * k - q * k| := abs_add _ _
    _ ≤ (|q| + |q| * ε) * |k| * ε + |q| * ε * |k| := add_le_add h4 h3
    _ = |q| * |k| * (ε + (1 + ε) * ε) := by ring

theorem roundTo53_abs_le (x : ℚ) : |roundTo53 x| ≤ |x| * (1 + 2 ^ (-53 : ℤ)) := by
  have h := roundTo53_error x
  calc |roundTo53 x| = |(roundTo53 x - x) + x| := by rw [sub_add_cancel]
    _ ≤ |roundTo53 x - x| + |x| := abs_add _ _
    _ ≤ |x| * (1 + 2 ^ (-53 : ℤ)) := by linarith

theorem roundTo53_abs_ge (x : ℚ) : |x| * (1 - 2 ^ (-53 : ℤ)) ≤ |roundTo53 x| := by
  have h := roundTo53_error x
  have h2 : |x| ≤ |roundTo53 x - x| + |roundTo53 x| := by
    calc |x| = |(x - roundTo53 x) + roundTo53 x| := by rw [sub_add_cancel]
      _ ≤ |x - roundTo53 x| + |roundTo53 x| := abs_add _ _
      _ = |roundTo53 x - x| + |roundTo53 x| := by rw [abs_sub_comm]
  linarith

theorem roundF64_zero : roundF64 0 = F64.fin 0 := by simp [roundF64]

/-- In the normal range of a `float64`, `roundF64` rounds to 53 bits. -/
theorem roundF64_normal (x : ℚ) (h1 : (2 : ℚ) ^ (-1022 : ℤ) ≤ |x|)
    (h2 : |x| ≤ (2 : ℚ) ^ (1023 : ℤ)) : roundF64 x = F64.fin (roundTo53 x) := by
  have hpos : (0 : ℚ) < |x| := lt_of_lt_of_le (by positivity) h1
  have hx : x ≠ 0 := abs_pos.mp hpos
  obtain ⟨-, h4⟩ := binExp_spec x hx
  have two : (1 : ℚ) < 2 := by norm_num
  have he : (-1022 : ℤ) < binExp x + 1 :=
    (zpow_lt_zpow_iff_right₀ two).mp (lt_of_le_of_lt h1 h4)
  have hmax : max (binExp x) (-1022) = binExp x := max_eq_left (by omega)
  have hr : (roundHalfEven (x / 2 ^ (binExp x - 52)) : ℚ) * 2 ^ (binExp x - 52) =
      roundTo53 x := by rw [roundTo53, if_neg hx]
  have hle := roundTo53_abs_le x
  have hlt : ¬ (2 : ℚ) ^ 1024 ≤ |roundTo53 x| := by
    rw [not_le]
    calc |roundTo53 x| ≤ |x| * (1 + 2 ^ (-53 : ℤ)) := hle
      _ ≤ 2 ^ (1023 : ℤ) * (1 + 2 ^ (-53 : ℤ)) :=
        mul_le_mul_of_nonneg_right h2 (by positivity)
      _ < 2 ^ 1024 := by norm_num
  rw [roundF64, if_neg hx, hmax, hr, if_neg hlt]

/-- A value that is zero or in the normal range rounds to its rounding to 53
bits. -/
theorem roundF64_of_bounds (x : ℚ)
    (h : x = 0 ∨ ((2 : ℚ) ^ (-1022 : ℤ) ≤ |x| ∧ |x| ≤ (2 : ℚ) ^ (1023 : ℤ))) :
    roundF64 x = F64.fin (roundTo53 x) := by
  rcases h with rfl | ⟨h1, h2⟩
  · rw [roundF64_zero, roundTo53_zero]
  · exact roundF64_normal x h1 h2

/-- A value of magnitude at most `2 ^ 1023` rounds to a finite `float64`. -/
theorem roundF64_finite (x : ℚ) (h : |x| ≤ (2 : ℚ) ^ (1023 : ℤ)) :
    ∃ r : ℚ, roundF64 x = F64.fin r ∧ |r| ≤ 2 * |x| + 1 := by
  by_cases hx : x = 0
  · subst hx; exact ⟨0, roundF64_zero, by norm_num⟩
  · obtain ⟨h3, -⟩ := binExp_spec x hx
    have hu : (0 : ℚ) < 2 ^ (max (binExp x) (-1022) - 52) := by positivity
    have hround := roundHalfEven_sub_le (x / 2 ^ (max (binExp x) (-1022) - 52))
    have hu2 : (2 : ℚ) ^ (max (binExp x) (-1022) - 52) ≤
        |x| * 2 ^ (-52 : ℤ) + 2 ^ (-1074 : ℤ) := by
      rcases le_total (binExp x) (-1022) with hle | hle
      · rw [max_eq_right hle]
        have : (0 : ℚ) ≤ |x| * 2 ^ (-52 : ℤ) := by positivity
        have h1074 : (2 : ℚ) ^ ((-1022 : ℤ) - 52) = 2 ^ (-1074 : ℤ) := by norm_num
        rw [h1074]; linarith
      · rw [max_eq_left hle]
        have hsplit : (2 : ℚ) ^ (binExp x - 52) = 2 ^ binExp x * 2 ^ (-52 : ℤ) := by
          rw [← zpow_add₀ (by norm_num : (2 : ℚ) ≠ 0)]; congr 1
        have : (0 : ℚ) ≤ 2 ^ (-1074 : ℤ) := by positivity
        rw [hsplit]
        have := mul_le_mul_of_nonneg_right h3 (by positivity : (0 : ℚ) ≤ 2 ^ (-52 : ℤ))
        linarith
    have hdef : roundF64 x =
        if (2 : ℚ) ^ 1024 ≤ |(roundHalfEven (x / 2 ^ (max (binExp x) (-1022) - 52)) : ℚ) *
            2 ^ (max (binExp x) (-1022) - 52)| then
          (if 0 < x then F64.posInf else F64.negInf)
        else F64.fin ((roundHalfEven (x / 2 ^ (max (binExp x) (-1022) - 52)) : ℚ) *
          2 ^ (max (binExp x) (-1022) - 52)) := by
      rw [roundF64, if_neg hx]
    generalize (2 : ℚ) ^ (max (binExp x) (-1022) - 52) = u at hu hround hu2 hdef
    have hmul : |(roundHalfEven (x / u) : ℚ) * u - x| = |(roundHalfEven (x / u) : ℚ) - x / u| * u := by
      rw [← abs_of_pos hu, ← abs_mul, abs_of_pos hu]
      congr 1
      field_simp
    have herr : |(roundHalfEven (x / u) : ℚ) * u - x| ≤ 1 / 2 * u := by
      rw [hmul]; exact mul_le_mul_of_nonneg_right hround hu.le
    have habs : |(roundHalfEven (x / u) : ℚ) * u| ≤ |x| + 1 / 2 * u := by
      calc |(roundHalfEven (x / u) : ℚ) * u| = |((roundHalfEven (x / u) : ℚ) * u - x) + x| := by
            rw [sub_add_cancel]
        _ ≤ |(roundHalfEven (x / u) : ℚ) * u - x| + |x| := abs_add _ _
        _ ≤ |x| + 1 / 2 * u := by linarith
    have hxn := abs_nonneg x
    have hbound : |(roundHalfEven (x / u) : ℚ) * u| ≤ |x| * (1 + 2 ^ (-53 : ℤ)) + 1 / 2 := by
      have h53 : (2 : ℚ) ^ (-53 : ℤ) = 1 / 2 * 2 ^ (-52 : ℤ) := by norm_num
      have h1074 : (2 : ℚ) ^ (-1074 : ℤ) ≤ 1 := by
        rw [zpow_neg]; exact inv_le_one_of_one_le₀ (one_le_zpow₀ (by norm_num) (by norm_num))
      rw [h53]
      generalize (2 : ℚ) ^ (-52 : ℤ) = a at hu2
      generalize (2 : ℚ) ^ (-1074 : ℤ) = b at hu2 h1074
      have : |x| * (1 + 1 / 2 * a) = |x| + 1 / 2 * (|x| * a) := by ring
      rw [this]
      generalize |x| * a = y at hu2
      linarith
    have hlt : ¬ (2 : ℚ) ^ 1024 ≤ |(roundHalfEven (x / u) : ℚ) * u| := by
      rw [not_le]
      calc |(roundHalfEven (x / u) : ℚ) * u|
          ≤ |x| * (1 + 2 ^ (-53 : ℤ)) + 1 / 2 := hbound
        _ ≤ 2 ^ (1023 : ℤ) * (1 + 2 ^ (-53 : ℤ)) + 1 / 2 :=
          add_le_add_right (mul_le_mul_of_nonneg_right h (by positivity)) _
        _ < 2 ^ 1024 := by norm_num
    refine ⟨(roundHalfEven (x / u) : ℚ) * u, ?_, ?_⟩
    · rw [hdef, if_neg hlt]
    · have h53 : (2 : ℚ) ^ (-53 : ℤ) ≤ 1 := by norm_num
      have hm : |x| * (1 + 2 ^ (-53 : ℤ)) ≤ |x| * (1 + 1) :=
        mul_le_mul_of_nonneg_left (by linarith) hxn
      linarith

/-- One rounding in the normal range: the result is the rounding to 53 bits,
and its magnitude stays within a factor two of the bounds of the argument. -/
theorem roundF64_step (x lo hi : ℚ) (hlo : (2 : ℚ) ^ (-1022 : ℤ) ≤ lo)
    (hhi : hi ≤ (2 : ℚ) ^ (1023 : ℤ)) (h1 : lo ≤ |x|) (h2 : |x| ≤ hi) :
    roundF64 x = F64.fin (roundTo53 x) ∧ lo / 2 ≤ |roundTo53 x| ∧ |roundTo53 x| ≤ 2 * hi := by
  have hge := roundTo53_abs_ge x
  have hle := roundTo53_abs_le x
  have hxn := abs_nonneg x
  have h53 : (2 : ℚ) ^ (-53 : ℤ) ≤ 1 / 2 := by norm_num
  have h53n : (0 : ℚ) ≤ 2 ^ (-53 : ℤ) := by positivity
  generalize (2 : ℚ) ^ (-53 : ℤ) = ε at hge hle h53 h53n
  have ha : |x| * (1 / 2) ≤ |x| * (1 - ε) := mul_le_mul_of_nonneg_left (by linarith) hxn
  have hb : |x| * (1 + ε) ≤ |x| * 2 := mul_le_mul_of_nonneg_left (by linarith) hxn
  exact ⟨roundF64_normal x (le_trans hlo h1) (le_trans h2 hhi), by linarith, by linarith⟩

/-- A value with a significand of at most 53 bits and an exponent in the range
of a `float64` is a `float64`: rounding leaves it as it is. -/
theorem roundF64_exact (k j : ℤ) (hk : |k| < 2 ^ 53) (hj1 : -1022 ≤ j) (hj2 : j ≤ 960) :
    roundF64 ((k : ℚ) * 2 ^ j) = F64.fin ((k : ℚ) * 2 ^ j) := by
  by_cases hk0 : k = 0
  · subst hk0; simp [roundF64_zero]
  · have hj : (0 : ℚ) < 2 ^ j := by positivity
    have two : (1 : ℚ) ≤ 2 := by norm_num
    have hkq : |(k : ℚ)| < 2 ^ (53 : ℤ) := by
      have : ((|k| : ℤ) : ℚ) < ((2 ^ 53 : ℤ) : ℚ) := by exact_mod_cast hk
      rw [Int.cast_abs] at this
      calc |(k : ℚ)| < ((2 ^ 53 : ℤ) : ℚ) := this
        _ = 2 ^ (53 : ℤ) := by norm_num
    have hk1 : (1 : ℚ) ≤ |(k : ℚ)| := by
      have : (1 : ℤ) ≤ |k| := Int.one_le_abs hk0
      have h2 : ((1 : ℤ) : ℚ) ≤ ((|k| : ℤ) : ℚ) := by exact_mod_cast this
      rw [Int.cast_abs] at h2
      simpa using h2
    have habs : |(k : ℚ) * 2 ^ j| = |(k : ℚ)| * 2 ^ j := by rw [abs_mul, abs_of_pos hj]
    have h1 : (2 : ℚ) ^ (-1022 : ℤ) ≤ |(k : ℚ) * 2 ^ j| := by
      rw [habs]
      calc (2 : ℚ) ^ (-1022 : ℤ) ≤ 2 ^ j := zpow_le_zpow_right₀ two hj1
        _ = 1 * 2 ^ j := (one_mul _).symm
        _ ≤ |(k : ℚ)| * 2 ^ j := mul_le_mul_of_nonneg_right hk1 hj.le
    have h2 : |(k : ℚ) * 2 ^ j| ≤ (2 : ℚ) ^ (1023 : ℤ) := by
      rw [habs]
      calc |(k : ℚ)| * 2 ^ j ≤ 2 ^ (53 : ℤ) * 2 ^ j := mul_le_mul_of_nonneg_right hkq.le hj.le
        _ = 2 ^ (53 + j) := by rw [← zpow_add₀ (by norm_num : (2 : ℚ) ≠ 0)]
        _ ≤ 2 ^ (1023 : ℤ) := zpow_le_zpow_right₀ two (by omega)
    rw [roundF64_normal _ h1 h2, roundTo53_exact k j hk]

theorem roundF64_intCast (k : ℤ) (hk : |k| < 2 ^ 53) : roundF64 (k : ℚ) = F64.fin k := by
  have h := roundF64_exact k 0 hk (by norm_num) (by norm_num)
  simpa using h

/-- The conversion of a counter below `2 ^ 53` to mebibytes is exact. -/
theorem toMB_exact (k : ℤ) (hk : |k| < 2 ^ 53) :
    F64.div (F64.ofInt k) (F64.fin (1024 * 1024)) = F64.fin ((k : ℚ) / 2 ^ 20) := by
  have hM : ((1024 : ℚ) * 1024) ≠ 0 := by norm_num
  have hdiv : (k : ℚ) / (1024 * 1024) = (k : ℚ) * 2 ^ (-20 : ℤ) := by norm_num [div_eq_mul_inv]
  have hdiv2 : (k : ℚ) / 2 ^ 20 = (k : ℚ) * 2 ^ (-20 : ℤ) := by norm_num [div_eq_mul_inv]
  rw [F64.ofInt, roundF64_intCast k hk]
  simp only [F64.div, if_neg hM]
  rw [hdiv, roundF64_exact k (-20) hk (by norm_num) (by norm_num), hdiv2]

/-- The conversion to mebibytes of an `int64` counter that is not zero: a
finite value that is not zero, of the sign of the counter. -/
theorem toMB_normal (k : ℤ) (hk0 : k ≠ 0) (hk : |k| ≤ 2 ^ 63) :
    ∃ a : ℚ, F64.div (F64.ofInt k) (F64.fin (1024 * 1024)) = F64.fin a ∧
      (2 : ℚ) ^ (-22 : ℤ) ≤ |a| ∧ |a| ≤ 2 ^ (45 : ℤ) ∧ (0 < k → 0 < a) ∧ (k < 0 → a < 0) := by
  have hM : ((1024 : ℚ) * 1024) ≠ 0 := by norm_num
  have hk1 : (1 : ℚ) ≤ |(k : ℚ)| := by
    have : (1 : ℤ) ≤ |k| := Int.one_le_abs hk0
    have h2 : ((1 : ℤ) : ℚ) ≤ ((|k| : ℤ) : ℚ) := by exact_mod_cast this
    rw [Int.cast_abs] at h2
    simpa using h2
  have hk2 : |(k : ℚ)| ≤ 2 ^ (63 : ℤ) := by
    have h2 : ((|k| : ℤ) : ℚ) ≤ ((2 ^ 63 : ℤ) : ℚ) := by exact_mod_cast hk
    rw [Int.cast_abs] at h2
    calc |(k : ℚ)| ≤ ((2 ^ 63 : ℤ) : ℚ) := h2
      _ = 2 ^ (63 : ℤ) := by norm_num
  obtain ⟨e1, l1, u1⟩ := roundF64_step (k : ℚ) 1 (2 ^ (63 : ℤ)) (by norm_num) (by norm_num)
    hk1 hk2
  have hq : |roundTo53 (k : ℚ) / (1024 * 1024)| = |roundTo53 (k : ℚ)| / (1024 * 1024) := by
    rw [abs_div, abs_of_pos (by norm_num : (0 : ℚ) < 1024 * 1024)]
  obtain ⟨e2, l2, u2⟩ := roundF64_step (roundTo53 (k : ℚ) / (1024 * 1024))
    (2 ^ (-21 : ℤ)) (2 ^ (44 : ℤ)) (by norm_num) (by norm_num)
    (by rw [hq, le_div_iff₀ (by norm_num)]; norm_num at l1 ⊢; linarith)
    (by rw [hq, div_le_iff₀ (by norm_num)]; norm_num at u1 ⊢; linarith)
  refine ⟨roundTo53 (roundTo53 (k : ℚ) / (1024 * 1024)), ?_, ?_, ?_, ?_, ?_⟩
  · rw [F64.ofInt, e1]
    simp only [F64.div, if_neg hM]
    exact e2
  · norm_num at l2 ⊢; linarith
  · norm_num at u2 ⊢; linarith
  · intro hpos
    exact roundTo53_pos _ (div_pos (roundTo53_pos _ (by exact_mod_cast hpos)) (by norm_num))
  · intro hneg
    exact roundTo53_neg _ (div_neg_of_neg_of_pos (roundTo53_neg _ (by exact_mod_cast hneg))
      (by norm_num))

/-- The conversion to mebibytes of an `int64` counter is a finite value. -/
theorem toMB_finite (k : ℤ) (hk : |k| ≤ 2 ^ 63) :
    ∃ b : ℚ, F64.div (F64.ofInt k) (F64.fin (1024 * 1024)) = F64.fin b ∧
      |b| ≤ 2 ^ (45 : ℤ) ∧ (k = 0 → b = 0) ∧ (0 < k → 0 < b) ∧ (k < 0 → b < 0) := by
  by_cases hk0 : k = 0
  · subst hk0
    refine ⟨0, ?_, by norm_num, fun _ => rfl, fun h => absurd h (lt_irrefl _),
      fun h => absurd h (lt_irrefl _)⟩
    simp [F64.ofInt, F64.div, roundF64_zero]
  · obtain ⟨a, h1, -, h3, h4, h5⟩ := toMB_normal k hk0 hk
    exact ⟨a, h1, h3, fun h => absurd h hk0, h4, h5⟩

/-- The summary for totals between 0 and `2 ^ 53`. -/
theorem report_in_range (o c : Int) (ho0 : 0 ≤ o) (ho : o < 2 ^ 53) (hc0 : 0 ≤ c)
    (hc : c < 2 ^ 53) :
    (report o c).origMB = F64.fin ((o : ℚ) / 2 ^ 20) ∧
    (report o c).compMB = F64.fin ((c : ℚ) / 2 ^ 20) ∧
    (report o c).savedMB = F64.fin (((o : ℚ) - c) / 2 ^ 20) ∧
    (0 < o →
      (report o c).savedPct = F64.fin (roundTo53 (roundTo53 (((o : ℚ) - c) / o) * 100)) ∧
      ∃ r : ℚ, (report o c).savedPct = F64.fin r ∧
        |r - ((o : ℚ) - c) / o * 100| ≤
          |((o : ℚ) - c) / o * 100| * (2 ^ (-52 : ℤ) + 2 ^ (-106 : ℤ))) := by
  have hao : |o| < 2 ^ 53 := by rw [abs_of_nonneg ho0]; exact ho
  have hac : |c| < 2 ^ 53 := by rw [abs_of_nonneg hc0]; exact hc
  have hoc : |o - c| < 2 ^ 53 := by rw [abs_lt]; constructor <;> omega
  have horig : (report o c).origMB = F64.fin ((o : ℚ) / 2 ^ 20) := toMB_exact o hao
  have hcomp : (report o c).compMB = F64.fin ((c : ℚ) / 2 ^ 20) := toMB_exact c hac
  have hsaved : (report o c).savedMB = F64.fin (((o : ℚ) - c) / 2 ^ 20) := by
    have hs : (report o c).savedMB = F64.sub (report o c).origMB (report o c).compMB := rfl
    rw [hs, horig, hcomp]
    simp only [F64.sub]
    have h1 : (o : ℚ) / 2 ^ 20 - (c : ℚ) / 2 ^ 20 = ((o - c : ℤ) : ℚ) * 2 ^ (-20 : ℤ) := by
      push_cast; norm_num [div_eq_mul_inv]; ring
    have h2 : ((o : ℚ) - c) / 2 ^ 20 = ((o - c : ℤ) : ℚ) * 2 ^ (-20 : ℤ) := by
      push_cast; norm_num [div_eq_mul_inv]
    rw [h1, roundF64_exact (o - c) (-20) hoc (by norm_num) (by norm_num), h2]
  refine ⟨horig, hcomp, hsaved, ?_⟩
  intro hpos
  have hoq : (0 : ℚ) < (o : ℚ) := by exact_mod_cast hpos
  have hd : (o : ℚ) / 2 ^ 20 ≠ 0 := div_ne_zero hoq.ne' (by norm_num)
  have hp : (report o c).savedPct =
      F64.mul (F64.div (report o c).savedMB (report o c).origMB) (F64.fin 100) := rfl
  have hq : ((o : ℚ) - c) / 2 ^ 20 / ((o : ℚ) / 2 ^ 20) = ((o : ℚ) - c) / o := by
    field_simp
  have hpct : (report o c).savedPct =
      F64.fin (roundTo53 (roundTo53 (((o : ℚ) - c) / o) * 100)) := by
    rw [hp, hsaved, horig]
    simp only [F64.div, if_neg hd]
    rw [hq]
    by_cases hz : o - c = 0
    · have hz2 : (o : ℚ) - c = 0 := by exact_mod_cast hz
      simp [hz2, roundF64_zero, roundTo53_zero, F64.mul]
    · have hn1 : (1 : ℚ) ≤ |(o : ℚ) - c| := by
        have : (1 : ℤ) ≤ |o - c| := Int.one_le_abs hz
        have h2 : ((1 : ℤ) : ℚ) ≤ ((|o - c| : ℤ) : ℚ) := by exact_mod_cast this
        rw [Int.cast_abs] at h2
        simpa using h2
      have hn2 : |(o : ℚ) - c| ≤ 2 ^ (53 : ℤ) := by
        have h2 : ((|o - c| : ℤ) : ℚ) ≤ ((2 ^ 53 : ℤ) : ℚ) := by exact_mod_cast hoc.le
        rw [Int.cast_abs] at h2
        calc |(o : ℚ) - c| = |((o - c : ℤ) : ℚ)| := by push_cast; rfl
          _ ≤ ((2 ^ 53 : ℤ) : ℚ) := h2
          _ = 2 ^ (53 : ℤ) := by norm_num
      have ho1 : (1 : ℚ) ≤ (o : ℚ) := by exact_mod_cast hpos
      have ho2 : (o : ℚ) ≤ 2 ^ (53 : ℤ) := by
        have : ((o : ℤ) : ℚ) ≤ ((2 ^ 53 : ℤ) : ℚ) := by exact_mod_cast ho.le
        calc (o : ℚ) ≤ ((2 ^ 53 : ℤ) : ℚ) := this
          _ = 2 ^ (53 : ℤ) := by norm_num
      have habs : |((o : ℚ) - c) / o| = |(o : ℚ) - c| / o := by
        rw [abs_div, abs_of_pos hoq]
      obtain ⟨e1, l1, u1⟩ := roundF64_step (((o : ℚ) - c) / o) (2 ^ (-53 : ℤ)) (2 ^ (53 : ℤ))
        (by norm_num) (by norm_num)
        (by rw [habs, le_div_iff₀ hoq]
            calc (2 : ℚ) ^ (-53 : ℤ) * o ≤ 2 ^ (-53 : ℤ) * 2 ^ (53 : ℤ) :=
                  mul_le_mul_of_nonneg_left ho2 (by positivity)
              _ = 1 := by norm_num
              _ ≤ |(o : ℚ) - c| := hn1)
        (by rw [habs, div_le_iff₀ hoq]
            calc |(o : ℚ) - c| ≤ 2 ^ (53 : ℤ) := hn2
              _ = 2 ^ (53 : ℤ) * 1 := (mul_one _).symm
              _ ≤ 2 ^ (53 : ℤ) * o := mul_le_mul_of_nonneg_left ho1 (by positivity))
      have h100 : |roundTo53 (((o : ℚ) - c) / o) * 100| =
          |roundTo53 (((o : ℚ) - c) / o)| * 100 := by
        rw [abs_mul, abs_of_pos (by norm_num : (0 : ℚ) < 100)]
      obtain ⟨e2, -, -⟩ := roundF64_step (roundTo53 (((o : ℚ) - c) / o) * 100)
        (2 ^ (-54 : ℤ)) (2 ^ (61 : ℤ)) (by norm_num) (by norm_num)
        (by rw [h100]; norm_num at l1 ⊢; linarith)
        (by rw [h100]; norm_num at u1 ⊢; linarith)
      rw [e1]
      simp only [F64.mul]
      exact e2
  exact ⟨hpct, _, hpct, roundTo53_twice _ 100⟩

/-- The percentage of two `int64` totals is a finite value exactly when the
original total is not zero. -/
theorem report_finite_iff (o c : Int) (ho : |o| ≤ 2 ^ 63) (hc : |c| ≤ 2 ^ 63) :
    (∃ r : ℚ, (report o c).savedPct = F64.fin r) ↔ o ≠ 0 := by
  have hp : (report o c).savedPct =
      F64.mul (F64.div (report o c).savedMB (report o c).origMB) (F64.fin 100) := rfl
  have hs : (report o c).savedMB = F64.sub (report o c).origMB (report o c).compMB := rfl
  have ho1 : (report o c).origMB = F64.div (F64.ofInt o) (F64.fin (1024 * 1024)) := rfl
  have hc1 : (report o c).compMB = F64.div (F64.ofInt c) (F64.fin (1024 * 1024)) := rfl
  obtain ⟨b, hb, hb2, -⟩ := toMB_finite c hc
  rw [hb] at hc1
  constructor
  · rintro ⟨r, hr⟩ rfl
    obtain ⟨a, ha, -, ha0, -⟩ := toMB_finite 0 (by norm_num)
    rw [ha, ha0 rfl] at ho1
    rw [hp, ho1] at hr
    cases hsv : (report 0 c).savedMB <;> rw [hsv] at hr <;>
      simp only [F64.div, F64.mul, if_true] at hr <;> (try split_ifs at hr) <;>
      simp [F64.mul] at hr
  · intro hne
    obtain ⟨a, ha, ha1, ha2, -⟩ := toMB_normal o hne ho
    rw [ha] at ho1
    have hane : a ≠ 0 := by
      intro h0
      rw [h0, abs_zero] at ha1
      exact absurd ha1 (not_le.mpr (by positivity))
    have hab : |a - b| ≤ 2 ^ (46 : ℤ) := by
      calc |a - b| ≤ |a| + |b| := abs_sub a b
        _ ≤ 2 ^ (45 : ℤ) + 2 ^ (45 : ℤ) := add_le_add ha2 hb2
        _ = 2 ^ (46 : ℤ) := by norm_num
    obtain ⟨s, hs1, hs2⟩ := roundF64_finite (a - b) (le_trans hab (by norm_num))
    have hsa : |s / a| ≤ 2 ^ (70 : ℤ) := by
      rw [abs_div, div_le_iff₀ (abs_pos.mpr hane)]
      calc |s| ≤ 2 * |a - b| + 1 := hs2
        _ ≤ 2 * 2 ^ (46 : ℤ) + 1 := by linarith
        _ ≤ 2 ^ (70 : ℤ) * 2 ^ (-22 : ℤ) := by norm_num
        _ ≤ 2 ^ (70 : ℤ) * |a| := mul_le_mul_of_nonneg_left ha1 (by positivity)
    obtain ⟨t, ht1, ht2⟩ := roundF64_finite (s / a) (le_trans hsa (by norm_num))
    have ht100 : |t * 100| ≤ 2 ^ (1023 : ℤ) := by
      rw [abs_mul, abs_of_pos (by norm_num : (0 : ℚ) < 100)]
      calc |t| * 100 ≤ (2 * 2 ^ (70 : ℤ) + 1) * 100 :=
            mul_le_mul_of_nonneg_right (by linarith) (by norm_num)
        _ ≤ 2 ^ (1023 : ℤ) := by norm_num
    obtain ⟨p, hp1, -⟩ := roundF64_finite (t * 100) ht100
    refine ⟨p, ?_⟩
    rw [hp, hs, ho1, hc1]
    simp only [F64.sub, hs1, F64.div, if_neg hane, ht1, F64.mul, hp1]

/-- The summary when the original total is zero. -/
theorem report_zero_total (c : Int) (hc : |c| ≤ 2 ^ 63) :
    (report 0 c).origMB = F64.fin 0 ∧
    (report 0 c).savedPct =
      F64.mul (F64.div (report 0 c).savedMB (F64.fin 0)) (F64.fin 100) ∧
    (c = 0 → (report 0 c).savedPct = F64.nan) ∧
    (0 < c → (report 0 c).savedPct = F64.negInf) ∧
    (c < 0 → (report 0 c).savedPct = F64.posInf) := by
  have hM : ((1024 : ℚ) * 1024) ≠ 0 := by norm_num
  have horig : (report 0 c).origMB = F64.fin 0 := by
    simp [report, F64.div, F64.ofInt, roundF64_zero]
  have hp : (report 0 c).savedPct =
      F64.mul (F64.div (report 0 c).savedMB (report 0 c).origMB) (F64.fin 100) := rfl
  rw [horig] at hp
  have hs : (report 0 c).savedMB = F64.sub (report 0 c).origMB (report 0 c).compMB := rfl
  have hc1 : (report 0 c).compMB = F64.div (F64.ofInt c) (F64.fin (1024 * 1024)) := rfl
  rw [horig] at hs
  refine ⟨horig, hp, ?_, ?_, ?_⟩
  · rintro rfl
    obtain ⟨b, hb, -, hb0, -⟩ := toMB_finite 0 (by norm_num)
    rw [hb, hb0 rfl] at hc1
    rw [hp, hs, hc1]
    simp [F64.sub, F64.div, F64.mul, roundF64_zero]
  · intro hpos
    obtain ⟨b, hb, hb1, hb2, hb3, -⟩ := toMB_normal c hpos.ne' hc
    rw [hb] at hc1
    have hbpos := hb3 hpos
    obtain ⟨e1, -, -⟩ := roundF64_step (0 - b) (2 ^ (-22 : ℤ)) (2 ^ (45 : ℤ)) (by norm_num)
      (by norm_num) (by rw [zero_sub, abs_neg]; exact hb1) (by rw [zero_sub, abs_neg]; exact hb2)
    have hneg : roundTo53 (0 - b) < 0 := roundTo53_neg _ (by linarith)
    rw [hp, hs, hc1]
    simp only [F64.sub, e1, F64.div, if_true, if_neg hneg.ne, if_neg (not_lt.mpr hneg.le),
      F64.mul]
    norm_num
  · intro hneg
    obtain ⟨b, hb, hb1, hb2, -, hb4⟩ := toMB_normal c hneg.ne hc
    rw [hb] at hc1
    have hbneg := hb4 hneg
    obtain ⟨e1, -, -⟩ := roundF64_step (0 - b) (2 ^ (-22 : ℤ)) (2 ^ (45 : ℤ)) (by norm_num)
      (by norm_num) (by rw [zero_sub, abs_neg]; exact hb1) (by rw [zero_sub, abs_neg]; exact hb2)
    have hpos : 0 < roundTo53 (0 - b) := roundTo53_pos _ (by linarith)
    rw [hp, hs, hc1]
    simp only [F64.sub, e1, F64.div, if_true, if_neg hpos.ne', if_pos hpos, F64.mul]
    norm_num

theorem roundTo53_two_thirds : roundTo53 (2 / 3) = 6004799503160661 / 2 ^ 53 := by
  have h := roundTo53_eq_of (2 / 3) (-1) 6004799503160661
    (by rw [abs_of_pos (by norm_num)]; norm_num)
    (by rw [abs_of_pos (by norm_num)]; norm_num)
    (by rw [abs_lt]; constructor <;> norm_num)
  rw [h]; norm_num

theorem roundTo53_two_thirds_pct :
    roundTo53 (6004799503160661 / 2 ^ 53 * 100) = 2345624805922133 / 2 ^ 45 := by
  have h := roundTo53_eq_of (6004799503160661 / 2 ^ 53 * 100) 6 4691249611844266
    (by rw [abs_of_pos (by norm_num)]; norm_num)
    (by rw [abs_of_pos (by norm_num)]; norm_num)
    (by rw [abs_lt]; constructor <;> norm_num)
  rw [h]; norm_num

/-- The integer `2 ^ 53 + 1` lies halfway between two `float64` values and
rounds to the even one, `2 ^ 53`. -/
theorem roundF64_tie : roundF64 (2 ^ 53 + 1) = F64.fin (2 ^ 53) := by
  have h := roundTo53_eq_of_exp (2 ^ 53 + 1) 53
    (by rw [abs_of_pos (by norm_num)]; norm_num)
    (by rw [abs_of_pos (by norm_num)]; norm_num)
  have hf : ⌊((2 : ℚ) ^ 53 + 1) / 2 ^ ((53 : ℤ) - 52)⌋ = 2 ^ 52 := by
    rw [Int.floor_eq_iff]; constructor <;> norm_num
  have hr : roundHalfEven (((2 : ℚ) ^ 53 + 1) / 2 ^ ((53 : ℤ) - 52)) = 2 ^ 52 := by
    unfold roundHalfEven
    rw [hf]
    norm_num
  rw [hr] at h
  rw [roundF64_normal _ (by rw [abs_of_pos (by norm_num)]; norm_num)
    (by rw [abs_of_pos (by norm_num)]; norm_num), h]
  norm_num

/-- C9 (amended). For totals `o` and `c` between 0 and `2 ^ 53`, the values
of the summary in mebibytes are exact: `origMB = o / 2 ^ 20`,
`compMB = c / 2 ^ 20` and `savedMB = (o - c) / 2 ^ 20`, the saved bytes being
the original total less the compressed total; when `o` is positive, `savedPct`
is the quotient `(o - c) / o` rounded to a `float64`, multiplied by 100 and
rounded again: a finite value within a relative error of
`2 ^ (-52) + 2 ^ (-106)` of `(o - c) / o * 100`.  Nothing guards the
percentage: for all `int64` totals it is a finite value exactly when the
original total is not zero, and with the original total zero the quotient
`savedMB / origMB` has the divisor zero and the percentage is NaN when the
compressed total is zero too, an infinity otherwise. -/
theorem report_percentage :
    (∀ o c : Int, 0 ≤ o → o < 2 ^ 53 → 0 ≤ c → c < 2 ^ 53 →
      (report o c).origMB = F64.fin ((o : ℚ) / 2 ^ 20) ∧
      (report o c).compMB = F64.fin ((c : ℚ) / 2 ^ 20) ∧
      (report o c).savedMB = F64.fin (((o : ℚ) - c) / 2 ^ 20) ∧
      (0 < o →
        (report o c).savedPct = F64.fin (roundTo53 (roundTo53 (((o : ℚ) - c) / o) * 100)) ∧
        ∃ r : ℚ, (report o c).savedPct = F64.fin r ∧
          |r - ((o : ℚ) - c) / o * 100| ≤
            |((o : ℚ) - c) / o * 100| * (2 ^ (-52 : ℤ) + 2 ^ (-106 : ℤ)))) ∧
    (∀ o c : Int, |o| ≤ 2 ^ 63 → |c| ≤ 2 ^ 63 →
      ((∃ r : ℚ, (report o c).savedPct = F64.fin r) ↔ o ≠ 0)) ∧
    (∀ c : Int, |c| ≤ 2 ^ 63 →
      (report 0 c).origMB = F64.fin 0 ∧
      (report 0 c).savedPct =
        F64.mul (F64.div (report 0 c).savedMB (F64.fin 0)) (F64.fin 100) ∧
      (c = 0 → (report 0 c).savedPct = F64.nan) ∧
      (0 < c → (report 0 c).savedPct = F64.negInf) ∧
      (c < 0 → (report 0 c).savedPct = F64.posInf)) :=
  ⟨report_in_range, report_finite_iff, report_zero_total⟩

/-- C9 (amended), at the totals 4 and 1: the values in mebibytes are exact and
the percentage is a finite value within the bound of 75. -/
theorem report_percentage_witness :
    (report 4 1).origMB = F64.fin (((4 : Int) : ℚ) / 2 ^ 20) ∧
    (report 4 1).compMB = F64.fin (((1 : Int) : ℚ) / 2 ^ 20) ∧
    (report 4 1).savedMB = F64.fin ((((4 : Int) : ℚ) - ((1 : Int) : ℚ)) / 2 ^ 20) ∧
    ∃ r : ℚ, (report 4 1).savedPct = F64.fin r ∧
      |r - (((4 : Int) : ℚ) - ((1 : Int) : ℚ)) / ((4 : Int) : ℚ) * 100| ≤
        |(((4 : Int) : ℚ) - ((1 : Int) : ℚ)) / ((4 : Int) : ℚ) * 100| *
          (2 ^ (-52 : ℤ) + 2 ^ (-106 : ℤ)) :=
  have h := report_percentage.1 4 1 (by norm_num) (by norm_num) (by norm_num) (by norm_num)
  ⟨h.1, h.2.1, h.2.2.1, (h.2.2.2 (by norm_num)).2⟩

/-- C9 as stated fails. With both totals zero the division `savedMB / origMB`
is evaluated with both operands zero and the percentage is NaN, neither zero
nor left out: this is what `main` reports when every file found failed, as
after the pool has run on the one file `/d/c.tif`, which does not decode.
With the totals 3 and 1 the percentage is the `float64`
`2345624805922133 / 2 ^ 45` (printed 66.66666666666666), not `(3 - 1) / 3 * 100`.
With the totals `2 ^ 53 + 1` and 0 the conversion to `float64` rounds, and
`savedMB` is `2 ^ 33`, not `(2 ^ 53 + 1 - 0) / 2 ^ 20`. -/
theorem report_divides_by_zero :
    (report 0 0).origMB = F64.fin 0 ∧ (report 0 0).savedMB = F64.fin 0 ∧
    F64.div (report 0 0).savedMB (report 0 0).origMB = F64.nan ∧
    (report 0 0).savedPct = F64.nan ∧
    joined 1 (runPool shrinkCodec none demoInPlace (fun _ => Faults.none) 1 [0]
      (Pool.start ["/d/c.tif".toList] statsWorld)) = true ∧
    (summary (runPool shrinkCodec none demoInPlace (fun _ => Faults.none) 1 [0]
      (Pool.start ["/d/c.tif".toList] statsWorld))).savedPct = F64.nan ∧
    (report 3 1).savedPct = F64.fin (2345624805922133 / 2 ^ 45) ∧
    (report 3 1).savedPct ≠ F64.fin (((3 : ℚ) - 1) / 3 * 100) ∧
    (report (2 ^ 53 + 1) 0).savedMB = F64.fin (2 ^ 33) ∧
    (report (2 ^ 53 + 1) 0).savedMB ≠ F64.fin (((2 : ℚ) ^ 53 + 1 - 0) / 2 ^ 20) := by
  have hM : ((1024 : ℚ) * 1024) ≠ 0 := by norm_num
  have h0 := report_zero_total 0 (by norm_num)
  have horig : (report 0 0).origMB = F64.fin 0 := h0.1
  have hsaved : (report 0 0).savedMB = F64.fin 0 := by
    have h := (report_in_range 0 0 (by norm_num) (by norm_num) (by norm_num)
      (by norm_num)).2.2.1
    rw [h]; norm_num
  have hnan : (report 0 0).savedPct = F64.nan := h0.2.2.1 rfl
  have h1 : (runPool shrinkCodec none demoInPlace (fun _ => Faults.none) 1 [0]
      (Pool.start ["/d/c.tif".toList] statsWorld)).world.totalOriginalBytes = 0 := by decide
  have h2 : (runPool shrinkCodec none demoInPlace (fun _ => Faults.none) 1 [0]
      (Pool.start ["/d/c.tif".toList] statsWorld)).world.totalCompressedBytes = 0 := by decide
  have h31 : (report 3 1).savedPct = F64.fin (2345624805922133 / 2 ^ 45) := by
    have h := ((report_in_range 3 1 (by norm_num) (by norm_num) (by norm_num)
      (by norm_num)).2.2.2 (by norm_num)).1
    rw [h]
    have hq : (((3 : Int) : ℚ) - ((1 : Int) : ℚ)) / ((3 : Int) : ℚ) = 2 / 3 := by norm_num
    rw [hq, roundTo53_two_thirds, roundTo53_two_thirds_pct]
  have hbig : (report (2 ^ 53 + 1) 0).savedMB = F64.fin (2 ^ 33) := by
    have hc : (((2 ^ 53 + 1 : Int)) : ℚ) = 2 ^ 53 + 1 := by norm_num
    have e1 : F64.ofInt (2 ^ 53 + 1) = F64.fin (2 ^ 53) := by
      rw [F64.ofInt, hc, roundF64_tie]
    have h33 : ((2 : ℚ) ^ 53) / (1024 * 1024) = ((1 : ℤ) : ℚ) * 2 ^ (33 : ℤ) := by norm_num
    have h33b : ((1 : ℤ) : ℚ) * 2 ^ (33 : ℤ) = 2 ^ 33 := by norm_num
    have hx : roundF64 (((1 : ℤ) : ℚ) * 2 ^ (33 : ℤ)) = F64.fin (((1 : ℤ) : ℚ) * 2 ^ (33 : ℤ)) :=
      roundF64_exact 1 33 (by norm_num) (by norm_num) (by norm_num)
    have e2 : F64.div (F64.fin (2 ^ 53)) (F64.fin (1024 * 1024)) = F64.fin (2 ^ 33) := by
      simp only [F64.div, if_neg hM]
      rw [h33, hx, h33b]
    have e3 : F64.div (F64.ofInt 0) (F64.fin (1024 * 1024)) = F64.fin 0 := by
      rw [toMB_exact 0 (by norm_num)]; norm_num
    have e4 : F64.sub (F64.fin (2 ^ 33)) (F64.fin 0) = F64.fin (2 ^ 33) := by
      simp only [F64.sub, sub_zero]
      rw [← h33b, hx]
    have hs : (report (2 ^ 53 + 1) 0).savedMB =
        F64.sub (F64.div (F64.ofInt (2 ^ 53 + 1)) (F64.fin (1024 * 1024)))
          (F64.div (F64.ofInt 0) (F64.fin (1024 * 1024))) := rfl
    rw [hs, e1, e2, e3, e4]
  refine ⟨horig, hsaved, ?_, hnan, by decide, ?_, h31, ?_, hbig, ?_⟩
  · rw [horig, hsaved]; simp [F64.div]
  · rw [summary, h1, h2]; exact hnan
  · rw [h31]; norm_num
  · rw [hbig]; norm_num

end TiffCompressor
